import Mathlib

/-!
Shallow embedding of the sokoban-rs core solver
(src/solve/state.rs and src/solver/solver.rs) and proofs about it.

Conventions of the embedding:
* machine integers (`i32`, `usize`) become `Int` / `Nat`;
* `Vector2<i32>` becomes `Pos := Int × Int`;
* `HashSet` / `HashMap` become lists with set / first-match association
  semantics (the source only uses membership, insert, remove and lookup);
* every `while` loop and every recursion whose termination the source does
  not make structural takes an explicit fuel argument; running out of fuel
  yields `none` (for `Option`-valued translations) and is distinguished
  from the source returning `None`, which is `some none`;
* a Rust `unwrap()` that can panic is translated to `Option`: the panic
  branch propagates as the outer `none`.
-/

namespace Sokoban

/-- Position on the grid, a 2-D integer vector (`Vector2<i32>`). -/
abbrev Pos := Int × Int

/-- Componentwise vector addition on positions. -/
def posAdd (a b : Pos) : Pos := (a.1 + b.1, a.2 + b.2)

/-- Componentwise vector subtraction on positions. -/
def posSub (a b : Pos) : Pos := (a.1 - b.1, a.2 - b.2)

/-- The four cardinal directions. -/
inductive Direction where
  | up
  | down
  | left
  | right
deriving DecidableEq, Repr

/-- Unit vector of a direction (`Direction::to_vector`); y grows downward. -/
def Direction.toVector : Direction → Pos
  | .up => (0, -1)
  | .down => (0, 1)
  | .left => (-1, 0)
  | .right => (1, 0)

/-- The direction list `[Up, Down, Left, Right]` used by every iteration
in the source. -/
def dirList : List Direction := [.up, .down, .left, .right]

/-- Partial inverse of `toVector` (`Direction::try_from` on a vector). -/
def Direction.tryFrom (v : Pos) : Option Direction :=
  if v = ((0 : Int), (-1 : Int)) then some .up
  else if v = ((0 : Int), (1 : Int)) then some .down
  else if v = ((-1 : Int), (0 : Int)) then some .left
  else if v = ((1 : Int), (0 : Int)) then some .right
  else none

/-- A player action: a bare move or a box push (`Action`). -/
inductive Action where
  | move (d : Direction)
  | push (d : Direction)
deriving DecidableEq, Repr

/-- Total number of actions in a movement sequence.
Modelled from the spec: the `Movements`/`Actions` container of the
repository is not under src/; the spec states `moves()` counts all
actions. -/
def movesCount (ms : List Action) : Nat := ms.length

/-- Number of `Push` actions in a movement sequence.
Modelled from the spec: `pushes()` counts the Push actions only. -/
def pushesCount (ms : List Action) : Nat :=
  (ms.filter (fun a => match a with | .push _ => true | .move _ => false)).length

/-- Manhattan distance between two positions (`manhattan_distance`). -/
def manhattan_distance (a b : Pos) : Int :=
  ((a.1 - b.1).natAbs : Int) + ((a.2 - b.2).natAbs : Int)

/-!  The level.

Modelled from the spec: the grid/tile type (`Level`) lives outside src/.
Per the spec it is a rectangular bitmask grid over
{Wall, Floor, Target, Deadlock, Tunnel} carrying the initial player
position, the initial box positions and the set of target positions
(the cells with the Target/Goal flag).  The `goals` list doubles as the
iteration order of `target_positions`. -/
structure Level where
  dimX : Int
  dimY : Int
  walls : List Pos
  floors : List Pos
  goals : List Pos
  deadlocks : List Pos
  playerStart : Pos
  crateStart : List Pos
deriving DecidableEq

/-- Wall test on a cell (`tile.intersects(Tile::Wall)`). -/
def Level.isWall (l : Level) (p : Pos) : Bool := decide (p ∈ l.walls)

/-- Floor test on a cell (`tile.intersects(Tile::Floor)`). -/
def Level.isFloor (l : Level) (p : Pos) : Bool := decide (p ∈ l.floors)

/-- Target/Goal test on a cell (`tile.intersects(Tiles::Goal)`). -/
def Level.isGoal (l : Level) (p : Pos) : Bool := decide (p ∈ l.goals)

/-- Deadlock-flag test on a cell (`tile.intersects(Tile::Deadlock)`). -/
def Level.isDeadlock (l : Level) (p : Pos) : Bool := decide (p ∈ l.deadlocks)

/-- Helper for integer ranges: `n` consecutive integers from `a`. -/
def intRangeAux (a : Int) : Nat → List Int
  | 0 => []
  | n + 1 => a :: intRangeAux (a + 1) n

/-- Integer range `[a, b)` as a list, for the `for x in a..b` loops. -/
def intRange (a b : Int) : List Int := intRangeAux a (b - a).toNat

/-- Interior cells in the iteration order of the nested source loops
`for x in 1..dimX-1 { for y in 1..dimY-1 }`. -/
def interiorCells (l : Level) : List Pos :=
  (intRange 1 (l.dimX - 1)).flatMap
    (fun x => (intRange 1 (l.dimY - 1)).map (fun y => ((x, y) : Pos)))

/-!  Association lists standing in for `HashMap`.
`alookup` finds the first binding; inserting conses a new binding, which
shadows any older one, matching `HashMap::insert` observably. -/

/-- First-match lookup in an association list keyed by positions. -/
def alookup {β : Type} : List (Pos × β) → Pos → Option β
  | [], _ => none
  | (q, v) :: t, p => if q = p then some v else alookup t p

/-!  The Rust `std::collections::BinaryHeap`, translated exactly:
`push` appends and sifts up; `pop` removes the last element, swaps it to
the root and runs `sift_down_to_bottom` (move the hole to the bottom
along the larger-child path, ties preferring the right child, then sift
the element up).  `le` is the `Ord` of the element type. -/

/-- Swap two indices of a list; out-of-range indices leave it unchanged. -/
def listSwap {α : Type} (l : List α) (i j : Nat) : List α :=
  match l[i]?, l[j]? with
  | some a, some b => (l.set i b).set j a
  | _, _ => l

/-- Sift the element at `pos` up toward `start`, stopping at the first
parent not smaller than it (`BinaryHeap::sift_up`, swap formulation). -/
def siftUp {α : Type} (le : α → α → Bool) : Nat → List α → Nat → Nat → List α
  | 0, l, _, _ => l
  | fuel + 1, l, start, pos =>
    if pos ≤ start then l
    else
      let parent := (pos - 1) / 2
      match l[pos]?, l[parent]? with
      | some x, some p =>
        if le x p then l
        else siftUp le fuel (listSwap l pos parent) start parent
      | _, _ => l

/-- Move the element at `pos` down to the bottom along the larger-child
path (ties prefer the right child), returning the list and the final
index (`BinaryHeap::sift_down_to_bottom`, descent phase). -/
def siftDownBottomAux {α : Type} (le : α → α → Bool) :
    Nat → List α → Nat → List α × Nat
  | 0, l, pos => (l, pos)
  | fuel + 1, l, pos =>
    let n := l.length
    let child := 2 * pos + 1
    if child + 2 ≤ n then
      match l[child]?, l[child + 1]? with
      | some a, some b =>
        let c := if le a b then child + 1 else child
        siftDownBottomAux le fuel (listSwap l pos c) c
      | _, _ => (l, pos)
    else if child + 1 = n then (listSwap l pos child, child)
    else (l, pos)

/-- Full `sift_down_to_bottom`: descend to the bottom, then sift up. -/
def siftDownToBottom {α : Type} (le : α → α → Bool) (l : List α) (pos : Nat) :
    List α :=
  let r := siftDownBottomAux le (l.length + 1) l pos
  siftUp le (r.2 + 1) r.1 pos r.2

/-- The Rust `BinaryHeap`, a max-heap over the comparison `le`. -/
structure RustHeap (α : Type) where
  data : List α
deriving DecidableEq

/-- The empty heap. -/
def RustHeap.empty {α : Type} : RustHeap α := ⟨[]⟩

/-- Push onto the heap (`BinaryHeap::push`). -/
def RustHeap.push {α : Type} (le : α → α → Bool) (h : RustHeap α) (x : α) :
    RustHeap α :=
  let d := h.data ++ [x]
  ⟨siftUp le d.length d 0 (d.length - 1)⟩

/-- Pop the greatest element (`BinaryHeap::pop`). -/
def RustHeap.pop {α : Type} (le : α → α → Bool) (h : RustHeap α) :
    Option (α × RustHeap α) :=
  match h.data.getLast? with
  | none => none
  | some item =>
    match h.data.dropLast with
    | [] => some (item, ⟨[]⟩)
    | top :: rest =>
      some (top, ⟨siftDownToBottom le (item :: rest) 0⟩)

/-!  A* pathfinding (`find_path` in solver.rs). -/

/-- An open-set entry: position plus priority (`Node`). -/
structure Node where
  position : Pos
  heuristic : Int
deriving DecidableEq

/-- The `Ord` of `Node`: comparisons are reversed so the max-heap pops the
smallest priority. -/
def nodeLe (a b : Node) : Bool := decide (b.heuristic ≤ a.heuristic)

/-- The loop state of `find_path`: open set, parent map and cost map. -/
structure AStarState where
  openSet : RustHeap Node
  cameFrom : List (Pos × Pos)
  cost : List (Pos × Int)
deriving DecidableEq

/-- Rebuild the path by walking `came_from` from `goal` back to `start`
(the `while current != *from` loop); `none` models the lookup panic or
running out of fuel. -/
def reconstructPath (cameFrom : List (Pos × Pos)) (start : Pos) :
    Nat → Pos → Option (List Pos)
  | 0, _ => none
  | fuel + 1, cur =>
    if cur = start then some [start]
    else
      match alookup cameFrom cur with
      | none => none
      | some prev => (reconstructPath cameFrom start fuel prev).map (· ++ [cur])

/-- Expand one neighbor direction of the popped node: relax its cost and
push it if improved.  The outer `none` models the `cost[&node.position]`
panic, which the search never reaches. -/
def expandDir (blocked : Pos → Bool) (goal : Pos) (nodePos : Pos)
    (d : Direction) (st : AStarState) : Option AStarState :=
  let np := posAdd nodePos d.toVector
  if blocked np then some st
  else
    match alookup st.cost nodePos with
    | none => none
    | some g =>
      let newCost := g + 1
      let better :=
        match alookup st.cost np with
        | none => true
        | some old => decide (newCost < old)
      if better then
        some
          { openSet := st.openSet.push nodeLe
              ⟨np, newCost + manhattan_distance np goal⟩
            cameFrom := (np, nodePos) :: st.cameFrom
            cost := (np, newCost) :: st.cost }
      else some st

/-- Expand all four directions of a popped node, in source order. -/
def expandNode (blocked : Pos → Bool) (goal : Pos) (nodePos : Pos)
    (st : AStarState) : Option AStarState :=
  match expandDir blocked goal nodePos .up st with
  | none => none
  | some s1 =>
    match expandDir blocked goal nodePos .down s1 with
    | none => none
    | some s2 =>
      match expandDir blocked goal nodePos .left s2 with
      | none => none
      | some s3 => expandDir blocked goal nodePos .right s3

/-- Main loop of `find_path`: `some none` is the source returning `None`
(open set exhausted); `some (some p)` is a found path; `none` is fuel
exhaustion or a panic. -/
def findPathLoop (blocked : Pos → Bool) (start goal : Pos) :
    Nat → AStarState → Option (Option (List Pos))
  | 0, _ => none
  | fuel + 1, st =>
    match RustHeap.pop nodeLe st.openSet with
    | none => some none
    | some (node, heap') =>
      if node.position = goal then
        match reconstructPath st.cameFrom start (fuel + 1) goal with
        | none => none
        | some p => some (some p)
      else
        match expandNode blocked goal node.position { st with openSet := heap' } with
        | none => none
        | some st' => findPathLoop blocked start goal fuel st'

/-- `find_path(from, to, is_block)`: A* over 4-connected cells with the
Manhattan heuristic and unit step cost. -/
def find_path (fuel : Nat) (start goal : Pos) (blocked : Pos → Bool) :
    Option (Option (List Pos)) :=
  findPathLoop blocked start goal fuel
    { openSet := RustHeap.push nodeLe RustHeap.empty
        ⟨start, manhattan_distance start goal⟩
      cameFrom := []
      cost := [(start, 0)] }

/-!  Solver construction: lower-bound table and tunnel set. -/

/-- First minimum of a list under an integer key (`Iterator::min_by_key`,
which keeps the first of several equal minima). -/
def minByKeyFirst (key : Pos → Int) : List Pos → Option Pos
  | [] => none
  | x :: xs =>
    match minByKeyFirst key xs with
    | none => some x
    | some m => if key x ≤ key m then some x else some m

/-- Body of `calculate_lower_bounds` for one interior cell: skip non-Floor
or Deadlock cells, find the Manhattan-nearest target (first of ties),
run wall-blocked A* to it and store `path.len() - 1`.  `some none` is
the panic of either `unwrap()` (empty targets, or A* failure). -/
def lowerBoundCell (fuel : Nat) (l : Level) (acc : List (Pos × Nat)) (p : Pos) :
    Option (Option (List (Pos × Nat))) :=
  if !(l.isFloor p) || l.isDeadlock p then some (some acc)
  else
    match minByKeyFirst (fun t => manhattan_distance t p) l.goals with
    | none => some none
    | some tgt =>
      match find_path fuel p tgt (fun q => l.isWall q) with
      | none => none
      | some none => some none
      | some (some path) => some (some ((p, path.length - 1) :: acc))

/-- Fold `lowerBoundCell` over a list of cells. -/
def lowerBoundsFold (fuel : Nat) (l : Level) :
    List Pos → List (Pos × Nat) → Option (Option (List (Pos × Nat)))
  | [], acc => some (some acc)
  | p :: rest, acc =>
    match lowerBoundCell fuel l acc p with
    | none => none
    | some none => some none
    | some (some acc') => lowerBoundsFold fuel l rest acc'

/-- `Solver::calculate_lower_bounds`: per-cell distance-to-target table
over the interior cells. -/
def calculate_lower_bounds (fuel : Nat) (l : Level) :
    Option (Option (List (Pos × Nat))) :=
  lowerBoundsFold fuel l (interiorCells l) []

/-- `Solver::calculate_tunnel_positions`, combined with the spec's
direction association: the source stores a direction-less Tunnel flag
when both neighbors along an axis are walls; the spec defines the tunnel
set consumed by the successor generator as
{(cell, dir) : cell flagged along the axis perpendicular to dir}.
Modelled from the spec for that association. -/
def calculate_tunnel_positions (l : Level) : List (Pos × Direction) :=
  (interiorCells l).flatMap (fun p =>
    if !(l.isFloor p) then []
    else
      (if l.isWall (posAdd p Direction.up.toVector) &&
          l.isWall (posAdd p Direction.down.toVector) then
        [(p, Direction.left), (p, Direction.right)]
      else []) ++
      (if l.isWall (posAdd p Direction.left.toVector) &&
          l.isWall (posAdd p Direction.right.toVector) then
        [(p, Direction.up), (p, Direction.down)]
      else []))

/-- Search strategy (`Strategy`). -/
inductive Strategy where
  | fast
  | optimalMovePush
  | optimalPushMove
  | mixed
deriving DecidableEq, Repr

/-- The read-only solver context: level, strategy, precomputed tables and
the modelling fuel used for every inner loop. -/
structure Solver where
  level : Level
  strategy : Strategy
  lowerBounds : List (Pos × Nat)
  tunnels : List (Pos × Direction)
  fuel : Nat
deriving DecidableEq

/-- Build the solver context from a level (`Solver::from(level)` plus the
lazy `lower_bounds()` initialization, done eagerly here; `some none`
propagates the table-construction panic). -/
def mkSolver (fuel : Nat) (l : Level) (strat : Strategy) :
    Option (Option Solver) :=
  match calculate_lower_bounds fuel l with
  | none => none
  | some none => some none
  | some (some t) =>
    some (some ⟨l, strat, t, calculate_tunnel_positions l, fuel⟩)

/-!  Search states. -/

/-- A search node (`State`): player, box set (as a duplicate-free list),
movement log and the precomputed heuristic.  The lazily memoized
`lower_bound` cell is modelled by recomputation, which the spec licenses
("lazy memoization is an optimization, not a contract"). -/
structure State where
  player_position : Pos
  box_positions : List Pos
  movements : List Action
deriving DecidableEq

/-- Accumulating loop of `State::calculate_lower_bound`: sum the table
entries of the boxes, returning the sentinel `10_000 - 1` as soon as a
box has no entry. -/
def lowerBoundAux (table : List (Pos × Nat)) (acc : Nat) : List Pos → Nat
  | [] => acc
  | b :: bs =>
    match alookup table b with
    | none => 10000 - 1
    | some e => lowerBoundAux table (acc + e) bs

/-- `State::calculate_lower_bound`: sum of the per-box table entries. -/
def calculate_lower_bound (s : Solver) (boxes : List Pos) : Nat :=
  lowerBoundAux s.lowerBounds 0 boxes

/-- The heuristic computed by `State::new` for the chosen strategy. -/
def stateHeuristic (s : Solver) (boxes : List Pos) (ms : List Action) : Nat :=
  match s.strategy with
  | .fast => calculate_lower_bound s boxes * 10000 + movesCount ms
  | .mixed => calculate_lower_bound s boxes + movesCount ms
  | .optimalMovePush =>
      movesCount ms * 100000000 + pushesCount ms * 10000 +
        calculate_lower_bound s boxes
  | .optimalPushMove =>
      pushesCount ms * 100000000 + movesCount ms * 10000 +
        calculate_lower_bound s boxes

/-- `State::new`. -/
def State.new (pp : Pos) (boxes : List Pos) (ms : List Action) : State :=
  ⟨pp, boxes, ms⟩

/-- Heuristic of a state under a solver context (`State::heuristic`). -/
def State.heuristic (st : State) (s : Solver) : Nat :=
  stateHeuristic s st.box_positions st.movements

/-- `impl PartialEq for State`: equality compares the player position and
the box sets, ignoring movements (and the derived heuristic). -/
def stateEq (a b : State) : Bool :=
  decide (a.player_position = b.player_position) &&
  a.box_positions.all (fun p => decide (p ∈ b.box_positions)) &&
  b.box_positions.all (fun p => decide (p ∈ a.box_positions))

/-- `impl Hash for State`: the exact stream of integers written to the
hasher — the player coordinates followed by each box position in the
iteration order of the box container. -/
def hashWrites (st : State) : List Int :=
  [st.player_position.1, st.player_position.2] ++
    st.box_positions.flatMap (fun b => [b.1, b.2])

/-- The `Ord` of `State`: heuristic comparison reversed, so the max-heap
yields the smallest heuristic. -/
def stateLe (s : Solver) (a b : State) : Bool :=
  decide (b.heuristic s ≤ a.heuristic s)

/-- Remove the first occurrence of a position (`HashSet::remove` on a
duplicate-free list). -/
def removePos : List Pos → Pos → List Pos
  | [], _ => []
  | x :: xs, p => if x = p then xs else x :: removePos xs p

/-- Insert a position if absent (`HashSet::insert`). -/
def insertPos (l : List Pos) (p : Pos) : List Pos :=
  if decide (p ∈ l) then l else p :: l

/-- Can a cell block the player (`State::can_block_player`): wall or box. -/
def can_block_player (s : Solver) (boxes : List Pos) (p : Pos) : Bool :=
  s.level.isWall p || decide (p ∈ boxes)

/-- Can a cell block a box (`State::can_block_crate`): wall, dead cell
(no lower-bound entry) or box. -/
def can_block_crate (s : Solver) (boxes : List Pos) (p : Pos) : Bool :=
  s.level.isWall p || (alookup s.lowerBounds p).isNone || decide (p ∈ boxes)

/-- Flood fill.
Modelled from the spec: `reachable_area(start, passable)` of the external
path-finding helper is a standard flood fill returning the connected
component of `start`. -/
def floodFill (passable : Pos → Bool) :
    Nat → List Pos → List Pos → List Pos
  | 0, _, visited => visited
  | fuel + 1, frontier, visited =>
    match frontier with
    | [] => visited
    | p :: rest =>
      let nbrs := dirList.map (fun d => posAdd p d.toVector)
      let fresh := nbrs.filter (fun q => passable q && !(decide (q ∈ visited)))
      floodFill passable fuel (rest ++ fresh) (visited ++ fresh)

/-- `State::player_reachable_area`. -/
def State.player_reachable_area (st : State) (s : Solver) : List Pos :=
  floodFill (fun p => !(can_block_player s st.box_positions p)) s.fuel
    [st.player_position] [st.player_position]

/-- Canonical representative of an area.
Modelled from the spec: `normalized_area` returns the cell with the
smallest y, ties broken by the smallest x. -/
def normalized_area : List Pos → Option Pos
  | [] => none
  | p :: ps =>
    match normalized_area ps with
    | none => some p
    | some q =>
      if p.2 < q.2 ∨ (p.2 = q.2 ∧ p.1 ≤ q.1) then some p else some q

/-- `State::normalized`: replace the player position by the canonical
representative of its reachable area (the area always contains the
start, so the `unwrap` cannot fail; `getD` is its total rendering). -/
def State.normalized (st : State) (s : Solver) : State :=
  { st with
    player_position :=
      (normalized_area (st.player_reachable_area s)).getD st.player_position }

/-- `State::is_freeze_deadlock`, with the mutable `visited` set threaded
explicitly and the evaluation order (vertical axis first, short-circuit
within an axis) preserved.  Fuel exhaustion returns `true`, which at
worst over-prunes. -/
def is_freeze_deadlock (s : Solver) (boxes : List Pos) :
    Nat → Pos → List Pos → Bool × List Pos
  | 0, _, visited => (true, visited)
  | fuel + 1, pos, visited =>
    if decide (pos ∈ visited) then (true, visited)
    else
      let v1 := pos :: visited
      let nU := posAdd pos Direction.up.toVector
      let nD := posAdd pos Direction.down.toVector
      let resV : Bool × List Pos :=
        if s.level.isWall nU || s.level.isWall nD then (true, v1)
        else
          let r0 :=
            if decide (nU ∈ boxes) then is_freeze_deadlock s boxes fuel nU v1
            else (false, v1)
          if r0.1 then (true, r0.2)
          else
            let r1 :=
              if decide (nD ∈ boxes) then is_freeze_deadlock s boxes fuel nD r0.2
              else (false, r0.2)
            (r1.1, r1.2)
      if !resV.1 then (false, resV.2)
      else
        let nL := posAdd pos Direction.left.toVector
        let nR := posAdd pos Direction.right.toVector
        let resH : Bool × List Pos :=
          if s.level.isWall nL || s.level.isWall nR then (true, resV.2)
          else
            let r0 :=
              if decide (nL ∈ boxes) then is_freeze_deadlock s boxes fuel nL resV.2
              else (false, resV.2)
            if r0.1 then (true, r0.2)
            else
              let r1 :=
                if decide (nR ∈ boxes) then is_freeze_deadlock s boxes fuel nR r0.2
                else (false, r0.2)
              (r1.1, r1.2)
        if !resH.1 then (false, resH.2) else (true, resH.2)

/-!  Successor generation. -/

/-- The `// skip tunnels` while-loop of `State::successors`: keep pushing
while the cell the box came from is a tunnel for this direction and the
continuation cell is not box-blocked, appending a Push per step. -/
def skipTunnels (s : Solver) (boxes : List Pos) (d : Direction) :
    Nat → Pos → List Action → Pos × List Action
  | 0, b, ms => (b, ms)
  | fuel + 1, b, ms =>
    if decide ((posSub b d.toVector, d) ∈ s.tunnels) then
      if can_block_crate s boxes (posAdd b d.toVector) then (b, ms)
      else
        skipTunnels s boxes d fuel (posAdd b d.toVector) (ms ++ [Action.push d])
    else (b, ms)

/-- Turn a path into Move actions via `Direction::try_from` on each
consecutive difference; `none` models the `unwrap` panic on a non-unit
step. -/
def pathToMoves : List Pos → Option (List Action)
  | [] => some []
  | [_] => some []
  | p :: q :: rest =>
    match Direction.tryFrom (posSub q p) with
    | none => none
    | some d => (pathToMoves (q :: rest)).map (fun ms => Action.move d :: ms)

/-- The (box, direction) candidates of `State::successors`, boxes outer,
directions inner, in source order. -/
def pushCandidates (st : State) : List (Pos × Direction) :=
  st.box_positions.flatMap (fun b => dirList.map (fun d => (b, d)))

/-- One candidate of `State::successors`: `some none` means the candidate
is skipped, `some (some t)` emits `t`, `none` propagates a panic
(`find_path(...).unwrap()` or `Direction::try_from(...).unwrap()`). -/
def trySuccessor (s : Solver) (st : State) (area : List Pos) (b : Pos)
    (d : Direction) : Option (Option State) :=
  let newB := posAdd b d.toVector
  if can_block_crate s st.box_positions newB then some none
  else
    let stand := posSub b d.toVector
    if can_block_player s st.box_positions stand || !(decide (stand ∈ area)) then
      some none
    else
      match find_path s.fuel st.player_position stand
          (fun p => can_block_player s st.box_positions p) with
      | none => none
      | some none => none
      | some (some path) =>
        match pathToMoves path with
        | none => none
        | some moves =>
          let ms1 := st.movements ++ moves ++ [Action.push d]
          let r := skipTunnels s st.box_positions d s.fuel newB ms1
          let newBoxes := insertPos (removePos st.box_positions b) r.1
          if !(s.level.isGoal r.1) &&
              (is_freeze_deadlock s newBoxes s.fuel r.1 []).1 then
            some none
          else
            some (some (State.new (posSub r.1 d.toVector) newBoxes r.2))

/-- Fold of `trySuccessor` over all candidates, preserving order. -/
def successorsAux (s : Solver) (st : State) (area : List Pos) :
    List (Pos × Direction) → Option (List State)
  | [] => some []
  | (b, d) :: rest =>
    match trySuccessor s st area b d with
    | none => none
    | some none => successorsAux s st area rest
    | some (some t) => (successorsAux s st area rest).map (fun l => t :: l)

/-- `State::successors`. -/
def State.successors (st : State) (s : Solver) : Option (List State) :=
  successorsAux s st (st.player_reachable_area s) (pushCandidates st)

/-- `State::is_solved`: the lower bound is zero. -/
def State.is_solved (st : State) (s : Solver) : Bool :=
  decide (calculate_lower_bound s st.box_positions = 0)

/-!  The search driver (`Solver::solve`). -/

/-- Failure outcomes of `solve` (`SolveError`). -/
inductive SolveError where
  | timeout
  | noSolution
deriving DecidableEq, Repr

/-- Decidable equality for `Except`, used to evaluate solver outcomes on
concrete inputs. -/
instance {α β : Type} [DecidableEq α] [DecidableEq β] :
    DecidableEq (Except α β) := fun a b =>
  match a, b with
  | .error x, .error y =>
    if h : x = y then .isTrue (by rw [h])
    else .isFalse (by intro hc; cases hc; exact h rfl)
  | .error _, .ok _ => .isFalse (by intro hc; cases hc)
  | .ok _, .error _ => .isFalse (by intro hc; cases hc)
  | .ok x, .ok y =>
    if h : x = y then .isTrue (by rw [h])
    else .isFalse (by intro hc; cases hc; exact h rfl)

/-- Visited-set membership: `HashSet<State>::contains` under the `State`
equality (player position and box set). -/
def visitedContains (v : List State) (st : State) : Bool :=
  v.any (fun x => stateEq x st)

/-- Visited-set insertion: `HashSet<State>::insert`. -/
def visitedInsert (v : List State) (st : State) : List State :=
  if visitedContains v st then v else st :: v

/-- The mutable search state of the driver: priority queue and visited
set. -/
structure SearchState where
  heap : RustHeap State
  visited : List State
deriving DecidableEq

/-- The `for successor in state.successors(...)` body: skip successors
whose normalized form is visited, return the movements of a solved
successor, push the rest. -/
def handleSuccessors (s : Solver) (visited : List State) :
    List State → RustHeap State → Sum (RustHeap State) (List Action)
  | [], h => .inl h
  | t :: rest, h =>
    if visitedContains visited (t.normalized s) then
      handleSuccessors s visited rest h
    else if t.is_solved s then .inr t.movements
    else handleSuccessors s visited rest (h.push (stateLe s) t)

/-- The `while let Some(state) = heap.pop()` loop of `Solver::solve`.
`timedOut` abstracts the wall-clock comparison `elapsed >= timeout` at
each iteration (indexed by the remaining fuel); `none` is fuel
exhaustion or a panic inside successor generation. -/
def solveLoop (s : Solver) (timedOut : Nat → Bool) :
    Nat → SearchState → Option (Except SolveError (List Action))
  | 0, _ => none
  | fuel + 1, ss =>
    match RustHeap.pop (stateLe s) ss.heap with
    | none => some (.error .noSolution)
    | some (st, heap') =>
      let visited' := visitedInsert ss.visited (st.normalized s)
      if timedOut (fuel + 1) then some (.error .timeout)
      else
        match st.successors s with
        | none => none
        | some succs =>
          match handleSuccessors s visited' succs heap' with
          | .inr m => some (.ok m)
          | .inl heap'' => solveLoop s timedOut fuel ⟨heap'', visited'⟩

/-- The initial state pushed by `Solver::initial`. -/
def initialState (l : Level) : State :=
  State.new l.playerStart l.crateStart []

/-- Full run: build the solver from the level, seed the queue with the
initial state and run `solve`. -/
def solveLevel (fuel : Nat) (l : Level) (strat : Strategy)
    (timedOut : Nat → Bool) : Option (Except SolveError (List Action)) :=
  match mkSolver fuel l strat with
  | none => none
  | some none => none
  | some (some s) =>
    solveLoop s timedOut fuel
      ⟨RustHeap.push (stateLe s) RustHeap.empty (initialState l), []⟩

/-!  Replay semantics, used by the claims about solution validity and
lower-bound admissibility.
Modelled from the spec: a `Move(d)` shifts the player by `d` into a free
cell (no wall, no box); a `Push(d)` shifts the player by `d` onto a box
cell and that box by `d` into a free cell. -/

/-- A configuration: player position plus box set. -/
structure Config where
  player : Pos
  boxes : List Pos
deriving DecidableEq

/-- Apply one action to a configuration, `none` when illegal. -/
def stepAction (l : Level) (c : Config) : Action → Option Config
  | .move d =>
    let p := posAdd c.player d.toVector
    if l.isWall p || decide (p ∈ c.boxes) then none
    else some ⟨p, c.boxes⟩
  | .push d =>
    let p := posAdd c.player d.toVector
    let b := posAdd p d.toVector
    if decide (p ∈ c.boxes) && !(l.isWall b) && !(decide (b ∈ c.boxes)) then
      some ⟨p, insertPos (removePos c.boxes p) b⟩
    else none

/-- Replay a whole action sequence. -/
def replay (l : Level) : Config → List Action → Option Config
  | c, [] => some c
  | c, a :: rest =>
    match stepAction l c a with
    | none => none
    | some c' => replay l c' rest

/-- Every box of a configuration sits on a target cell. -/
def allOnTargets (l : Level) (c : Config) : Prop :=
  ∀ p ∈ c.boxes, p ∈ l.goals

/-- The all-on-targets test is decidable. -/
instance (l : Level) (c : Config) : Decidable (allOnTargets l c) := by
  unfold allOnTargets
  exact List.decidableBAll _ _

/-- A search state whose movement log replays from the level start to
exactly its player position and box list. -/
def GoodS (l : Level) (st : State) : Prop :=
  replay l ⟨l.playerStart, l.crateStart⟩ st.movements =
    some ⟨st.player_position, st.box_positions⟩

/-- Every zero-valued binding of a lower-bound table sits on a target. -/
def TableZeroGoal (l : Level) (table : List (Pos × Nat)) : Prop :=
  ∀ p v, (p, v) ∈ table → v = 0 → p ∈ l.goals

/-- Index of the parent of heap slot `i` (`(i - 1) / 2`). -/
def parentIdx (i : Nat) : Nat := (i - 1) / 2

/-- The binary-heap ordering property of the backing list: every
non-root slot is at most its parent under `le`. -/
def IsHeapL {α : Type} (le : α → α → Bool) (l : List α) : Prop :=
  ∀ i x px, 1 ≤ i → l[i]? = some x → l[parentIdx i]? = some px →
    le x px = true

/-- Precondition of `sift_up`: a heap everywhere except that slot `pos`
may exceed its parent, with the children of `pos` also bounded by the
grandparent. -/
def UpInv {α : Type} (le : α → α → Bool) (l : List α) (pos : Nat) : Prop :=
  pos < l.length ∧
  (∀ i x px, 1 ≤ i → i ≠ pos → l[i]? = some x →
    l[parentIdx i]? = some px → le x px = true) ∧
  (1 ≤ pos → ∀ j y gp, parentIdx j = pos → l[j]? = some y →
    l[parentIdx pos]? = some gp → le y gp = true)

/-- Invariant of the descent phase of `sift_down_to_bottom`: a heap
except at the hole `pos`, whose children are only bounded by the
grandparent. -/
def DownInv {α : Type} (le : α → α → Bool) (l : List α) (pos : Nat) : Prop :=
  pos < l.length ∧
  (∀ i x px, 1 ≤ i → i ≠ pos → parentIdx i ≠ pos → l[i]? = some x →
    l[parentIdx i]? = some px → le x px = true) ∧
  (1 ≤ pos → ∀ j y gp, parentIdx j = pos → l[j]? = some y →
    l[parentIdx pos]? = some gp → le y gp = true)

/-- Optimality invariant of the A* search: the open set is a binary
heap; every open node's priority dominates its position's current cost
plus the Manhattan term; and every costed position either has an open
node whose priority is at most cost + Manhattan (fresh), or has had all
its unblocked neighbors relaxed to within one of its cost (expanded). -/
def AStarOpt (blk : Pos → Bool) (g : Pos) (st : AStarState) : Prop :=
  IsHeapL nodeLe st.openSet.data ∧
  (∀ nd ∈ st.openSet.data, ∃ c, alookup st.cost nd.position = some c ∧
    c + manhattan_distance nd.position g ≤ nd.heuristic) ∧
  (∀ q gq, alookup st.cost q = some gq →
    (∃ nd ∈ st.openSet.data, nd.position = q ∧
      nd.heuristic ≤ gq + manhattan_distance q g) ∨
    (∀ d : Direction, blk (posAdd q d.toVector) = false →
      ∃ gr, alookup st.cost (posAdd q d.toVector) = some gr ∧
        gr ≤ gq + 1))

/-- Weakened optimality invariant while the popped position `xp` is
being expanded: `xp` itself is exempt from the fresh-or-expanded
alternative, and the directions already processed are recorded. -/
def AStarOptPartial (blk : Pos → Bool) (g xp : Pos)
    (done : List Direction) (st : AStarState) : Prop :=
  IsHeapL nodeLe st.openSet.data ∧
  (∀ nd ∈ st.openSet.data, ∃ c, alookup st.cost nd.position = some c ∧
    c + manhattan_distance nd.position g ≤ nd.heuristic) ∧
  (∀ q gq, alookup st.cost q = some gq → q ≠ xp →
    (∃ nd ∈ st.openSet.data, nd.position = q ∧
      nd.heuristic ≤ gq + manhattan_distance q g) ∨
    (∀ d : Direction, blk (posAdd q d.toVector) = false →
      ∃ gr, alookup st.cost (posAdd q d.toVector) = some gr ∧
        gr ≤ gq + 1)) ∧
  (∀ gq, alookup st.cost xp = some gq →
    ∀ d ∈ done, blk (posAdd xp d.toVector) = false →
      ∃ gr, alookup st.cost (posAdd xp d.toVector) = some gr ∧
        gr ≤ gq + 1)

/-!  Claim-side definitions.  Each of the following definitions follows
the words of a spec claim (not the source); the theorems below compare
them against the source translations above. -/

/-- Stable priority queue pop, following the claim's words for
`find_path`: among entries of minimal priority, the earliest inserted
is returned. -/
def stablePop : List Node → Option (Node × List Node)
  | [] => none
  | x :: xs =>
    match stablePop xs with
    | none => some (x, [])
    | some (m, rest) =>
      if x.heuristic ≤ m.heuristic then some (x, xs)
      else some (m, x :: rest)

/-- A* loop state with the claim-side stable open set. -/
structure AStarStateS where
  openSet : List Node
  cameFrom : List (Pos × Pos)
  cost : List (Pos × Int)
deriving DecidableEq

/-- Claim-side neighbor expansion; identical to `expandDir` except that
insertion appends to the stable queue. -/
def expandDirS (blocked : Pos → Bool) (goal : Pos) (nodePos : Pos)
    (d : Direction) (st : AStarStateS) : Option AStarStateS :=
  let np := posAdd nodePos d.toVector
  if blocked np then some st
  else
    match alookup st.cost nodePos with
    | none => none
    | some g =>
      let newCost := g + 1
      let better :=
        match alookup st.cost np with
        | none => true
        | some old => decide (newCost < old)
      if better then
        some
          { openSet := st.openSet ++ [⟨np, newCost + manhattan_distance np goal⟩]
            cameFrom := (np, nodePos) :: st.cameFrom
            cost := (np, newCost) :: st.cost }
      else some st

/-- Claim-side expansion of all four directions. -/
def expandNodeS (blocked : Pos → Bool) (goal : Pos) (nodePos : Pos)
    (st : AStarStateS) : Option AStarStateS := do
  let s1 ← expandDirS blocked goal nodePos .up st
  let s2 ← expandDirS blocked goal nodePos .down s1
  let s3 ← expandDirS blocked goal nodePos .left s2
  expandDirS blocked goal nodePos .right s3

/-- Claim-side A* loop with insertion-order tie-breaking. -/
def findPathLoopS (blocked : Pos → Bool) (start goal : Pos) :
    Nat → AStarStateS → Option (Option (List Pos))
  | 0, _ => none
  | fuel + 1, st =>
    match stablePop st.openSet with
    | none => some none
    | some (node, q') =>
      if node.position = goal then
        match reconstructPath st.cameFrom start (fuel + 1) goal with
        | none => none
        | some p => some (some p)
      else
        match expandNodeS blocked goal node.position { st with openSet := q' } with
        | none => none
        | some st' => findPathLoopS blocked start goal fuel st'

/-- Claim-side `find_path` with ties broken by insertion order. -/
def findPathStable (fuel : Nat) (start goal : Pos) (blocked : Pos → Bool) :
    Option (Option (List Pos)) :=
  findPathLoopS blocked start goal fuel
    { openSet := [⟨start, manhattan_distance start goal⟩]
      cameFrom := []
      cost := [(start, 0)] }

/-- Freeze predicate following the words of the original claim: a box is
frozen along an axis exactly when BOTH sides of the axis are each a
Wall or a recursively frozen box; a deadlock requires both axes frozen;
revisits count as frozen.  Sides are examined in the source's order
(up, down, left, right) with the same visited threading. -/
def claimFreeze (s : Solver) (boxes : List Pos) :
    Nat → Pos → List Pos → Bool × List Pos
  | 0, _, visited => (true, visited)
  | fuel + 1, pos, visited =>
    if decide (pos ∈ visited) then (true, visited)
    else
      let v1 := pos :: visited
      let nU := posAdd pos Direction.up.toVector
      let sU :=
        if s.level.isWall nU then (true, v1)
        else if decide (nU ∈ boxes) then claimFreeze s boxes fuel nU v1
        else (false, v1)
      let nD := posAdd pos Direction.down.toVector
      let sD :=
        if s.level.isWall nD then (true, sU.2)
        else if decide (nD ∈ boxes) then claimFreeze s boxes fuel nD sU.2
        else (false, sU.2)
      let nL := posAdd pos Direction.left.toVector
      let sL :=
        if s.level.isWall nL then (true, sD.2)
        else if decide (nL ∈ boxes) then claimFreeze s boxes fuel nL sD.2
        else (false, sD.2)
      let nR := posAdd pos Direction.right.toVector
      let sR :=
        if s.level.isWall nR then (true, sL.2)
        else if decide (nR ∈ boxes) then claimFreeze s boxes fuel nR sL.2
        else (false, sL.2)
      ((sU.1 && sD.1) && (sL.1 && sR.1), sR.2)

/-- Freeze predicate following the amended claim: an axis is frozen when
at least one of its two sides is a Wall, or at least one side holds a
recursively frozen box (checked in order with short-circuiting, the
first axis first); a deadlock requires both axes frozen; revisits count
as frozen. -/
def amendedFreeze (s : Solver) (boxes : List Pos) :
    Nat → Pos → List Pos → Bool × List Pos
  | 0, _, visited => (true, visited)
  | fuel + 1, pos, visited =>
    if decide (pos ∈ visited) then (true, visited)
    else
      let v1 := pos :: visited
      let nU := posAdd pos Direction.up.toVector
      let nD := posAdd pos Direction.down.toVector
      let vertical : Bool × List Pos :=
        if s.level.isWall nU || s.level.isWall nD then (true, v1)
        else
          let r0 :=
            if decide (nU ∈ boxes) then amendedFreeze s boxes fuel nU v1
            else (false, v1)
          if r0.1 then (true, r0.2)
          else
            let r1 :=
              if decide (nD ∈ boxes) then amendedFreeze s boxes fuel nD r0.2
              else (false, r0.2)
            (r1.1, r1.2)
      if !vertical.1 then (false, vertical.2)
      else
        let nL := posAdd pos Direction.left.toVector
        let nR := posAdd pos Direction.right.toVector
        let horizontal : Bool × List Pos :=
          if s.level.isWall nL || s.level.isWall nR then (true, vertical.2)
          else
            let r0 :=
              if decide (nL ∈ boxes) then amendedFreeze s boxes fuel nL vertical.2
              else (false, vertical.2)
            if r0.1 then (true, r0.2)
            else
              let r1 :=
                if decide (nR ∈ boxes) then amendedFreeze s boxes fuel nR r0.2
                else (false, r0.2)
              (r1.1, r1.2)
        if !horizontal.1 then (false, horizontal.2) else (true, horizontal.2)

/-- One-iteration outcome of the search loop, following the enumerated
steps of the claim about `solve`. -/
inductive StepOutcome where
  | noSolution
  | timeout
  | solution (m : List Action)
  | next (ss : SearchState)
  | abort
deriving DecidableEq

/-- One iteration of the search loop, written from the claim's words:
pop the best state (NoSolution when the heap is empty), insert its
normalized form into the visited set, Timeout when the elapsed time has
reached the budget, then process each successor — skip it when its
normalized form is visited, return its movements when its lower bound
is 0, push it otherwise.  `abort` is a successor-generation panic. -/
def solveStepSpec (s : Solver) (timedOut : Nat → Bool) (tick : Nat)
    (ss : SearchState) : StepOutcome :=
  match RustHeap.pop (stateLe s) ss.heap with
  | none => .noSolution
  | some (st, heap') =>
    let visited' := visitedInsert ss.visited (st.normalized s)
    if timedOut tick then .timeout
    else
      match st.successors s with
      | none => .abort
      | some succs =>
        match handleSuccessors s visited' succs heap' with
        | .inr m => .solution m
        | .inl heap'' => .next ⟨heap'', visited'⟩

/-- Sum of the lower-bound entries of a list of box cells (missing
entries count 0); equal to `calculate_lower_bound` when every box has an
entry. -/
def sumEntries (table : List (Pos × Nat)) (boxes : List Pos) : Nat :=
  (boxes.map (fun b => (alookup table b).getD 0)).sum

/-- Replay checker: every Push in the sequence moves its box onto a cell
that has a lower-bound entry. -/
def tabledPushesCheck (l : Level) (table : List (Pos × Nat)) :
    Config → List Action → Bool
  | _, [] => true
  | c, a :: rest =>
    match stepAction l c a with
    | none => true
    | some c' =>
      (match a with
       | .move _ => true
       | .push d =>
         (alookup table (posAdd (posAdd c.player d.toVector) d.toVector)).isSome) &&
      tabledPushesCheck l table c' rest

/-!  Concrete levels used by the witnesses and counterexamples. -/

/-- Rectangular border of walls for a `w × h` grid. -/
def borderWalls (w h : Int) : List Pos :=
  ((intRange 0 w).map (fun x => ((x, (0 : Int)) : Pos))) ++
  ((intRange 0 w).map (fun x => ((x, h - 1) : Pos))) ++
  ((intRange 1 (h - 1)).map (fun y => (((0 : Int), y) : Pos))) ++
  ((intRange 1 (h - 1)).map (fun y => ((w - 1, y) : Pos)))

/-- Trivial one-push level `#####" / "#@$.#" / "#####`. -/
def lvlA : Level :=
  { dimX := 5, dimY := 3
    walls := borderWalls 5 3
    floors := [(1, 1), (2, 1), (3, 1)]
    goals := [(3, 1)]
    deadlocks := []
    playerStart := (1, 1)
    crateStart := [(2, 1)] }

/-- Level whose cell (2,2) has Manhattan-nearest target (6,2) behind a
wall (table entry 6) while the box can reach the other target (5,4) in
5 pushes. -/
def lvlC2 : Level :=
  { dimX := 8, dimY := 6
    walls := borderWalls 8 6 ++ [(5, 1), (5, 2)]
    floors := [(1, 1), (2, 1), (3, 1), (4, 1), (6, 1),
               (1, 2), (2, 2), (3, 2), (4, 2), (6, 2),
               (1, 3), (2, 3), (3, 3), (4, 3), (5, 3), (6, 3),
               (1, 4), (2, 4), (3, 4), (4, 4), (5, 4), (6, 4)]
    goals := [(6, 2), (5, 4)]
    deadlocks := []
    playerStart := (1, 1)
    crateStart := [(2, 2)] }

/-- Action sequence solving `lvlC2` with 5 pushes. -/
def c2seq : List Action :=
  [.move .right, .push .down, .push .down, .move .left, .move .down,
   .push .right, .push .right, .push .right]

/-- Level with a box frozen in a corner (wall above and wall left). -/
def lvlCorner : Level :=
  { dimX := 4, dimY := 4
    walls := borderWalls 4 4
    floors := [(1, 1), (2, 1), (1, 2), (2, 2)]
    goals := [(2, 2)]
    deadlocks := []
    playerStart := (2, 1)
    crateStart := [(1, 1)] }

/-- A solver context over `lvlCorner` (tables irrelevant to the freeze
recursion). -/
def sCorner : Solver := ⟨lvlCorner, .fast, [], [], 50⟩

/-- Already-solved dead-end level `####" / "#@*#" / "####`: the box sits
on the only target and cannot be pushed anywhere. -/
def lvlC10 : Level :=
  { dimX := 4, dimY := 3
    walls := borderWalls 4 3
    floors := [(1, 1), (2, 1)]
    goals := [(2, 1)]
    deadlocks := []
    playerStart := (1, 1)
    crateStart := [(2, 1)] }

/-- Level with a floor column sealed off from every target: building the
lower-bound table panics on it. -/
def lvlC4 : Level :=
  { dimX := 7, dimY := 5
    walls := borderWalls 7 5 ++ [(2, 1), (2, 2), (2, 3)]
    floors := [(1, 1), (1, 2), (1, 3), (3, 1), (4, 1), (5, 1),
               (3, 2), (4, 2), (5, 2), (3, 3), (4, 3), (5, 3)]
    goals := [(4, 2)]
    deadlocks := []
    playerStart := (3, 1)
    crateStart := [(4, 1)] }

/-- Blocked predicate of an open `w × h` room with nothing inside. -/
def openRoom (w h : Int) : Pos → Bool := fun p =>
  !(decide (1 ≤ p.1) && decide (p.1 ≤ w) && decide (1 ≤ p.2) &&
    decide (p.2 ≤ h))

/-- Already-solved two-target corridor: the box starts on a target and one
push keeps the level solved, so `solve` succeeds with a nonempty
answer. -/
def lvlB : Level :=
  { dimX := 5, dimY := 3
    walls := borderWalls 5 3
    floors := [(1, 1), (2, 1), (3, 1)]
    goals := [(2, 1), (3, 1)]
    deadlocks := []
    playerStart := (1, 1)
    crateStart := [(2, 1)] }

/-- The solver context that `mkSolver` builds over `lvlC10`. -/
def sC10 : Solver :=
  (((mkSolver 100 lvlC10 .fast).getD none).getD ⟨lvlC10, .fast, [], [], 100⟩)

/-- The solver context that `mkSolver` builds over `lvlA`. -/
def sA : Solver :=
  (((mkSolver 100 lvlA .fast).getD none).getD ⟨lvlA, .fast, [], [], 100⟩)

/-- The solver context that `mkSolver` builds over `lvlC2`. -/
def sC2 : Solver :=
  (((mkSolver 300 lvlC2 .fast).getD none).getD ⟨lvlC2, .fast, [], [], 300⟩)

/-- The two directions of the axis perpendicular to a direction, as in
the claim about the tunnel set. -/
def perpendicularAxis : Direction → Direction × Direction
  | .up => (.left, .right)
  | .down => (.left, .right)
  | .left => (.up, .down)
  | .right => (.up, .down)

/-- `b` shifted `k` cells in direction `d`. -/
def posMulAdd (b : Pos) (d : Direction) (k : Nat) : Pos :=
  (b.1 + (k : Int) * d.toVector.1, b.2 + (k : Int) * d.toVector.2)

/-- One cardinal unit step between positions. -/
def IsUnitStep (p q : Pos) : Prop := ∃ d : Direction, q = posAdd p d.toVector

/-- Path validity as the claim about `find_path` states it: the sequence
begins at `a`, ends at `b`, adjacent pairs differ by exactly one
cardinal unit vector, and no position after the first is blocked. -/
def ValidPath (blk : Pos → Bool) (a b : Pos) (ps : List Pos) : Prop :=
  ps.head? = some a ∧ ps.getLast? = some b ∧ List.Chain' IsUnitStep ps ∧
  ∀ q ∈ ps.tail, blk q = false

/-- Loop invariant of the A* search: the start is costed at 0, costs are
nonnegative, parent links are unit steps into unblocked cells with
strictly increasing cost, the start has no parent, every open node's
position is costed, every costed position is open or fully expanded,
and a costed goal has an open node. -/
def AStarInv (blk : Pos → Bool) (a g : Pos) (st : AStarState) : Prop :=
  alookup st.cost a = some 0 ∧
  (∀ q gq, alookup st.cost q = some gq → 0 ≤ gq) ∧
  (∀ q pr, alookup st.cameFrom q = some pr →
    IsUnitStep pr q ∧ blk q = false ∧
    ∃ gq gp, alookup st.cost q = some gq ∧ alookup st.cost pr = some gp ∧
      gp + 1 ≤ gq) ∧
  alookup st.cameFrom a = none ∧
  (∀ nd ∈ st.openSet.data, (alookup st.cost nd.position).isSome = true) ∧
  (∀ q : Pos, (alookup st.cost q).isSome = true →
    (∃ nd ∈ st.openSet.data, nd.position = q) ∨
    (∀ d : Direction, blk (posAdd q d.toVector) = false →
      (alookup st.cost (posAdd q d.toVector)).isSome = true)) ∧
  ((alookup st.cost g).isSome = true →
    ∃ nd ∈ st.openSet.data, nd.position = g)

/-- Weakened invariant while one popped position is being expanded:
identical to `AStarInv` except that the popped position may be neither
open nor expanded. -/
def AStarPartialInv (blk : Pos → Bool) (a g xp : Pos)
    (st : AStarState) : Prop :=
  alookup st.cost a = some 0 ∧
  (∀ q gq, alookup st.cost q = some gq → 0 ≤ gq) ∧
  (∀ q pr, alookup st.cameFrom q = some pr →
    IsUnitStep pr q ∧ blk q = false ∧
    ∃ gq gp, alookup st.cost q = some gq ∧ alookup st.cost pr = some gp ∧
      gp + 1 ≤ gq) ∧
  alookup st.cameFrom a = none ∧
  (∀ nd ∈ st.openSet.data, (alookup st.cost nd.position).isSome = true) ∧
  (∀ q : Pos, (alookup st.cost q).isSome = true → q = xp ∨
    (∃ nd ∈ st.openSet.data, nd.position = q) ∨
    (∀ d : Direction, blk (posAdd q d.toVector) = false →
      (alookup st.cost (posAdd q d.toVector)).isSome = true)) ∧
  ((alookup st.cost g).isSome = true →
    ∃ nd ∈ st.openSet.data, nd.position = g)

/-- Blocked predicate of the infinite free row `y = 0`. -/
def rowBlocked : Pos → Bool := fun p => decide (p.2 ≠ 0)

/-- Invariant of the A* run on the infinite row: the costed cells form a
contiguous interval of the row containing the origin, both interval
ends have open nodes, and every open node is costed. -/
def RowInv (st : AStarState) : Prop :=
  ∃ lo hi : Int, lo ≤ 0 ∧ 0 ≤ hi ∧
    (∀ z : Pos, (alookup st.cost z).isSome = true ↔
      (z.2 = 0 ∧ lo ≤ z.1 ∧ z.1 ≤ hi)) ∧
    (∃ nd ∈ st.openSet.data, nd.position = (hi, 0)) ∧
    (∃ nd ∈ st.openSet.data, nd.position = (lo, 0)) ∧
    (∀ nd ∈ st.openSet.data, (alookup st.cost nd.position).isSome = true)

/-!  Theorems. -/

/-- One step in a direction moves to a different cell. -/
theorem posAdd_toVector_ne (p : Pos) (d : Direction) :
    posAdd p d.toVector ≠ p := by
  cases d <;> simp [posAdd, Direction.toVector, Prod.ext_iff]

/-- Shadowing lookups: the new binding wins, others are unchanged. -/
theorem alookup_cons {β : Type} (k : Pos) (v : β) (m : List (Pos × β))
    (q : Pos) :
    alookup ((k, v) :: m) q = if k = q then some v else alookup m q := rfl

/-- Lookup success is preserved by adding a binding. -/
theorem alookup_cons_isSome {β : Type} (k : Pos) (v : β)
    (m : List (Pos × β)) (q : Pos)
    (h : (alookup m q).isSome = true) :
    (alookup ((k, v) :: m) q).isSome = true := by
  rw [alookup_cons]
  split <;> simp [h]

/-- Path reconstruction produces a valid path from the parent map. -/
theorem reconstructPath_valid (blk : Pos → Bool)
    (cameFrom : List (Pos × Pos)) (a : Pos)
    (hS2 : ∀ q pr, alookup cameFrom q = some pr →
      IsUnitStep pr q ∧ blk q = false) :
    ∀ (fuel : Nat) (cur : Pos) (p : List Pos),
      reconstructPath cameFrom a fuel cur = some p →
      p.head? = some a ∧ p.getLast? = some cur ∧
        List.Chain' IsUnitStep p ∧ ∀ q ∈ p.tail, blk q = false := by
  intro fuel
  induction fuel with
  | zero => intro cur p h; cases h
  | succ n ih =>
    intro cur p h
    simp only [reconstructPath] at h
    split at h
    · rename_i hcur
      subst hcur
      simp only [Option.some.injEq] at h
      subst h
      refine ⟨rfl, rfl, ?_, ?_⟩
      · exact List.chain'_singleton cur
      · intro q hq; cases hq
    · rename_i hcur
      cases hlk : alookup cameFrom cur with
      | none => rw [hlk] at h; cases h
      | some prev =>
        rw [hlk] at h
        dsimp only at h
        cases hrec : reconstructPath cameFrom a n prev with
        | none => rw [hrec] at h; cases h
        | some p' =>
          rw [hrec] at h
          simp only [Option.map_some', Option.some.injEq] at h
          subst h
          obtain ⟨hhead, hlast, hchain, htail⟩ := ih prev p' hrec
          obtain ⟨hstep, hblk⟩ := hS2 cur prev hlk
          cases p' with
          | nil => cases hhead
          | cons z zs =>
            refine ⟨?_, ?_, ?_, ?_⟩
            · simpa using hhead
            · rw [List.getLast?_concat]
            · rw [List.chain'_append]
              refine ⟨hchain, List.chain'_singleton cur, ?_⟩
              intro x hx y hy
              simp only [List.head?_cons, Option.mem_def,
                Option.some.injEq] at hy
              subst hy
              have hx' : x = prev := by
                rw [Option.mem_def, hlast] at hx
                exact (Option.some.inj hx).symm ▸ rfl
              rw [hx']
              exact hstep
            · intro q hq
              simp only [List.cons_append, List.tail_cons] at hq
              rcases List.mem_append.mp hq with h1 | h1
              · exact htail q (by simpa using h1)
              · rcases List.mem_singleton.mp h1 with rfl
                exact hblk

/-- The invariant holds for the initial A* state. -/
theorem astar_init (blk : Pos → Bool) (a g : Pos) :
    AStarInv blk a g
      { openSet := RustHeap.push nodeLe RustHeap.empty
          ⟨a, manhattan_distance a g⟩
        cameFrom := []
        cost := [(a, 0)] } := by
  have hdata : (RustHeap.push nodeLe RustHeap.empty
      ⟨a, manhattan_distance a g⟩).data =
      [⟨a, manhattan_distance a g⟩] := rfl
  refine ⟨by simp [alookup], ?_, ?_, rfl, ?_, ?_, ?_⟩
  · intro q gq h
    simp only [alookup] at h
    split at h
    · simp only [Option.some.injEq] at h
      omega
    · cases h
  · intro q pr h
    cases h
  · intro nd hnd
    rw [hdata] at hnd
    rcases List.mem_singleton.mp hnd with rfl
    simp [alookup]
  · intro q hq
    left
    refine ⟨⟨a, manhattan_distance a g⟩, ?_, ?_⟩
    · rw [hdata]; exact List.mem_singleton.mpr rfl
    · simp only [alookup] at hq
      split at hq
      · rename_i heq; exact heq
      · cases hq
  · intro hg
    refine ⟨⟨a, manhattan_distance a g⟩, ?_, ?_⟩
    · rw [hdata]; exact List.mem_singleton.mpr rfl
    · simp only [alookup] at hg
      split at hg
      · rename_i heq; exact heq
      · cases hg

/-- Membership in the consecutive-integer helper list. -/
theorem mem_intRangeAux {n : Nat} :
    ∀ {a x : Int}, x ∈ intRangeAux a n ↔ a ≤ x ∧ x < a + n := by
  induction n with
  | zero => intro a x; simp [intRangeAux]
  | succ k ih =>
    intro a x
    simp only [intRangeAux, List.mem_cons, ih]
    omega

/-- Membership in an integer range list. -/
theorem mem_intRange {a b x : Int} : x ∈ intRange a b ↔ a ≤ x ∧ x < b := by
  unfold intRange
  rw [mem_intRangeAux]
  omega

/-- Membership in the interior-cell enumeration. -/
theorem mem_interiorCells {l : Level} {p : Pos} :
    p ∈ interiorCells l ↔
      1 ≤ p.1 ∧ p.1 < l.dimX - 1 ∧ 1 ≤ p.2 ∧ p.2 < l.dimY - 1 := by
  simp only [interiorCells, List.mem_flatMap, List.mem_map, mem_intRange]
  constructor
  · rintro ⟨x, ⟨hx1, hx2⟩, y, ⟨hy1, hy2⟩, rfl⟩
    exact ⟨hx1, hx2, hy1, hy2⟩
  · rintro ⟨h1, h2, h3, h4⟩
    exact ⟨p.1, ⟨h1, h2⟩, p.2, ⟨h3, h4⟩, Prod.mk.eta⟩

/-- Shifting by one then by `k` equals shifting by `k + 1`. -/
theorem posMulAdd_shift (b : Pos) (d : Direction) (k : Nat) :
    posMulAdd (posAdd b d.toVector) d k = posMulAdd b d (k + 1) := by
  simp only [posMulAdd, posAdd, Prod.mk.injEq]
  constructor <;> push_cast <;> ring

/-- Shifting by zero is the identity. -/
theorem posMulAdd_zero (b : Pos) (d : Direction) : posMulAdd b d 0 = b := by
  simp [posMulAdd]

/-- C5.  The claim's equality half is what the code computes, but its
hash half fails: two equal states whose box containers iterate in
different orders feed different write streams to the hasher.  Evaluated
at the failing input: the states are equal (same player, same box set,
movements ignored) yet their hash streams differ, so any
order-sensitive hasher — in particular the SipHash family the program
uses — separates them. -/
theorem c5_hash_breaks_on_box_order :
    stateEq ⟨(0, 0), [(1, 2), (3, 4)], []⟩
        ⟨(0, 0), [(3, 4), (1, 2)], [.move .up]⟩ = true ∧
    hashWrites ⟨(0, 0), [(1, 2), (3, 4)], []⟩ ≠
      hashWrites ⟨(0, 0), [(3, 4), (1, 2)], [.move .up]⟩ := by
  decide

/-- C6.  The heuristic computed at state construction matches the
claimed formula for each strategy. -/
theorem c6_heuristic_formula (s : Solver) (pp : Pos) (boxes : List Pos)
    (ms : List Action) :
    (State.new pp boxes ms).heuristic s =
      match s.strategy with
      | .fast => calculate_lower_bound s boxes * 10000 + movesCount ms
      | .mixed => calculate_lower_bound s boxes + movesCount ms
      | .optimalMovePush =>
          movesCount ms * 100000000 + pushesCount ms * 10000 +
            calculate_lower_bound s boxes
      | .optimalPushMove =>
          pushesCount ms * 100000000 + movesCount ms * 10000 +
            calculate_lower_bound s boxes := by
  cases h : s.strategy <;>
    simp [State.heuristic, State.new, stateHeuristic, h]

/-- C3, counterexample.  A box in a corner (wall above, wall left, both
other sides free): the code reports a freeze deadlock, while the
claim's both-sides condition reports none, so "exactly when, for both
sides of that axis, ..." is false of the code. -/
theorem c3_counterexample :
    (is_freeze_deadlock sCorner [(1, 1)] 50 (1, 1) []).1 = true ∧
    (claimFreeze sCorner [(1, 1)] 50 (1, 1) []).1 = false := by
  decide

/-- C3, amended.  `is_freeze_deadlock` reports a box frozen along an
axis exactly when at least one side of that axis is a Wall or at least
one side holds a recursively frozen box, reports a deadlock exactly
when both axes are frozen, and treats a revisited position as frozen:
it coincides with the predicate written from that description. -/
theorem c3_amended_freeze (s : Solver) (boxes : List Pos) (fuel : Nat)
    (pos : Pos) (visited : List Pos) :
    is_freeze_deadlock s boxes fuel pos visited =
      amendedFreeze s boxes fuel pos visited := by
  induction fuel generalizing pos visited with
  | zero => rfl
  | succ n ih => simp only [is_freeze_deadlock, amendedFreeze, ih]

/-- C9.  One iteration of `solve` behaves exactly as the claim's
enumerated loop: pop (NoSolution when empty), insert the normalized
state into visited, Timeout check, then per successor
skip-visited / return-solved / push; and every returned outcome is one
of the three claimed forms. -/
theorem c9_loop_characterization :
    (∀ (s : Solver) (timedOut : Nat → Bool) (fuel : Nat) (ss : SearchState),
      solveLoop s timedOut (fuel + 1) ss =
        match solveStepSpec s timedOut (fuel + 1) ss with
        | .noSolution => some (.error .noSolution)
        | .timeout => some (.error .timeout)
        | .solution m => some (.ok m)
        | .next ss' => solveLoop s timedOut fuel ss'
        | .abort => none) ∧
    (∀ (s : Solver) (timedOut : Nat → Bool) (fuel : Nat) (ss : SearchState)
      (r : Except SolveError (List Action)),
      solveLoop s timedOut fuel ss = some r →
      r = .error .noSolution ∨ r = .error .timeout ∨ ∃ m, r = .ok m) := by
  constructor
  · intro s timedOut fuel ss
    simp only [solveLoop, solveStepSpec]
    cases hpop : RustHeap.pop (stateLe s) ss.heap with
    | none => rfl
    | some pr =>
      obtain ⟨st, heap'⟩ := pr
      by_cases ht : timedOut (fuel + 1)
      · simp [ht]
      · simp only [ht, Bool.false_eq_true, if_false]
        cases hsucc : st.successors s with
        | none => rfl
        | some succs =>
          cases hh : handleSuccessors s
              (visitedInsert ss.visited (st.normalized s)) succs heap' with
          | inl h => simp [hh]
          | inr m => simp [hh]
  · intro s timedOut fuel ss r _
    cases r with
    | error e => cases e with
      | timeout => exact Or.inr (Or.inl rfl)
      | noSolution => exact Or.inl rfl
    | ok m => exact Or.inr (Or.inr ⟨m, rfl⟩)

/-- Witness for C9 at a concrete input: an empty heap yields NoSolution,
which is one of the three claimed outcomes. -/
theorem c9_witness :
    solveLoop sCorner (fun _ => false) 1 ⟨RustHeap.empty, []⟩ =
        some (.error .noSolution) ∧
    ((Except.error SolveError.noSolution : Except SolveError (List Action)) =
        .error .noSolution ∨
      (Except.error SolveError.noSolution : Except SolveError (List Action)) =
        .error .timeout ∨
      ∃ m, (Except.error SolveError.noSolution :
        Except SolveError (List Action)) = .ok m) :=
  ⟨by decide,
   c9_loop_characterization.2 sCorner (fun _ => false) 1 ⟨RustHeap.empty, []⟩
     (.error .noSolution) (by decide)⟩

/-- Full characterization of the tunnel-chaining loop: it advances the
box `k` cells for some `k`, appends `k` Push actions, every advance
happened with the tunnel-membership and non-blocked conditions true,
and (fuel permitting) it stopped at the first failing condition. -/
theorem skipTunnels_chain (s : Solver) (boxes : List Pos) (d : Direction) :
    ∀ (fuel : Nat) (b : Pos) (ms : List Action),
      ∃ k, (skipTunnels s boxes d fuel b ms).1 = posMulAdd b d k ∧
        (skipTunnels s boxes d fuel b ms).2 =
          ms ++ List.replicate k (Action.push d) ∧
        (∀ i < k, (posSub (posMulAdd b d i) d.toVector, d) ∈ s.tunnels ∧
          can_block_crate s boxes (posAdd (posMulAdd b d i) d.toVector) =
            false) ∧
        (k < fuel →
          ¬((posSub (posMulAdd b d k) d.toVector, d) ∈ s.tunnels ∧
            can_block_crate s boxes (posAdd (posMulAdd b d k) d.toVector) =
              false)) := by
  intro fuel
  induction fuel with
  | zero =>
    intro b ms
    refine ⟨0, by simp [skipTunnels, posMulAdd_zero],
      by simp [skipTunnels], ?_, ?_⟩
    · intro i hi; exact absurd hi (Nat.not_lt_zero i)
    · intro h; exact absurd h (Nat.not_lt_zero 0)
  | succ n ih =>
    intro b ms
    by_cases h1 : (posSub b d.toVector, d) ∈ s.tunnels
    · by_cases h2 : can_block_crate s boxes (posAdd b d.toVector) = true
      · refine ⟨0, ?_, ?_, ?_, ?_⟩
        · simp [skipTunnels, h1, h2, posMulAdd_zero]
        · simp [skipTunnels, h1, h2]
        · intro i hi; exact absurd hi (Nat.not_lt_zero i)
        · intro _
          rw [posMulAdd_zero]
          rintro ⟨-, hc⟩
          rw [h2] at hc
          cases hc
      · have hb2 : can_block_crate s boxes (posAdd b d.toVector) = false :=
          Bool.eq_false_iff.mpr h2
        obtain ⟨k, hpos, hms, hcond, hstop⟩ :=
          ih (posAdd b d.toVector) (ms ++ [Action.push d])
        have hred : skipTunnels s boxes d (n + 1) b ms =
            skipTunnels s boxes d n (posAdd b d.toVector)
              (ms ++ [Action.push d]) := by
          simp [skipTunnels, h1, h2]
        refine ⟨k + 1, ?_, ?_, ?_, ?_⟩
        · rw [hred, hpos, posMulAdd_shift]
        · rw [hred, hms, List.append_assoc, List.singleton_append,
            ← List.replicate_succ]
        · intro i hi
          cases i with
          | zero =>
            rw [posMulAdd_zero]
            exact ⟨h1, hb2⟩
          | succ j =>
            have hj : j < k := by omega
            have := hcond j hj
            rwa [posMulAdd_shift] at this
        · intro hk
          have := hstop (by omega)
          rwa [posMulAdd_shift] at this
    · refine ⟨0, ?_, ?_, ?_, ?_⟩
      · simp [skipTunnels, h1, posMulAdd_zero]
      · simp [skipTunnels, h1]
      · intro i hi; exact absurd hi (Nat.not_lt_zero i)
      · intro _
        rw [posMulAdd_zero]
        rintro ⟨hc, -⟩
        exact h1 hc

/-- Every emitted successor is shaped by the tunnel chain: its box set,
player position and movements are produced from the chaining loop run
on the freshly pushed box position. -/
theorem trySuccessor_shape (s : Solver) (st : State) (area : List Pos)
    (b : Pos) (d : Direction) (t : State)
    (h : trySuccessor s st area b d = some (some t)) :
    ∃ moves,
      t.box_positions = insertPos (removePos st.box_positions b)
        (skipTunnels s st.box_positions d s.fuel (posAdd b d.toVector)
          (st.movements ++ moves ++ [Action.push d])).1 ∧
      t.player_position = posSub
        (skipTunnels s st.box_positions d s.fuel (posAdd b d.toVector)
          (st.movements ++ moves ++ [Action.push d])).1 d.toVector ∧
      t.movements =
        (skipTunnels s st.box_positions d s.fuel (posAdd b d.toVector)
          (st.movements ++ moves ++ [Action.push d])).2 := by
  simp only [trySuccessor] at h
  split at h
  · exact absurd h (by simp)
  · split at h
    · exact absurd h (by simp)
    · split at h
      · exact absurd h (by simp)
      · exact absurd h (by simp)
      · rename_i path heq
        split at h
        · exact absurd h (by simp)
        · rename_i moves hmoves
          split at h
          · exact absurd h (by simp)
          · simp only [Option.some.injEq] at h
            subst h
            exact ⟨moves, rfl, rfl, rfl⟩

/-- C7.  The tunnel set contains `(p, d)` exactly for interior floor
cells whose two neighbors on the axis perpendicular to `d` are both
walls; and the chaining loop that successor generation runs after the
initial push advances the box while `(new_b - d, d)` is in the tunnel
set and `new_b + d` is not box-blocked, appending one Push per advance
and stopping at the first failing condition, the result shaping the
emitted successor. -/
theorem c7_tunnels_and_chaining :
    (∀ (l : Level) (p : Pos) (d : Direction),
      (p, d) ∈ calculate_tunnel_positions l ↔
        (1 ≤ p.1 ∧ p.1 < l.dimX - 1 ∧ 1 ≤ p.2 ∧ p.2 < l.dimY - 1) ∧
        l.isFloor p = true ∧
        l.isWall (posAdd p (perpendicularAxis d).1.toVector) = true ∧
        l.isWall (posAdd p (perpendicularAxis d).2.toVector) = true) ∧
    (∀ (s : Solver) (boxes : List Pos) (d : Direction) (fuel : Nat)
      (b : Pos) (ms : List Action),
      ∃ k, (skipTunnels s boxes d fuel b ms).1 = posMulAdd b d k ∧
        (skipTunnels s boxes d fuel b ms).2 =
          ms ++ List.replicate k (Action.push d) ∧
        (∀ i < k, (posSub (posMulAdd b d i) d.toVector, d) ∈ s.tunnels ∧
          can_block_crate s boxes (posAdd (posMulAdd b d i) d.toVector) =
            false) ∧
        (k < fuel →
          ¬((posSub (posMulAdd b d k) d.toVector, d) ∈ s.tunnels ∧
            can_block_crate s boxes (posAdd (posMulAdd b d k) d.toVector) =
              false))) ∧
    (∀ (s : Solver) (st : State) (area : List Pos) (b : Pos) (d : Direction)
      (t : State),
      trySuccessor s st area b d = some (some t) →
      ∃ moves,
        t.box_positions = insertPos (removePos st.box_positions b)
          (skipTunnels s st.box_positions d s.fuel (posAdd b d.toVector)
            (st.movements ++ moves ++ [Action.push d])).1 ∧
        t.player_position = posSub
          (skipTunnels s st.box_positions d s.fuel (posAdd b d.toVector)
            (st.movements ++ moves ++ [Action.push d])).1 d.toVector ∧
        t.movements =
          (skipTunnels s st.box_positions d s.fuel (posAdd b d.toVector)
            (st.movements ++ moves ++ [Action.push d])).2) := by
  refine ⟨?_, skipTunnels_chain, trySuccessor_shape⟩
  intro l p d
  simp only [calculate_tunnel_positions, List.mem_flatMap]
  constructor
  · rintro ⟨q, hq, hmem⟩
    have hint := mem_interiorCells.mp hq
    by_cases hf : l.isFloor q = true
    · simp only [hf, Bool.not_true, Bool.false_eq_true, if_false] at hmem
      rcases List.mem_append.mp hmem with hm | hm
      · by_cases hU : (l.isWall (posAdd q Direction.up.toVector) &&
            l.isWall (posAdd q Direction.down.toVector)) = true
        · rw [hU] at hm
          simp only [if_true] at hm
          rw [Bool.and_eq_true] at hU
          obtain ⟨hu, hd⟩ := hU
          rcases List.mem_cons.mp hm with hm1 | hm1
          · injection hm1 with h1 h2
            subst h1; subst h2
            exact ⟨hint, hf, hu, hd⟩
          · rcases List.mem_cons.mp hm1 with hm2 | hm2
            · injection hm2 with h1 h2
              subst h1; subst h2
              exact ⟨hint, hf, hu, hd⟩
            · cases hm2
        · rw [Bool.eq_false_iff.mpr hU] at hm
          simp at hm
      · by_cases hH : (l.isWall (posAdd q Direction.left.toVector) &&
            l.isWall (posAdd q Direction.right.toVector)) = true
        · rw [hH] at hm
          simp only [if_true] at hm
          rw [Bool.and_eq_true] at hH
          obtain ⟨hlw, hrw⟩ := hH
          rcases List.mem_cons.mp hm with hm1 | hm1
          · injection hm1 with h1 h2
            subst h1; subst h2
            exact ⟨hint, hf, hlw, hrw⟩
          · rcases List.mem_cons.mp hm1 with hm2 | hm2
            · injection hm2 with h1 h2
              subst h1; subst h2
              exact ⟨hint, hf, hlw, hrw⟩
            · cases hm2
        · rw [Bool.eq_false_iff.mpr hH] at hm
          simp at hm
    · rw [Bool.eq_false_iff.mpr hf] at hmem
      simp at hmem
  · rintro ⟨hint, hf, hw1, hw2⟩
    refine ⟨p, mem_interiorCells.mpr hint, ?_⟩
    simp only [hf, Bool.not_true, Bool.false_eq_true, if_false,
      List.mem_append]
    cases d with
    | up =>
      simp only [perpendicularAxis] at hw1 hw2
      exact Or.inr (by rw [hw1, hw2]; simp)
    | down =>
      simp only [perpendicularAxis] at hw1 hw2
      exact Or.inr (by rw [hw1, hw2]; simp)
    | left =>
      simp only [perpendicularAxis] at hw1 hw2
      exact Or.inl (by rw [hw1, hw2]; simp)
    | right =>
      simp only [perpendicularAxis] at hw1 hw2
      exact Or.inl (by rw [hw1, hw2]; simp)

/-- Every direction is in the iteration list. -/
theorem mem_dirList (d : Direction) : d ∈ dirList := by
  cases d <;> simp [dirList]

/-- Counting elements across a `List.set`. -/
theorem count_set {α : Type} [DecidableEq α] :
    ∀ (l : List α) (i : Nat) (v b : α), i < l.length →
      (l.set i v).count b + (if l[i]?.getD v = b then 1 else 0) =
        l.count b + (if v = b then 1 else 0) := by
  intro l
  induction l with
  | nil => intro i v b h; cases h
  | cons x xs ih =>
    intro i v b h
    cases i with
    | zero =>
      simp only [List.set, List.getElem?_cons_zero, Option.getD_some,
        List.count_cons]
      by_cases h1 : x = b <;> by_cases h2 : v = b <;>
        simp [h1, h2]
    | succ n =>
      have hn : n < xs.length := by simpa using h
      have := ih n v b hn
      simp only [List.set, List.getElem?_cons_succ, List.count_cons]
      by_cases h1 : x = b <;> simp [h1] <;> omega

/-- Swapping two indices permutes the list. -/
theorem listSwap_perm {α : Type} [DecidableEq α] (l : List α) (i j : Nat) :
    List.Perm (listSwap l i j) l := by
  unfold listSwap
  cases hi : l[i]? with
  | none => exact List.Perm.refl l
  | some a =>
    cases hj : l[j]? with
    | none => exact List.Perm.refl l
    | some b =>
      dsimp only
      have hil : i < l.length := by
        by_contra hc
        rw [List.getElem?_eq_none (by omega)] at hi
        cases hi
      have hjl : j < l.length := by
        by_contra hc
        rw [List.getElem?_eq_none (by omega)] at hj
        cases hj
      rw [List.perm_iff_count]
      intro x
      have hjl' : j < (l.set i b).length := by simpa using hjl
      have h1 := count_set (l.set i b) j a x hjl'
      have h2 := count_set l i b x hil
      rw [hi] at h2
      simp only [Option.getD_some] at h2
      by_cases hij : i = j
      · subst hij
        have hab : a = b := by
          rw [hi] at hj
          exact Option.some.inj hj
        subst hab
        have hset : (l.set i a)[i]? = some a := by
          rw [List.getElem?_set]
          simp [hil]
        rw [hset] at h1
        simp only [Option.getD_some] at h1
        split_ifs at h1 h2 <;> omega
      · have hset : (l.set i b)[j]? = some b := by
          rw [List.getElem?_set]
          simp [hij, hj]
        rw [hset] at h1
        simp only [Option.getD_some] at h1
        split_ifs at h1 h2 <;> omega

/-- Sifting up permutes the list. -/
theorem siftUp_perm {α : Type} [DecidableEq α] (le : α → α → Bool) :
    ∀ (fuel : Nat) (l : List α) (start pos : Nat),
      List.Perm (siftUp le fuel l start pos) l := by
  intro fuel
  induction fuel with
  | zero => intro l start pos; exact List.Perm.refl l
  | succ n ih =>
    intro l start pos
    simp only [siftUp]
    split
    · exact List.Perm.refl l
    · split
      · split
        · exact List.Perm.refl l
        · exact (ih _ _ _).trans (listSwap_perm l _ _)
      · exact List.Perm.refl l

/-- The descent phase of `sift_down_to_bottom` permutes the list. -/
theorem siftDownBottomAux_perm {α : Type} [DecidableEq α] (le : α → α → Bool) :
    ∀ (fuel : Nat) (l : List α) (pos : Nat),
      List.Perm (siftDownBottomAux le fuel l pos).1 l := by
  intro fuel
  induction fuel with
  | zero => intro l pos; exact List.Perm.refl l
  | succ n ih =>
    intro l pos
    simp only [siftDownBottomAux]
    split
    · split
      · exact (ih _ _).trans (listSwap_perm l _ _)
      · exact List.Perm.refl l
    · split
      · exact listSwap_perm l _ _
      · exact List.Perm.refl l

/-- `sift_down_to_bottom` permutes the list. -/
theorem siftDownToBottom_perm {α : Type} [DecidableEq α] (le : α → α → Bool)
    (l : List α) (pos : Nat) : List.Perm (siftDownToBottom le l pos) l := by
  unfold siftDownToBottom
  exact (siftUp_perm le _ _ _ _).trans (siftDownBottomAux_perm le _ l pos)

/-- Pushing is a permutation-level cons. -/
theorem heap_push_perm {α : Type} [DecidableEq α] (le : α → α → Bool)
    (h : RustHeap α) (x : α) :
    List.Perm (RustHeap.push le h x).data (x :: h.data) := by
  unfold RustHeap.push
  exact (siftUp_perm le _ _ _ _).trans (List.perm_append_singleton x h.data)

/-- Popping is a permutation-level uncons. -/
theorem heap_pop_perm {α : Type} [DecidableEq α] (le : α → α → Bool)
    (h : RustHeap α) (x : α) (h' : RustHeap α)
    (hp : RustHeap.pop le h = some (x, h')) :
    List.Perm h.data (x :: h'.data) := by
  unfold RustHeap.pop at hp
  cases hlast : h.data.getLast? with
  | none => rw [hlast] at hp; cases hp
  | some item =>
    rw [hlast] at hp
    have hdecomp : h.data.dropLast ++ [item] = h.data :=
      List.dropLast_append_getLast? item hlast
    cases hdl : h.data.dropLast with
    | nil =>
      rw [hdl] at hp
      simp only [Option.some.injEq, Prod.mk.injEq] at hp
      obtain ⟨h1, h2⟩ := hp
      rw [← h1, ← h2]
      rw [hdl] at hdecomp
      have hdata : h.data = [item] := by simpa using hdecomp.symm
      rw [hdata]
    | cons top rest =>
      rw [hdl] at hp
      simp only [Option.some.injEq, Prod.mk.injEq] at hp
      obtain ⟨h1, h2⟩ := hp
      rw [← h1, ← h2]
      rw [hdl] at hdecomp
      have hdata : h.data = top :: (rest ++ [item]) := by
        rw [← hdecomp]
        rfl
      rw [hdata]
      refine List.Perm.cons top ?_
      exact (List.perm_append_singleton item rest).trans
        (siftDownToBottom_perm le (item :: rest) 0).symm

/-- Popping `none` characterizes the empty heap. -/
theorem heap_pop_none {α : Type} (le : α → α → Bool) (h : RustHeap α) :
    RustHeap.pop le h = none ↔ h.data = [] := by
  constructor
  · intro hp
    cases hd : h.data with
    | nil => rfl
    | cons y t =>
      exfalso
      unfold RustHeap.pop at hp
      rw [hd] at hp
      cases hl : (y :: t).getLast? with
      | none => exact absurd (List.getLast?_eq_none_iff.mp hl) (by simp)
      | some it =>
        rw [hl] at hp
        dsimp only at hp
        split at hp <;> cases hp
  · intro hd
    unfold RustHeap.pop
    rw [hd]
    rfl

/-- Removing a position keeps a sublist membership-wise. -/
theorem removePos_subset {boxes : List Pos} {p b : Pos}
    (h : b ∈ removePos boxes p) : b ∈ boxes := by
  induction boxes with
  | nil => cases h
  | cons x xs ih =>
    simp only [removePos] at h
    split at h
    · exact List.mem_cons_of_mem x h
    · rcases List.mem_cons.mp h with h1 | h1
      · exact h1 ▸ List.mem_cons_self x xs
      · exact List.mem_cons_of_mem x (ih h1)

/-- A successful lookup comes from a binding in the list. -/
theorem alookup_some_mem {β : Type} :
    ∀ (m : List (Pos × β)) (p : Pos) (v : β),
      alookup m p = some v → (p, v) ∈ m := by
  intro m
  induction m with
  | nil => intro p v h; cases h
  | cons x xs ih =>
    intro p v h
    simp only [alookup] at h
    split at h
    · rename_i heq
      simp only [Option.some.injEq] at h
      subst heq
      subst h
      exact List.mem_cons_self x xs
    · exact List.mem_cons_of_mem x (ih p v h)

/-- Splitting the entry sum at a member. -/
theorem sumEntries_removePos (table : List (Pos × Nat)) :
    ∀ (boxes : List Pos) (p : Pos), p ∈ boxes →
      sumEntries table boxes =
        (alookup table p).getD 0 + sumEntries table (removePos boxes p) := by
  intro boxes
  induction boxes with
  | nil => intro p h; cases h
  | cons x xs ih =>
    intro p h
    by_cases hx : x = p
    · subst hx
      simp [removePos, sumEntries]
    · have hmem : p ∈ xs := by
        rcases List.mem_cons.mp h with h1 | h1
        · exact absurd h1.symm hx
        · exact h1
      have := ih p hmem
      simp only [removePos, if_neg hx, sumEntries, List.map_cons,
        List.sum_cons] at *
      omega

/-- Entry sum of an insertion of a fresh position. -/
theorem sumEntries_insert_fresh (table : List (Pos × Nat))
    (boxes : List Pos) (b : Pos) (h : ¬b ∈ boxes) :
    sumEntries table (insertPos boxes b) =
      (alookup table b).getD 0 + sumEntries table boxes := by
  simp [insertPos, h, sumEntries]

/-- The accumulating lower-bound loop equals the entry sum when every
box has an entry. -/
theorem lowerBoundAux_eq_sum (table : List (Pos × Nat)) :
    ∀ (boxes : List Pos) (acc : Nat),
      (∀ b ∈ boxes, (alookup table b).isSome = true) →
      lowerBoundAux table acc boxes = acc + sumEntries table boxes := by
  intro boxes
  induction boxes with
  | nil => intro acc _; simp [lowerBoundAux, sumEntries]
  | cons x xs ih =>
    intro acc hall
    have hx := hall x (List.mem_cons_self x xs)
    cases hlk : alookup table x with
    | none => rw [hlk] at hx; cases hx
    | some e =>
      have := ih (acc + e) (fun b hb => hall b (List.mem_cons_of_mem x hb))
      simp only [lowerBoundAux, hlk, sumEntries, List.map_cons,
        List.sum_cons, Option.getD_some] at *
      omega

/-- Potential argument: under a locally consistent table, replaying a
sequence whose pushes stay on tabled cells decreases the entry sum by
at most one per push and keeps every box tabled. -/
theorem sumEntries_replay (l : Level) (table : List (Pos × Nat))
    (hcons : ∀ pe ∈ table, ∀ d ∈ dirList,
      (alookup table (posAdd pe.1 d.toVector)).isSome = true →
      (alookup table pe.1).getD 0 ≤
        (alookup table (posAdd pe.1 d.toVector)).getD 0 + 1) :
    ∀ (acts : List Action) (c final : Config),
      replay l c acts = some final →
      tabledPushesCheck l table c acts = true →
      (∀ b ∈ c.boxes, (alookup table b).isSome = true) →
      sumEntries table c.boxes ≤
          pushesCount acts + sumEntries table final.boxes ∧
        (∀ b ∈ final.boxes, (alookup table b).isSome = true) := by
  intro acts
  induction acts with
  | nil =>
    intro c final hr _ htab
    simp only [replay, Option.some.injEq] at hr
    subst hr
    exact ⟨by simp [pushesCount], htab⟩
  | cons a rest ih =>
    intro c final hr hchk htab
    simp only [replay] at hr
    cases hstep : stepAction l c a with
    | none => rw [hstep] at hr; cases hr
    | some c' =>
      rw [hstep] at hr
      simp only [tabledPushesCheck, hstep, Bool.and_eq_true] at hchk
      cases a with
      | move d =>
        have hboxes : c'.boxes = c.boxes := by
          simp only [stepAction] at hstep
          split at hstep
          · cases hstep
          · cases hstep; rfl
        obtain ⟨h1, h2⟩ := ih c' final hr hchk.2 (hboxes ▸ htab)
        refine ⟨?_, h2⟩
        rw [hboxes] at h1
        simpa [pushesCount] using h1
      | push d =>
        simp only [stepAction] at hstep
        split at hstep
        · rename_i hcnd
          simp only [Bool.and_eq_true, decide_eq_true_eq,
            Bool.not_eq_true'] at hcnd
          obtain ⟨⟨hpmem, hnw⟩, hnb⟩ := hcnd
          have hbox' : c'.boxes =
              insertPos (removePos c.boxes (posAdd c.player d.toVector))
                (posAdd (posAdd c.player d.toVector) d.toVector) := by
            cases hstep; rfl
          have hnb' : ¬(posAdd (posAdd c.player d.toVector) d.toVector ∈
              c.boxes) := by
            intro hc
            rw [decide_eq_true hc] at hnb
            cases hnb
          have hdest : (alookup table
              (posAdd (posAdd c.player d.toVector) d.toVector)).isSome =
              true := hchk.1
          have htab' : ∀ b ∈ c'.boxes, (alookup table b).isSome = true := by
            intro b hb
            rw [hbox'] at hb
            simp only [insertPos] at hb
            split at hb
            · exact htab b (removePos_subset hb)
            · rcases List.mem_cons.mp hb with h1 | h1
              · exact h1 ▸ hdest
              · exact htab b (removePos_subset h1)
          obtain ⟨h1, h2⟩ := ih c' final hr hchk.2 htab'
          refine ⟨?_, h2⟩
          have hpm : (posAdd c.player d.toVector) ∈ c.boxes := hpmem
          have hsrc := htab _ hpm
          cases hsp : alookup table (posAdd c.player d.toVector) with
          | none => rw [hsp] at hsrc; cases hsrc
          | some e =>
            cases hdp : alookup table
                (posAdd (posAdd c.player d.toVector) d.toVector) with
            | none => rw [hdp] at hdest; cases hdest
            | some e' =>
              have hle : e ≤ e' + 1 := by
                have hm := alookup_some_mem table _ e hsp
                have := hcons (posAdd c.player d.toVector, e) hm d
                  (mem_dirList d) (by rw [hdp]; rfl)
                rwa [hsp, hdp, Option.getD_some, Option.getD_some] at this
              have hfresh : ¬(posAdd (posAdd c.player d.toVector) d.toVector ∈
                  removePos c.boxes (posAdd c.player d.toVector)) :=
                fun hc => hnb' (removePos_subset hc)
              have hsum' : sumEntries table c'.boxes =
                  e' + sumEntries table
                    (removePos c.boxes (posAdd c.player d.toVector)) := by
                rw [hbox', sumEntries_insert_fresh table _ _ hfresh, hdp]
                rfl
              have hsum : sumEntries table c.boxes =
                  e + sumEntries table
                    (removePos c.boxes (posAdd c.player d.toVector)) := by
                rw [sumEntries_removePos table c.boxes _ hpm, hsp]
                rfl
              have hpc : pushesCount (Action.push d :: rest) =
                  pushesCount rest + 1 := by
                simp [pushesCount]
              rw [hsum, hpc]
              rw [hsum'] at h1
              omega
        · cases hstep

/-- C2, amended.  The lower bound of a state whose boxes all sit on
tabled cells is at most the number of pushes of any completing replay,
provided the table entries are locally consistent (an entry is at most
any cardinal neighbor's entry plus one), goal-cell entries are zero,
and every push of the replay lands on a tabled cell. -/
theorem c2_amended_admissibility (s : Solver) (c : Config)
    (acts : List Action) (final : Config)
    (hcons : ∀ pe ∈ s.lowerBounds, ∀ d ∈ dirList,
      (alookup s.lowerBounds (posAdd pe.1 d.toVector)).isSome = true →
      (alookup s.lowerBounds pe.1).getD 0 ≤
        (alookup s.lowerBounds (posAdd pe.1 d.toVector)).getD 0 + 1)
    (hgoal : ∀ g ∈ s.level.goals, (alookup s.lowerBounds g).getD 0 = 0)
    (htab : ∀ b ∈ c.boxes, (alookup s.lowerBounds b).isSome = true)
    (hchk : tabledPushesCheck s.level s.lowerBounds c acts = true)
    (hrep : replay s.level c acts = some final)
    (hdone : allOnTargets s.level final) :
    calculate_lower_bound s c.boxes ≤ pushesCount acts := by
  obtain ⟨h1, h2⟩ :=
    sumEntries_replay s.level s.lowerBounds hcons acts c final hrep hchk htab
  have hzero : sumEntries s.lowerBounds final.boxes = 0 := by
    have : ∀ b ∈ final.boxes, (alookup s.lowerBounds b).getD 0 = 0 := by
      intro b hb
      have hbs := h2 b hb
      cases hlk : alookup s.lowerBounds b with
      | none => rw [hlk] at hbs; cases hbs
      | some e =>
        have := hgoal b (hdone b hb)
        rw [hlk] at this
        simp [hlk, this]
    simp only [sumEntries]
    exact List.sum_eq_zero (by
      intro x hx
      obtain ⟨b, hb, rfl⟩ := List.mem_map.mp hx
      exact this b hb)
  have hlb : calculate_lower_bound s c.boxes =
      sumEntries s.lowerBounds c.boxes := by
    have := lowerBoundAux_eq_sum s.lowerBounds c.boxes 0 htab
    simpa [calculate_lower_bound] using this
  omega

/-- Witness for C2's amended statement on the one-push level. -/
theorem c2_amended_witness :
    calculate_lower_bound sA [(2, 1)] ≤ pushesCount [Action.push .right] :=
  c2_amended_admissibility sA ⟨(1, 1), [(2, 1)]⟩ [Action.push .right]
    ⟨(2, 1), [(3, 1)]⟩ (by decide) (by decide) (by decide) (by decide)
    (by decide) (by decide)

/-- C2, counterexample.  On `lvlC2` the single box at (2,2) has lower
bound 6 (wall-path distance to its Manhattan-nearest target (6,2)),
yet a legal replay solves the level with 5 pushes (to the other target
(5,4)), so the lower bound is not admissible as claimed. -/
theorem c2_counterexample :
    calculate_lower_bound sC2 [(2, 2)] = 6 ∧
    replay lvlC2 ⟨(1, 1), [(2, 2)]⟩ c2seq = some ⟨(4, 4), [(5, 4)]⟩ ∧
    allOnTargets lvlC2 ⟨(4, 4), [(5, 4)]⟩ ∧
    pushesCount c2seq = 5 ∧
    ¬(calculate_lower_bound sC2 [(2, 2)] ≤ pushesCount c2seq) := by
  decide

/-- Witness for C7 on the one-push level: the candidate push of the box
at (2,1) to the right is emitted, shaped by the chaining loop. -/
theorem c7_witness :
    ∃ moves,
      (⟨(2, 1), [(3, 1)], [Action.push .right]⟩ : State).box_positions =
        insertPos (removePos (initialState lvlA).box_positions (2, 1))
          (skipTunnels sA (initialState lvlA).box_positions .right sA.fuel
            (posAdd (2, 1) Direction.right.toVector)
            ((initialState lvlA).movements ++ moves ++
              [Action.push .right])).1 ∧
      (⟨(2, 1), [(3, 1)], [Action.push .right]⟩ : State).player_position =
        posSub
          (skipTunnels sA (initialState lvlA).box_positions .right sA.fuel
            (posAdd (2, 1) Direction.right.toVector)
            ((initialState lvlA).movements ++ moves ++
              [Action.push .right])).1 Direction.right.toVector ∧
      (⟨(2, 1), [(3, 1)], [Action.push .right]⟩ : State).movements =
        (skipTunnels sA (initialState lvlA).box_positions .right sA.fuel
          (posAdd (2, 1) Direction.right.toVector)
          ((initialState lvlA).movements ++ moves ++
            [Action.push .right])).2 :=
  c7_tunnels_and_chaining.2.2 sA (initialState lvlA)
    ((initialState lvlA).player_reachable_area sA) (2, 1) .right
    ⟨(2, 1), [(3, 1)], [Action.push .right]⟩ (by decide)

/-- Membership in a pushed heap. -/
theorem mem_heap_push {α : Type} [DecidableEq α] (le : α → α → Bool)
    (h : RustHeap α) (x y : α) :
    y ∈ (RustHeap.push le h x).data ↔ y = x ∨ y ∈ h.data := by
  rw [(heap_push_perm le h x).mem_iff]
  simp

/-- One neighbor expansion preserves the weakened invariant, leaves the
expanded neighbor blocked-or-costed, and only grows cost map and open
set. -/
theorem expandDir_partial (blk : Pos → Bool) (a g xp : Pos) (d : Direction)
    (st st' : AStarState)
    (hinv : AStarPartialInv blk a g xp st)
    (hexp : expandDir blk g xp d st = some st') :
    AStarPartialInv blk a g xp st' ∧
    (blk (posAdd xp d.toVector) = true ∨
      (alookup st'.cost (posAdd xp d.toVector)).isSome = true) ∧
    (∀ q, (alookup st.cost q).isSome = true →
      (alookup st'.cost q).isSome = true) ∧
    (∀ nd ∈ st.openSet.data, nd ∈ st'.openSet.data) := by
  obtain ⟨hS1, hS4, hS2, hS3, hE0, hE1, hE3⟩ := hinv
  simp only [expandDir] at hexp
  by_cases hb : blk (posAdd xp d.toVector) = true
  · rw [if_pos hb] at hexp
    simp only [Option.some.injEq] at hexp
    subst hexp
    exact ⟨⟨hS1, hS4, hS2, hS3, hE0, hE1, hE3⟩, Or.inl hb,
      fun q h => h, fun nd h => h⟩
  · rw [if_neg hb] at hexp
    cases hxp : alookup st.cost xp with
    | none => rw [hxp] at hexp; cases hexp
    | some gx =>
      rw [hxp] at hexp
      dsimp only at hexp
      have hgx0 : 0 ≤ gx := hS4 xp gx hxp
      have hblknp : blk (posAdd xp d.toVector) = false :=
        Bool.eq_false_iff.mpr hb
      have hnpxp : posAdd xp d.toVector ≠ xp := posAdd_toVector_ne xp d
      have hupdate : ∀ hst' : st' =
          { openSet := st.openSet.push nodeLe
              ⟨posAdd xp d.toVector,
                gx + 1 + manhattan_distance (posAdd xp d.toVector) g⟩
            cameFrom := (posAdd xp d.toVector, xp) :: st.cameFrom
            cost := (posAdd xp d.toVector, gx + 1) :: st.cost },
          posAdd xp d.toVector ≠ a →
          (∀ q pr gp, alookup st.cameFrom q = some pr →
            pr = posAdd xp d.toVector →
            alookup st.cost pr = some gp → gx + 1 + 1 ≤ gp + 1) →
          AStarPartialInv blk a g xp st' ∧
          (blk (posAdd xp d.toVector) = true ∨
            (alookup st'.cost (posAdd xp d.toVector)).isSome = true) ∧
          (∀ q, (alookup st.cost q).isSome = true →
            (alookup st'.cost q).isSome = true) ∧
          (∀ nd ∈ st.openSet.data, nd ∈ st'.openSet.data) := by
        intro hst' hna hdec
        subst hst'
        refine ⟨⟨?_, ?_, ?_, ?_, ?_, ?_, ?_⟩, ?_, ?_, ?_⟩
        · rw [alookup_cons, if_neg hna]
          exact hS1
        · intro q gq h
          rw [alookup_cons] at h
          split at h
          · simp only [Option.some.injEq] at h
            omega
          · exact hS4 q gq h
        · intro q pr h
          rw [alookup_cons] at h
          split at h
          · rename_i heq
            simp only [Option.some.injEq] at h
            subst h
            refine ⟨⟨d, heq.symm⟩, heq ▸ hblknp, gx + 1, gx, ?_, ?_, ?_⟩
            · rw [← heq, alookup_cons, if_pos rfl]
            · rw [alookup_cons, if_neg (heq ▸ hnpxp)]
              exact hxp
            · omega
          · rename_i hne
            obtain ⟨hstep, hblkq, gq, gp, hgq, hgp, hle⟩ := hS2 q pr h
            refine ⟨hstep, hblkq, gq, ?_⟩
            by_cases hpr : posAdd xp d.toVector = pr
            · refine ⟨gx + 1, ?_, ?_, ?_⟩
              · rw [alookup_cons, if_neg hne]
                exact hgq
              · rw [alookup_cons, if_pos hpr]
              · have := hdec q pr gp h hpr.symm (hpr ▸ hgp)
                omega
            · exact ⟨gp, by rw [alookup_cons, if_neg hne]; exact hgq,
                by rw [alookup_cons, if_neg hpr]; exact hgp, hle⟩
        · rw [alookup_cons, if_neg hna]
          exact hS3
        · intro nd hnd
          rw [mem_heap_push] at hnd
          rcases hnd with rfl | hnd
          · rw [alookup_cons]
            simp
          · exact alookup_cons_isSome _ _ _ _ (hE0 nd hnd)
        · intro q hq
          rw [alookup_cons] at hq
          split at hq
          · rename_i heq
            right; left
            exact ⟨⟨posAdd xp d.toVector,
              gx + 1 + manhattan_distance (posAdd xp d.toVector) g⟩,
              (mem_heap_push _ _ _ _).mpr (Or.inl rfl), heq⟩
          · rcases hE1 q hq with h1 | h1 | h1
            · exact Or.inl h1
            · obtain ⟨nd, hnd, hpos⟩ := h1
              exact Or.inr (Or.inl ⟨nd,
                (mem_heap_push _ _ _ _).mpr (Or.inr hnd), hpos⟩)
            · refine Or.inr (Or.inr ?_)
              intro d' hd'
              exact alookup_cons_isSome _ _ _ _ (h1 d' hd')
        · intro hg
          rw [alookup_cons] at hg
          split at hg
          · rename_i heq
            exact ⟨⟨posAdd xp d.toVector,
              gx + 1 + manhattan_distance (posAdd xp d.toVector) g⟩,
              (mem_heap_push _ _ _ _).mpr (Or.inl rfl), heq⟩
          · obtain ⟨nd, hnd, hpos⟩ := hE3 hg
            exact ⟨nd, (mem_heap_push _ _ _ _).mpr (Or.inr hnd), hpos⟩
        · right
          rw [alookup_cons, if_pos rfl]
          rfl
        · intro q h
          exact alookup_cons_isSome _ _ _ _ h
        · intro nd hnd
          exact (mem_heap_push _ _ _ _).mpr (Or.inr hnd)
      cases hnp : alookup st.cost (posAdd xp d.toVector) with
      | none =>
        rw [hnp] at hexp
        dsimp only at hexp
        rw [if_pos rfl] at hexp
        simp only [Option.some.injEq] at hexp
        have hna : posAdd xp d.toVector ≠ a := by
          intro hc
          rw [hc, hS1] at hnp
          cases hnp
        refine hupdate hexp.symm hna ?_
        intro q pr gp _ hpr hgp
        rw [hpr] at hgp
        rw [hnp] at hgp
        cases hgp
      | some old =>
        rw [hnp] at hexp
        dsimp only at hexp
        by_cases hlt : gx + 1 < old
        · rw [if_pos (by simpa using hlt)] at hexp
          simp only [Option.some.injEq] at hexp
          have hna : posAdd xp d.toVector ≠ a := by
            intro hc
            rw [hc, hS1] at hnp
            simp only [Option.some.injEq] at hnp
            omega
          refine hupdate hexp.symm hna ?_
          intro q pr gp _ hpr hgp
          rw [hpr] at hgp
          rw [hnp] at hgp
          simp only [Option.some.injEq] at hgp
          omega
        · rw [if_neg (by simpa using hlt)] at hexp
          simp only [Option.some.injEq] at hexp
          subst hexp
          refine ⟨⟨hS1, hS4, hS2, hS3, hE0, hE1, hE3⟩, ?_,
            fun q h => h, fun nd h => h⟩
          right
          rw [hnp]
          rfl

/-- Popping a node weakens the invariant only at the popped position. -/
theorem astar_pop_partial (blk : Pos → Bool) (a g : Pos) (st : AStarState)
    (x : Node) (h' : RustHeap Node)
    (hinv : AStarInv blk a g st)
    (hpop : RustHeap.pop nodeLe st.openSet = some (x, h'))
    (hxg : x.position ≠ g) :
    AStarPartialInv blk a g x.position { st with openSet := h' } := by
  obtain ⟨hS1, hS4, hS2, hS3, hE0, hE1, hE3⟩ := hinv
  have hperm := heap_pop_perm nodeLe st.openSet x h' hpop
  refine ⟨hS1, hS4, hS2, hS3, ?_, ?_, ?_⟩
  · intro nd hnd
    exact hE0 nd (hperm.mem_iff.mpr (List.mem_cons_of_mem x hnd))
  · intro q hq
    rcases hE1 q hq with ⟨nd, hnd, hpos⟩ | hexp
    · have hmem : nd ∈ x :: h'.data := hperm.mem_iff.mp hnd
      rcases List.mem_cons.mp hmem with rfl | hnd'
      · exact Or.inl hpos.symm
      · exact Or.inr (Or.inl ⟨nd, hnd', hpos⟩)
    · exact Or.inr (Or.inr hexp)
  · intro hg
    obtain ⟨nd, hnd, hpos⟩ := hE3 hg
    have hmem : nd ∈ x :: h'.data := hperm.mem_iff.mp hnd
    rcases List.mem_cons.mp hmem with rfl | hnd'
    · exact absurd hpos hxg
    · exact ⟨nd, hnd', hpos⟩

/-- A full continue-iteration of the loop (pop a non-goal node and
expand its four neighbors) preserves the invariant. -/
theorem astar_iterate (blk : Pos → Bool) (a g : Pos) (st : AStarState)
    (x : Node) (h' : RustHeap Node) (st'' : AStarState)
    (hinv : AStarInv blk a g st)
    (hpop : RustHeap.pop nodeLe st.openSet = some (x, h'))
    (hxg : x.position ≠ g)
    (hexp : expandNode blk g x.position { st with openSet := h' } =
      some st'') :
    AStarInv blk a g st'' := by
  have hpart := astar_pop_partial blk a g st x h' hinv hpop hxg
  simp only [expandNode] at hexp
  cases h1 : expandDir blk g x.position .up { st with openSet := h' } with
  | none => rw [h1] at hexp; cases hexp
  | some s1 =>
    rw [h1] at hexp
    dsimp only at hexp
    obtain ⟨p1, m1, mono1, hsub1⟩ :=
      expandDir_partial blk a g x.position .up _ s1 hpart h1
    cases h2 : expandDir blk g x.position .down s1 with
    | none => rw [h2] at hexp; cases hexp
    | some s2 =>
      rw [h2] at hexp
      dsimp only at hexp
      obtain ⟨p2, m2, mono2, hsub2⟩ :=
        expandDir_partial blk a g x.position .down s1 s2 p1 h2
      cases h3 : expandDir blk g x.position .left s2 with
      | none => rw [h3] at hexp; cases hexp
      | some s3 =>
        rw [h3] at hexp
        dsimp only at hexp
        obtain ⟨p3, m3, mono3, hsub3⟩ :=
          expandDir_partial blk a g x.position .left s2 s3 p2 h3
        obtain ⟨p4, m4, mono4, hsub4⟩ :=
          expandDir_partial blk a g x.position .right s3 st'' p3 hexp
        obtain ⟨hS1, hS4, hS2, hS3, hE0, hE1, hE3⟩ := p4
        refine ⟨hS1, hS4, hS2, hS3, hE0, ?_, hE3⟩
        intro q hq
        rcases hE1 q hq with rfl | h | h
        · right
          intro d' hd'
          cases d' with
          | up =>
            rcases m1 with hm | hm
            · simp [hm] at hd'
            · exact mono4 _ (mono3 _ (mono2 _ hm))
          | down =>
            rcases m2 with hm | hm
            · simp [hm] at hd'
            · exact mono4 _ (mono3 _ hm)
          | left =>
            rcases m3 with hm | hm
            · simp [hm] at hd'
            · exact mono4 _ hm
          | right =>
            rcases m4 with hm | hm
            · simp [hm] at hd'
            · exact hm
        · exact Or.inl h
        · exact Or.inr h

/-- If the open set is exhausted then no valid path exists at all. -/
theorem exhausted_no_path (blk : Pos → Bool) (a g : Pos) (st : AStarState)
    (hinv : AStarInv blk a g st) (hempty : st.openSet.data = []) :
    ¬∃ p, ValidPath blk a g p := by
  obtain ⟨hS1, hS4, hS2, hS3, hE0, hE1, hE3⟩ := hinv
  have hclosed : ∀ q, (alookup st.cost q).isSome = true →
      ∀ d : Direction, blk (posAdd q d.toVector) = false →
      (alookup st.cost (posAdd q d.toVector)).isSome = true := by
    intro q hq d hd
    rcases hE1 q hq with ⟨nd, hnd, _⟩ | h
    · rw [hempty] at hnd; cases hnd
    · exact h d hd
  rintro ⟨p, hhead, hlast, hchain, htail⟩
  have hall : ∀ ps : List Pos, List.Chain' IsUnitStep ps →
      (∀ q ∈ ps.tail, blk q = false) → ∀ h0, ps.head? = some h0 →
      (alookup st.cost h0).isSome = true →
      ∀ q ∈ ps, (alookup st.cost q).isSome = true := by
    intro ps
    induction ps with
    | nil => intro _ _ h0 hh; cases hh
    | cons z t ih =>
      intro hchain htail h0 hh hc q hq
      simp only [List.head?_cons, Option.some.injEq] at hh
      subst hh
      rcases List.mem_cons.mp hq with rfl | hq'
      · exact hc
      · cases t with
        | nil => cases hq'
        | cons y t' =>
          have hstep : IsUnitStep z y := (List.chain'_cons.mp hchain).1
          have hychain := (List.chain'_cons.mp hchain).2
          have hyblk : blk y = false := htail y (by simp)
          obtain ⟨d, hd⟩ := hstep
          have hyc : (alookup st.cost y).isSome = true := by
            rw [hd]
            exact hclosed z hc d (hd ▸ hyblk)
          exact ih hychain
            (fun q2 hq2 => htail q2 (List.mem_cons_of_mem y hq2)) y rfl
            hyc q hq'
  have hac : (alookup st.cost a).isSome = true := by rw [hS1]; rfl
  have hgmem : g ∈ p := by
    have hx : g ∈ p.getLast? := by rw [hlast]; rfl
    obtain ⟨hne, heq⟩ := List.mem_getLast?_eq_getLast hx
    rw [heq]
    exact List.getLast_mem hne
  have hg : (alookup st.cost g).isSome = true :=
    hall p hchain htail a hhead hac g hgmem
  obtain ⟨nd, hnd, _⟩ := hE3 hg
  rw [hempty] at hnd
  cases hnd

/-- Combined soundness of the pathfinding loop: a returned path is
valid, and a returned `None` means no valid path exists. -/
theorem findPathLoop_props (blk : Pos → Bool) (a g : Pos) :
    ∀ (fuel : Nat) (st : AStarState) (r : Option (List Pos)),
      AStarInv blk a g st →
      findPathLoop blk a g fuel st = some r →
      (∀ p, r = some p → ValidPath blk a g p) ∧
      (r = none → ¬∃ p, ValidPath blk a g p) := by
  intro fuel
  induction fuel with
  | zero => intro st r _ h; cases h
  | succ n ih =>
    intro st r hinv h
    simp only [findPathLoop] at h
    cases hpop : RustHeap.pop nodeLe st.openSet with
    | none =>
      rw [hpop] at h
      simp only [Option.some.injEq] at h
      subst h
      constructor
      · intro p hp
        cases hp
      · intro _
        exact exhausted_no_path blk a g st hinv
          ((heap_pop_none _ _).mp hpop)
    | some pr =>
      obtain ⟨x, h'⟩ := pr
      rw [hpop] at h
      dsimp only at h
      by_cases hxg : x.position = g
      · rw [if_pos hxg] at h
        cases hrec : reconstructPath st.cameFrom a (n + 1) g with
        | none => rw [hrec] at h; cases h
        | some p =>
          rw [hrec] at h
          simp only [Option.some.injEq] at h
          subst h
          refine ⟨?_, fun hc => absurd hc (by simp)⟩
          intro p' hp'
          obtain rfl : p = p' := Option.some.inj hp'
          obtain ⟨_, _, hS2, _, _, _, _⟩ := hinv
          have hv := reconstructPath_valid blk st.cameFrom a
            (fun q pr2 hq => ⟨(hS2 q pr2 hq).1, (hS2 q pr2 hq).2.1⟩)
            (n + 1) g p hrec
          exact ⟨hv.1, hv.2.1, hv.2.2.1, hv.2.2.2⟩
      · rw [if_neg hxg] at h
        cases hexp : expandNode blk g x.position
            { st with openSet := h' } with
        | none => rw [hexp] at h; cases h
        | some st'' =>
          rw [hexp] at h
          exact ih st'' r
            (astar_iterate blk a g st x h' st'' hinv hpop hxg hexp) h

/-- A blocked neighbor leaves the expansion state unchanged. -/
theorem expandDir_blocked (blk : Pos → Bool) (g xp : Pos) (d : Direction)
    (st st' : AStarState) (hexp : expandDir blk g xp d st = some st')
    (hblk : blk (posAdd xp d.toVector) = true) : st' = st := by
  simp only [expandDir, if_pos hblk, Option.some.injEq] at hexp
  exact hexp.symm

/-- An unblocked neighbor expansion either conses a cost binding, a
parent binding and one pushed node at the neighbor, or does nothing
because the neighbor already has a cost at most as good. -/
theorem expandDir_cases (blk : Pos → Bool) (g xp : Pos) (d : Direction)
    (st st' : AStarState) (hexp : expandDir blk g xp d st = some st')
    (hblk : blk (posAdd xp d.toVector) = false)
    (hxp : (alookup st.cost xp).isSome = true) :
    (∃ c : Int, ∃ nd : Node, nd.position = posAdd xp d.toVector ∧
      st'.cost = (posAdd xp d.toVector, c) :: st.cost ∧
      st'.openSet = st.openSet.push nodeLe nd ∧
      st'.cameFrom = (posAdd xp d.toVector, xp) :: st.cameFrom) ∨
    (st' = st ∧
      (alookup st.cost (posAdd xp d.toVector)).isSome = true) := by
  simp only [expandDir, if_neg (by simp [hblk] :
    ¬blk (posAdd xp d.toVector) = true)] at hexp
  cases hlk : alookup st.cost xp with
  | none => rw [hlk] at hxp; cases hxp
  | some gx =>
    rw [hlk] at hexp
    dsimp only at hexp
    cases hnp : alookup st.cost (posAdd xp d.toVector) with
    | none =>
      rw [hnp] at hexp
      dsimp only at hexp
      rw [if_pos rfl] at hexp
      simp only [Option.some.injEq] at hexp
      subst hexp
      exact Or.inl ⟨gx + 1,
        ⟨posAdd xp d.toVector,
          gx + 1 + manhattan_distance (posAdd xp d.toVector) g⟩,
        rfl, rfl, rfl, rfl⟩
    | some old =>
      rw [hnp] at hexp
      dsimp only at hexp
      by_cases hlt : gx + 1 < old
      · rw [if_pos (by simpa using hlt)] at hexp
        simp only [Option.some.injEq] at hexp
        subst hexp
        exact Or.inl ⟨gx + 1,
          ⟨posAdd xp d.toVector,
            gx + 1 + manhattan_distance (posAdd xp d.toVector) g⟩,
          rfl, rfl, rfl, rfl⟩
      · rw [if_neg (by simpa using hlt)] at hexp
        simp only [Option.some.injEq] at hexp
        subst hexp
        exact Or.inr ⟨rfl, by simp [hnp]⟩

/-- An expansion with a costed center never panics. -/
theorem expandDir_ne_none (blk : Pos → Bool) (g xp : Pos) (d : Direction)
    (st : AStarState) (hxp : (alookup st.cost xp).isSome = true) :
    expandDir blk g xp d st ≠ none := by
  simp only [expandDir]
  split
  · simp
  · cases hlk : alookup st.cost xp with
    | none => rw [hlk] at hxp; cases hxp
    | some gx =>
      dsimp only
      split <;> simp

/-- On the infinite row, a popped node lies on the row and is costed. -/
theorem row_pop_pos (st : AStarState) (x : Node) (h' : RustHeap Node)
    (hinv : RowInv st)
    (hpop : RustHeap.pop nodeLe st.openSet = some (x, h')) :
    x.position.2 = 0 ∧ (alookup st.cost x.position).isSome = true := by
  obtain ⟨lo, hi, _, _, hiff, _, _, hE0⟩ := hinv
  have hperm := heap_pop_perm nodeLe st.openSet x h' hpop
  have hx : x ∈ st.openSet.data :=
    hperm.mem_iff.mpr (List.mem_cons_self x _)
  have hc := hE0 x hx
  exact ⟨((hiff x.position).mp hc).1, hc⟩

/-- On the infinite row, one full loop iteration preserves the row
invariant. -/
theorem row_iterate (st : AStarState) (x : Node) (h' : RustHeap Node)
    (st'' : AStarState) (hinv : RowInv st)
    (hpop : RustHeap.pop nodeLe st.openSet = some (x, h'))
    (hexp : expandNode rowBlocked (5, 1) x.position
      { st with openSet := h' } = some st'') :
    RowInv st'' := by
  obtain ⟨hrow, hxc⟩ := row_pop_pos st x h' hinv hpop
  obtain ⟨lo, hi, hlo0, hhi0, hiff, ⟨ndH, hndH, hndHpos⟩,
    ⟨ndL, hndL, hndLpos⟩, hE0⟩ := hinv
  have hperm := heap_pop_perm nodeLe st.openSet x h' hpop
  have hxrange := (hiff x.position).mp hxc
  have hUblk : rowBlocked (posAdd x.position Direction.up.toVector) =
      true := by
    simp [rowBlocked, posAdd, Direction.toVector]
    omega
  have hDblk : rowBlocked (posAdd x.position Direction.down.toVector) =
      true := by
    simp [rowBlocked, posAdd, Direction.toVector]
    omega
  have hLblk : rowBlocked (posAdd x.position Direction.left.toVector) =
      false := by
    simp [rowBlocked, posAdd, Direction.toVector]
    omega
  have hRblk : rowBlocked (posAdd x.position Direction.right.toVector) =
      false := by
    simp [rowBlocked, posAdd, Direction.toVector]
    omega
  simp only [expandNode] at hexp
  cases h1 : expandDir rowBlocked (5, 1) x.position .up
      { st with openSet := h' } with
  | none => rw [h1] at hexp; cases hexp
  | some s1 =>
    rw [h1] at hexp
    dsimp only at hexp
    have hs1 : s1 = { st with openSet := h' } :=
      expandDir_blocked _ _ _ _ _ _ h1 hUblk
    subst hs1
    cases h2 : expandDir rowBlocked (5, 1) x.position .down
        { st with openSet := h' } with
    | none => rw [h2] at hexp; cases hexp
    | some s2 =>
      rw [h2] at hexp
      dsimp only at hexp
      have hs2 : s2 = { st with openSet := h' } :=
        expandDir_blocked _ _ _ _ _ _ h2 hDblk
      subst hs2
      cases h3 : expandDir rowBlocked (5, 1) x.position .left
          { st with openSet := h' } with
      | none => rw [h3] at hexp; cases hexp
      | some s3 =>
        rw [h3] at hexp
        dsimp only at hexp
        have hcasesL := expandDir_cases rowBlocked (5, 1) x.position .left
          { st with openSet := h' } s3 h3 hLblk hxc
        have hxc3 : (alookup s3.cost x.position).isSome = true := by
          rcases hcasesL with ⟨c, nd, _, hcost, _, _⟩ | ⟨rfl, _⟩
          · rw [hcost]
            exact alookup_cons_isSome _ _ _ _ hxc
          · exact hxc
        have hcasesR := expandDir_cases rowBlocked (5, 1) x.position .right
          s3 st'' hexp hRblk hxc3
        -- the two neighbor cells on the row
        have hnL : posAdd x.position Direction.left.toVector =
            (x.position.1 - 1, x.position.2) := by
          simp [posAdd, Direction.toVector]
          omega
        have hnR : posAdd x.position Direction.right.toVector =
            (x.position.1 + 1, x.position.2) := by
          simp [posAdd, Direction.toVector]
        have hiffL : ∀ w : Pos, (alookup s3.cost w).isSome = true ↔
            (w = (x.position.1 - 1, x.position.2) ∨
              (alookup st.cost w).isSome = true) := by
          intro w
          rcases hcasesL with ⟨c, nd, _, hcost, _, _⟩ | ⟨heq, hsome⟩
          · rw [hcost, hnL, alookup_cons]
            constructor
            · intro hw
              split at hw
              · rename_i heq2; exact Or.inl heq2.symm
              · exact Or.inr hw
            · intro hw
              rcases hw with rfl | hw
              · rw [if_pos rfl]; rfl
              · split
                · rfl
                · exact hw
          · rw [heq]
            constructor
            · exact fun hw => Or.inr hw
            · intro hw
              rcases hw with rfl | hw
              · rw [← hnL]; exact hsome
              · exact hw
        have hiffR : ∀ w : Pos, (alookup st''.cost w).isSome = true ↔
            (w = (x.position.1 + 1, x.position.2) ∨
              (alookup s3.cost w).isSome = true) := by
          intro w
          rcases hcasesR with ⟨c, nd, _, hcost, _, _⟩ | ⟨heq, hsome⟩
          · rw [hcost, hnR, alookup_cons]
            constructor
            · intro hw
              split at hw
              · rename_i heq2; exact Or.inl heq2.symm
              · exact Or.inr hw
            · intro hw
              rcases hw with rfl | hw
              · rw [if_pos rfl]; rfl
              · split
                · rfl
                · exact hw
          · rw [heq]
            constructor
            · exact fun hw => Or.inr hw
            · intro hw
              rcases hw with rfl | hw
              · rw [← hnR]; exact hsome
              · exact hw
        have hopenL : ∀ nd2 ∈ h'.data, nd2 ∈ s3.openSet.data := by
          intro nd2 hnd2
          rcases hcasesL with ⟨c, nd, _, _, hopen, _⟩ | ⟨heq, _⟩
          · rw [hopen]
            exact (mem_heap_push _ _ _ _).mpr (Or.inr hnd2)
          · rw [heq]
            exact hnd2
        have hopenR : ∀ nd2 ∈ s3.openSet.data, nd2 ∈ st''.openSet.data := by
          intro nd2 hnd2
          rcases hcasesR with ⟨c, nd, _, _, hopen, _⟩ | ⟨heq, _⟩
          · rw [hopen]
            exact (mem_heap_push _ _ _ _).mpr (Or.inr hnd2)
          · rw [heq]
            exact hnd2
        have hLle1 := min_le_left lo (x.position.1 - 1)
        have hLle2 := min_le_right lo (x.position.1 - 1)
        have hLch := min_choice lo (x.position.1 - 1)
        have hHge1 := le_max_left hi (x.position.1 + 1)
        have hHge2 := le_max_right hi (x.position.1 + 1)
        have hHch := max_choice hi (x.position.1 + 1)
        refine ⟨min lo (x.position.1 - 1), max hi (x.position.1 + 1),
          by omega, by omega, ?_, ?_, ?_, ?_⟩
        · intro z
          rw [hiffR, hiffL, hiff]
          constructor
          · rintro (rfl | rfl | ⟨hz2, hzl, hzr⟩)
            · exact ⟨hxrange.1,
                show min lo (x.position.1 - 1) ≤ x.position.1 + 1 by omega,
                show x.position.1 + 1 ≤ max hi (x.position.1 + 1) by omega⟩
            · exact ⟨hxrange.1,
                show min lo (x.position.1 - 1) ≤ x.position.1 - 1 by omega,
                show x.position.1 - 1 ≤ max hi (x.position.1 + 1) by omega⟩
            · exact ⟨hz2, by omega, by omega⟩
          · rintro ⟨hz2, hzl, hzr⟩
            by_cases hzin : lo ≤ z.1 ∧ z.1 ≤ hi
            · exact Or.inr (Or.inr ⟨hz2, hzin.1, hzin.2⟩)
            · by_cases hzr1 : z.1 = x.position.1 + 1
              · left
                have hzz : z = (z.1, z.2) := rfl
                rw [hzz, hzr1, hz2, hxrange.1]
              · right; left
                have hzl1 : z.1 = x.position.1 - 1 := by omega
                have hzz : z = (z.1, z.2) := rfl
                rw [hzz, hzl1, hz2, hxrange.1]
        · by_cases hxhi : x.position.1 = hi
          · rcases hcasesR with ⟨c, nd, hndpos, _, hopen, _⟩ | ⟨heq, hsome⟩
            · refine ⟨nd, ?_, ?_⟩
              · rw [hopen]
                exact (mem_heap_push _ _ _ _).mpr (Or.inl rfl)
              · rw [hndpos, hnR, hxrange.1]
                have hmx : max hi (x.position.1 + 1) = x.position.1 + 1 := by
                  omega
                rw [hmx]
            · exfalso
              rw [hnR] at hsome
              rcases (hiffL _).mp hsome with heq2 | hsome2
              · have := congrArg Prod.fst heq2
                simp at this
                omega
              · have := (hiff _).mp hsome2
                simp at this
                omega
          · have hne : ndH ≠ x := by
              intro hc
              rw [hc] at hndHpos
              exact hxhi (by rw [hndHpos])
            have hndH' : ndH ∈ h'.data := by
              have hm := hperm.mem_iff.mp hndH
              rcases List.mem_cons.mp hm with h | h
              · exact absurd h hne
              · exact h
            refine ⟨ndH, hopenR ndH (hopenL ndH hndH'), ?_⟩
            rw [hndHpos]
            have hmx : max hi (x.position.1 + 1) = hi := by omega
            rw [hmx]
        · by_cases hxlo : x.position.1 = lo
          · rcases hcasesL with ⟨c, nd, hndpos, _, hopen, _⟩ | ⟨heq, hsome⟩
            · have hnds3 : nd ∈ s3.openSet.data := by
                rw [hopen]
                exact (mem_heap_push _ _ _ _).mpr (Or.inl rfl)
              refine ⟨nd, hopenR nd hnds3, ?_⟩
              rw [hndpos, hnL, hxrange.1]
              have hmn : min lo (x.position.1 - 1) = x.position.1 - 1 := by
                omega
              rw [hmn]
            · exfalso
              rw [hnL] at hsome
              have hsome2 := (hiff _).mp hsome
              simp at hsome2
              omega
          · have hne : ndL ≠ x := by
              intro hc
              rw [hc] at hndLpos
              exact hxlo (by rw [hndLpos])
            have hndL' : ndL ∈ h'.data := by
              have hm := hperm.mem_iff.mp hndL
              rcases List.mem_cons.mp hm with h | h
              · exact absurd h hne
              · exact h
            refine ⟨ndL, hopenR ndL (hopenL ndL hndL'), ?_⟩
            rw [hndLpos]
            have hmn : min lo (x.position.1 - 1) = lo := by omega
            rw [hmn]
        · intro nd hnd
          by_cases hndR : nd.position = (x.position.1 + 1, x.position.2)
          · rw [hiffR]
            exact Or.inl hndR
          · by_cases hndL2 : nd.position = (x.position.1 - 1, x.position.2)
            · rw [hiffR, hiffL]
              exact Or.inr (Or.inl hndL2)
            · have hnds3 : nd ∈ s3.openSet.data ∨ nd.position =
                  (x.position.1 + 1, x.position.2) := by
                rcases hcasesR with ⟨c, nd2, hnd2pos, _, hopen, _⟩ |
                  ⟨heq, _⟩
                · rw [hopen] at hnd
                  rcases (mem_heap_push _ _ _ _).mp hnd with rfl | h
                  · exact Or.inr (by rw [hnd2pos, hnR])
                  · exact Or.inl h
                · rw [heq] at hnd
                  exact Or.inl hnd
              rcases hnds3 with hnds3 | hc
              · have hndh' : nd ∈ h'.data ∨ nd.position =
                    (x.position.1 - 1, x.position.2) := by
                  rcases hcasesL with ⟨c, nd2, hnd2pos, _, hopen, _⟩ |
                    ⟨heq, _⟩
                  · rw [hopen] at hnds3
                    rcases (mem_heap_push _ _ _ _).mp hnds3 with rfl | h
                    · exact Or.inr (by rw [hnd2pos, hnL])
                    · exact Or.inl h
                  · rw [heq] at hnds3
                    exact Or.inl hnds3
                rcases hndh' with hndh' | hc
                · have hmem : nd ∈ st.openSet.data :=
                    hperm.mem_iff.mpr (List.mem_cons_of_mem x hndh')
                  rw [hiffR, hiffL]
                  exact Or.inr (Or.inr (hE0 nd hmem))
                · exact absurd hc hndL2
              · exact absurd hc hndR

/-- A neighbor expansion never discards an existing cost entry. -/
theorem expandDir_keep_cost (blk : Pos → Bool) (g xp : Pos)
    (d : Direction) (st st' : AStarState)
    (hexp : expandDir blk g xp d st = some st') (w : Pos)
    (hw : (alookup st.cost w).isSome = true) :
    (alookup st'.cost w).isSome = true := by
  simp only [expandDir] at hexp
  split at hexp
  · cases hexp; exact hw
  · cases hlk : alookup st.cost xp with
    | none => rw [hlk] at hexp; cases hexp
    | some gx =>
      rw [hlk] at hexp
      dsimp only at hexp
      split at hexp
      · cases hexp
        exact alookup_cons_isSome _ _ _ _ hw
      · cases hexp; exact hw

/-- Expanding all four directions of a costed node cannot panic. -/
theorem expandNode_ne_none (blk : Pos → Bool) (g xp : Pos)
    (st : AStarState) (hxp : (alookup st.cost xp).isSome = true) :
    expandNode blk g xp st ≠ none := by
  intro hc
  simp only [expandNode] at hc
  cases h1 : expandDir blk g xp Direction.up st with
  | none => exact expandDir_ne_none blk g xp Direction.up st hxp h1
  | some s1 =>
    rw [h1] at hc
    dsimp only at hc
    have hxp1 := expandDir_keep_cost blk g xp Direction.up st s1 h1 xp hxp
    cases h2 : expandDir blk g xp Direction.down s1 with
    | none => exact expandDir_ne_none blk g xp Direction.down s1 hxp1 h2
    | some s2 =>
      rw [h2] at hc
      dsimp only at hc
      have hxp2 :=
        expandDir_keep_cost blk g xp Direction.down s1 s2 h2 xp hxp1
      cases h3 : expandDir blk g xp Direction.left s2 with
      | none => exact expandDir_ne_none blk g xp Direction.left s2 hxp2 h3
      | some s3 =>
        rw [h3] at hc
        dsimp only at hc
        have hxp3 :=
          expandDir_keep_cost blk g xp Direction.left s2 s3 h3 xp hxp2
        exact expandDir_ne_none blk g xp Direction.right s3 hxp3 hc

/-- On the infinite row the search loop never returns, whatever the
fuel: the row invariant forces a nonempty open set, the goal is off the
row, and each iteration preserves the invariant. -/
theorem row_loop_none : ∀ (fuel : Nat) (st : AStarState), RowInv st →
    findPathLoop rowBlocked (0, 0) (5, 1) fuel st = none := by
  intro fuel
  induction fuel with
  | zero => intro st _; rfl
  | succ n ih =>
    intro st hinv
    simp only [findPathLoop]
    cases hpop : RustHeap.pop nodeLe st.openSet with
    | none =>
      exfalso
      obtain ⟨lo, hi, _, _, _, ⟨ndH, hndH, _⟩, _, _⟩ := hinv
      have hnil := (heap_pop_none nodeLe st.openSet).mp hpop
      rw [hnil] at hndH
      cases hndH
    | some pr =>
      obtain ⟨x, h'⟩ := pr
      obtain ⟨hrow, hxc⟩ := row_pop_pos st x h' hinv hpop
      have hne : ¬(x.position = ((5 : Int), (1 : Int))) := by
        intro hc
        rw [hc] at hrow
        simp at hrow
      dsimp only
      rw [if_neg hne]
      cases hexp : expandNode rowBlocked (5, 1) x.position
          { st with openSet := h' } with
      | none =>
        exact absurd hexp
          (expandNode_ne_none rowBlocked (5, 1) x.position _ hxc)
      | some st' =>
        exact ih st' (row_iterate st x h' st' hinv hpop hexp)

/-- The initial search state of `find_path` on the infinite row
satisfies the row invariant with the degenerate interval [0, 0]. -/
theorem row_init_inv : RowInv
    { openSet := RustHeap.push nodeLe RustHeap.empty
        ⟨((0 : Int), (0 : Int)), manhattan_distance (0, 0) (5, 1)⟩
      cameFrom := []
      cost := [(((0 : Int), (0 : Int)), (0 : Int))] } := by
  refine ⟨0, 0, le_refl 0, le_refl 0, ?_, ?_, ?_, ?_⟩
  · intro z
    constructor
    · intro hz
      rw [alookup_cons] at hz
      split at hz
      · rename_i heq
        rw [← heq]
        exact ⟨rfl, le_refl 0, le_refl 0⟩
      · cases hz
    · rintro ⟨h2, hl, hr⟩
      have hz : z = ((0 : Int), (0 : Int)) := by
        have : z.1 = 0 := le_antisymm hr hl
        have hzz : z = (z.1, z.2) := rfl
        rw [hzz, this, h2]
      rw [hz, alookup_cons, if_pos rfl]
      rfl
  · exact ⟨_, (mem_heap_push _ _ _ _).mpr (Or.inl rfl), rfl⟩
  · exact ⟨_, (mem_heap_push _ _ _ _).mpr (Or.inl rfl), rfl⟩
  · intro nd hnd
    rcases (mem_heap_push _ _ _ _).mp hnd with rfl | h
    · rw [alookup_cons, if_pos rfl]; rfl
    · cases h

/-- `find_path` diverges on the infinite row: it returns fuel
exhaustion at every fuel, never an answer. -/
theorem findPath_row_none (fuel : Nat) :
    find_path fuel (0, 0) (5, 1) rowBlocked = none := by
  rw [find_path]
  exact row_loop_none fuel _ row_init_inv

/-- Adding a vector and subtracting the base recovers the vector. -/
theorem posSub_posAdd_cancel (p v : Pos) : posSub (posAdd p v) p = v := by
  obtain ⟨v1, v2⟩ := v
  simp only [posSub, posAdd, Prod.mk.injEq]
  constructor <;> ring

/-- Subtracting the vector after adding it recovers the base. -/
theorem posSub_posAdd_cancel_right (p v : Pos) : posSub (posAdd p v) v = p := by
  obtain ⟨p1, p2⟩ := p
  simp only [posSub, posAdd, Prod.mk.injEq]
  constructor <;> ring

/-- Adding a vector after subtracting it recovers the base. -/
theorem posAdd_posSub_cancel (p v : Pos) : posAdd (posSub p v) v = p := by
  obtain ⟨p1, p2⟩ := p
  simp only [posSub, posAdd, Prod.mk.injEq]
  constructor <;> ring

/-- A successfully parsed difference vector is the direction's vector. -/
theorem tryFrom_eq_some {v : Pos} {d : Direction}
    (h : Direction.tryFrom v = some d) : v = d.toVector := by
  simp only [Direction.tryFrom] at h
  split at h
  · rename_i hv; cases h; exact hv
  · split at h
    · rename_i hv; cases h; exact hv
    · split at h
      · rename_i hv; cases h; exact hv
      · split at h
        · rename_i hv; cases h; exact hv
        · cases h

/-- Replay splits over concatenation at the intermediate configuration. -/
theorem replay_append (l : Level) :
    ∀ (ms ns : List Action) (c c2 : Config),
      replay l c ms = some c2 →
      replay l c (ms ++ ns) = replay l c2 ns := by
  intro ms
  induction ms with
  | nil =>
    intro ns c c2 h
    cases h
    rfl
  | cons a rest ih =>
    intro ns c c2 h
    simp only [replay] at h ⊢
    cases hs : stepAction l c a with
    | none =>
      rw [hs] at h
      dsimp only at h
      cases h
    | some c1 =>
      rw [hs] at h
      dsimp only at h ⊢
      exact ih ns c1 c2 h

/-- A zero total from the lower-bound accumulator forces a zero
accumulator. -/
theorem lowerBoundAux_zero_acc (table : List (Pos × Nat)) :
    ∀ (boxes : List Pos) (acc : Nat),
      lowerBoundAux table acc boxes = 0 → acc = 0 := by
  intro boxes
  induction boxes with
  | nil => intro acc h; exact h
  | cons x xs ih =>
    intro acc h
    simp only [lowerBoundAux] at h
    cases hlk : alookup table x with
    | none =>
      rw [hlk] at h
      dsimp only at h
      omega
    | some e =>
      rw [hlk] at h
      dsimp only at h
      have := ih (acc + e) h
      omega

/-- A zero lower bound means every box has a zero table entry. -/
theorem lowerBoundAux_zero (table : List (Pos × Nat)) :
    ∀ (boxes : List Pos) (acc : Nat),
      lowerBoundAux table acc boxes = 0 →
      ∀ b ∈ boxes, alookup table b = some 0 := by
  intro boxes
  induction boxes with
  | nil => intro acc _ b hb; cases hb
  | cons x xs ih =>
    intro acc h b hb
    simp only [lowerBoundAux] at h
    cases hlk : alookup table x with
    | none =>
      rw [hlk] at h
      dsimp only at h
      omega
    | some e =>
      rw [hlk] at h
      dsimp only at h
      rcases List.mem_cons.mp hb with rfl | hb2
      · have hacc := lowerBoundAux_zero_acc table xs (acc + e) h
        have he : e = 0 := by omega
        rw [hlk, he]
      · exact ih (acc + e) h b hb2

/-- The first minimum of a nonempty list is one of its elements. -/
theorem minByKeyFirst_mem (key : Pos → Int) :
    ∀ (ts : List Pos) (m : Pos), minByKeyFirst key ts = some m → m ∈ ts := by
  intro ts
  induction ts with
  | nil => intro m h; cases h
  | cons x xs ih =>
    intro m h
    simp only [minByKeyFirst] at h
    cases h2 : minByKeyFirst key xs with
    | none =>
      rw [h2] at h
      dsimp only at h
      cases h
      exact List.mem_cons_self x xs
    | some m2 =>
      rw [h2] at h
      dsimp only at h
      split at h
      · cases h; exact List.mem_cons_self x xs
      · cases h; exact List.mem_cons_of_mem x (ih _ h2)

/-- What a successfully built solver context contains. -/
theorem mkSolver_spec (fuel : Nat) (l : Level) (strat : Strategy)
    (s : Solver) (h : mkSolver fuel l strat = some (some s)) :
    s.level = l ∧ s.strategy = strat ∧ s.fuel = fuel ∧
    calculate_lower_bounds fuel l = some (some s.lowerBounds) := by
  simp only [mkSolver] at h
  cases hlb : calculate_lower_bounds fuel l with
  | none =>
    rw [hlb] at h
    dsimp only at h
    cases h
  | some r =>
    cases r with
    | none =>
      rw [hlb] at h
      dsimp only at h
      cases h
    | some t =>
      rw [hlb] at h
      dsimp only at h
      cases h
      exact ⟨rfl, rfl, rfl, rfl⟩

/-- Adding the difference to the base recovers the target. -/
theorem posAdd_sub_cancel_left (p q : Pos) : posAdd p (posSub q p) = q := by
  obtain ⟨q1, q2⟩ := q
  simp only [posSub, posAdd, Prod.mk.injEq]
  constructor <;> ring

/-- Replaying the Move actions extracted from an unblocked unit-step
path walks the player along it and leaves the boxes alone. -/
theorem pathToMoves_replay (l : Level) (s : Solver) (hl : s.level = l)
    (boxes : List Pos) :
    ∀ (path : List Pos) (moves : List Action) (a b : Pos),
      path.head? = some a → path.getLast? = some b →
      List.Chain' IsUnitStep path →
      (∀ q ∈ path.tail, can_block_player s boxes q = false) →
      pathToMoves path = some moves →
      replay l ⟨a, boxes⟩ moves = some ⟨b, boxes⟩ := by
  intro path
  induction path with
  | nil => intro moves a b hhead _ _ _ _; cases hhead
  | cons p rest ih =>
    intro moves a b hhead hlast hchain htail hmoves
    have ha : p = a := by simpa using hhead
    subst ha
    cases rest with
    | nil =>
      have hm : moves = [] := by
        simpa [pathToMoves] using hmoves.symm
      subst hm
      have hb : p = b := by simpa using hlast
      subst hb
      rfl
    | cons q rest2 =>
      simp only [pathToMoves] at hmoves
      cases htf : Direction.tryFrom (posSub q p) with
      | none => rw [htf] at hmoves; cases hmoves
      | some d =>
        rw [htf] at hmoves
        dsimp only at hmoves
        cases hm2 : pathToMoves (q :: rest2) with
        | none => rw [hm2] at hmoves; cases hmoves
        | some ms2 =>
          rw [hm2] at hmoves
          simp only [Option.map_some'] at hmoves
          cases hmoves
          have hpq : posAdd p d.toVector = q := by
            rw [← tryFrom_eq_some htf]
            exact posAdd_sub_cancel_left p q
          have hq := htail q (List.mem_cons_self q rest2)
          have hcond : (l.isWall q || decide (q ∈ boxes)) = false := by
            rw [← hl]
            exact hq
          have hstep : stepAction l ⟨p, boxes⟩ (Action.move d) =
              some ⟨q, boxes⟩ := by
            simp only [stepAction]
            rw [hpq, hcond]
            simp
          simp only [replay]
          rw [hstep]
          dsimp only
          rw [List.getLast?_cons_cons] at hlast
          exact ih ms2 q b rfl hlast hchain.tail
            (fun r hr => htail r (List.mem_cons_of_mem q hr)) hm2

/-- Replaying the Push actions appended by the tunnel-chaining loop
advances the pushed box cell by cell, the player one step behind. -/
theorem skipTunnels_replay (l : Level) (s : Solver) (hl : s.level = l)
    (B B2 : List Pos) (d : Direction) (hsub : ∀ q ∈ B2, q ∈ B) :
    ∀ (fuel : Nat) (b : Pos) (ms : List Action) (r1 : Pos)
      (r2 : List Action),
      skipTunnels s B d fuel b ms = (r1, r2) →
      b ∉ B2 →
      ∃ extra, r2 = ms ++ extra ∧
        replay l ⟨posSub b d.toVector, b :: B2⟩ extra =
          some ⟨posSub r1 d.toVector, r1 :: B2⟩ ∧
        r1 ∉ B2 := by
  intro fuel
  induction fuel with
  | zero =>
    intro b ms r1 r2 hr hb
    cases hr
    exact ⟨[], (List.append_nil ms).symm, rfl, hb⟩
  | succ n ih =>
    intro b ms r1 r2 hr hb
    simp only [skipTunnels] at hr
    split at hr
    · split at hr
      · cases hr
        exact ⟨[], (List.append_nil ms).symm, rfl, hb⟩
      · rename_i htun hblk
        rw [Bool.not_eq_true] at hblk
        have hparts : s.level.isWall (posAdd b d.toVector) = false ∧
            posAdd b d.toVector ∉ B := by
          simp only [can_block_crate, Bool.or_eq_false_iff,
            decide_eq_false_iff_not] at hblk
          exact ⟨hblk.1.1, hblk.2⟩
        have hnbB2 : posAdd b d.toVector ∉ B2 :=
          fun hc => hparts.2 (hsub _ hc)
        obtain ⟨extra, he, hrep, hr1⟩ :=
          ih (posAdd b d.toVector) (ms ++ [Action.push d]) r1 r2 hr hnbB2
        have hstep : stepAction l ⟨posSub b d.toVector, b :: B2⟩
            (Action.push d) = some ⟨b, posAdd b d.toVector :: B2⟩ := by
          simp only [stepAction]
          rw [posAdd_posSub_cancel]
          have h1 : decide (b ∈ b :: B2) = true := by simp
          have h2 : l.isWall (posAdd b d.toVector) = false := by
            rw [← hl]; exact hparts.1
          have h3 : decide (posAdd b d.toVector ∈ b :: B2) = false := by
            simp only [decide_eq_false_iff_not, List.mem_cons, not_or]
            exact ⟨posAdd_toVector_ne b d, hnbB2⟩
          have h4 : removePos (b :: B2) b = B2 := by simp [removePos]
          have h5 : insertPos B2 (posAdd b d.toVector) =
              posAdd b d.toVector :: B2 := by
            simp only [insertPos]
            rw [if_neg]
            simpa using hnbB2
          rw [h1, h2, h3, h4, h5]
          simp
        refine ⟨Action.push d :: extra, ?_, ?_, hr1⟩
        · rw [he]; simp
        · simp only [replay]
          rw [hstep]
          dsimp only
          rw [posSub_posAdd_cancel_right] at hrep
          exact hrep
    · cases hr
      exact ⟨[], (List.append_nil ms).symm, rfl, hb⟩

/-- An emitted successor extends the movement log by actions whose
replay carries the parent configuration to the successor's. -/
theorem trySuccessor_replay (l : Level) (s : Solver) (hl : s.level = l)
    (st : State) (area : List Pos) (b : Pos) (d : Direction) (t : State)
    (hb : b ∈ st.box_positions)
    (h : trySuccessor s st area b d = some (some t)) :
    ∃ extra, t.movements = st.movements ++ extra ∧
      replay l ⟨st.player_position, st.box_positions⟩ extra =
        some ⟨t.player_position, t.box_positions⟩ := by
  simp only [trySuccessor] at h
  split at h
  · cases h
  · rename_i hcbc
    rw [Bool.not_eq_true] at hcbc
    split at h
    · cases h
    · rename_i hstand
      rw [Bool.not_eq_true] at hstand
      have hcp : can_block_player s st.box_positions
          (posSub b d.toVector) = false := by
        simp only [Bool.or_eq_false_iff] at hstand
        exact hstand.1
      cases hfp : find_path s.fuel st.player_position
          (posSub b d.toVector)
          (fun p => can_block_player s st.box_positions p) with
      | none => rw [hfp] at h; cases h
      | some r0 =>
        rw [hfp] at h
        cases r0 with
        | none => dsimp only at h; cases h
        | some path =>
          dsimp only at h
          cases hpm : pathToMoves path with
          | none => rw [hpm] at h; cases h
          | some moves =>
            rw [hpm] at h
            dsimp only at h
            cases hsk : skipTunnels s st.box_positions d s.fuel
                (posAdd b d.toVector)
                (st.movements ++ moves ++ [Action.push d]) with
            | mk r1 r2 =>
              rw [hsk] at h
              dsimp only at h
              split at h
              · cases h
              · cases h
                have hvp : ValidPath
                    (fun p => can_block_player s st.box_positions p)
                    st.player_position (posSub b d.toVector) path :=
                  (findPathLoop_props
                    (fun p => can_block_player s st.box_positions p)
                    st.player_position (posSub b d.toVector) s.fuel _
                    (some path)
                    (astar_init _ st.player_position (posSub b d.toVector))
                    hfp).1 path rfl
                obtain ⟨hhead, hlast, hchain, htail⟩ := hvp
                have hmoves := pathToMoves_replay l s hl st.box_positions
                  path moves st.player_position (posSub b d.toVector)
                  hhead hlast hchain htail hpm
                have hparts : s.level.isWall (posAdd b d.toVector) = false ∧
                    posAdd b d.toVector ∉ st.box_positions := by
                  simp only [can_block_crate, Bool.or_eq_false_iff,
                    decide_eq_false_iff_not] at hcbc
                  exact ⟨hcbc.1.1, hcbc.2⟩
                have hnbB2 : posAdd b d.toVector ∉
                    removePos st.box_positions b :=
                  fun hc => hparts.2 (removePos_subset hc)
                obtain ⟨extra2, he2, hrep2, hr1⟩ :=
                  skipTunnels_replay l s hl st.box_positions
                    (removePos st.box_positions b) d
                    (fun q hq => removePos_subset hq) s.fuel
                    (posAdd b d.toVector)
                    (st.movements ++ moves ++ [Action.push d]) r1 r2 hsk
                    hnbB2
                have hstep : stepAction l
                    ⟨posSub b d.toVector, st.box_positions⟩
                    (Action.push d) = some
                    ⟨b, posAdd b d.toVector ::
                      removePos st.box_positions b⟩ := by
                  simp only [stepAction]
                  rw [posAdd_posSub_cancel]
                  have h1 : decide (b ∈ st.box_positions) = true := by
                    simpa using hb
                  have h2 : l.isWall (posAdd b d.toVector) = false := by
                    rw [← hl]; exact hparts.1
                  have h3 : decide (posAdd b d.toVector ∈
                      st.box_positions) = false := by
                    simpa using hparts.2
                  have h5 : insertPos (removePos st.box_positions b)
                      (posAdd b d.toVector) =
                      posAdd b d.toVector :: removePos st.box_positions b := by
                    simp only [insertPos]
                    rw [if_neg]
                    simpa using hnbB2
                  rw [h1, h2, h3, h5]
                  simp
                refine ⟨moves ++ Action.push d :: extra2, ?_, ?_⟩
                · dsimp only [State.new]
                  rw [he2]
                  simp
                · rw [replay_append l moves (Action.push d :: extra2)
                    ⟨st.player_position, st.box_positions⟩
                    ⟨posSub b d.toVector, st.box_positions⟩ hmoves]
                  simp only [replay]
                  rw [hstep]
                  dsimp only
                  rw [posSub_posAdd_cancel_right] at hrep2
                  dsimp only [State.new]
                  have h5 : insertPos (removePos st.box_positions b) r1 =
                      r1 :: removePos st.box_positions b := by
                    simp only [insertPos]
                    rw [if_neg]
                    simpa using hr1
                  rw [h5]
                  exact hrep2

/-- Every member of the generated successor list comes from one
push candidate of the parent. -/
theorem successorsAux_mem_cand (s : Solver) (st : State) (area : List Pos) :
    ∀ (cands : List (Pos × Direction)) (succs : List State) (t : State),
      successorsAux s st area cands = some succs → t ∈ succs →
      ∃ b d, (b, d) ∈ cands ∧ trySuccessor s st area b d = some (some t) := by
  intro cands
  induction cands with
  | nil =>
    intro succs t h ht
    cases h
    cases ht
  | cons bd rest ih =>
    intro succs t h ht
    obtain ⟨b, d⟩ := bd
    simp only [successorsAux] at h
    cases htry : trySuccessor s st area b d with
    | none => rw [htry] at h; cases h
    | some r0 =>
      rw [htry] at h
      cases r0 with
      | none =>
        dsimp only at h
        obtain ⟨b2, d2, hmem, h2⟩ := ih succs t h ht
        exact ⟨b2, d2, List.mem_cons_of_mem _ hmem, h2⟩
      | some t2 =>
        dsimp only at h
        cases hrest : successorsAux s st area rest with
        | none => rw [hrest] at h; cases h
        | some succs2 =>
          rw [hrest] at h
          simp only [Option.map_some'] at h
          cases h
          rcases List.mem_cons.mp ht with rfl | hmem2
          · exact ⟨b, d, List.mem_cons_self _ _, htry⟩
          · obtain ⟨b2, d2, hmem, h2⟩ := ih succs2 t hrest hmem2
            exact ⟨b2, d2, List.mem_cons_of_mem _ hmem, h2⟩

/-- Push candidates draw their box from the parent's box list. -/
theorem pushCandidates_fst (st : State) (b : Pos) (d : Direction)
    (h : (b, d) ∈ pushCandidates st) : b ∈ st.box_positions := by
  simp only [pushCandidates, List.mem_flatMap] at h
  obtain ⟨b2, hb2, hmem⟩ := h
  simp only [List.mem_map] at hmem
  obtain ⟨d2, _, heq⟩ := hmem
  cases heq
  exact hb2

/-- A solved answer out of the successor loop is the movement log of a
solved successor. -/
theorem handleSuccessors_inr (s : Solver) (visited : List State) :
    ∀ (succs : List State) (h : RustHeap State) (m : List Action),
      handleSuccessors s visited succs h = .inr m →
      ∃ t ∈ succs, t.is_solved s = true ∧ m = t.movements := by
  intro succs
  induction succs with
  | nil => intro h m hc; cases hc
  | cons t rest ih =>
    intro h m hc
    simp only [handleSuccessors] at hc
    split at hc
    · obtain ⟨t2, ht2, h1, h2⟩ := ih _ _ hc
      exact ⟨t2, List.mem_cons_of_mem _ ht2, h1, h2⟩
    · split at hc
      · rename_i hsolved
        cases hc
        exact ⟨t, List.mem_cons_self _ _, hsolved, rfl⟩
      · obtain ⟨t2, ht2, h1, h2⟩ := ih _ _ hc
        exact ⟨t2, List.mem_cons_of_mem _ ht2, h1, h2⟩

/-- The successor loop only adds successors to the frontier. -/
theorem handleSuccessors_inl (s : Solver) (visited : List State) :
    ∀ (succs : List State) (h hout : RustHeap State),
      handleSuccessors s visited succs h = .inl hout →
      ∀ x ∈ hout.data, x ∈ h.data ∨ x ∈ succs := by
  intro succs
  induction succs with
  | nil =>
    intro h hout hc x hx
    cases hc
    exact Or.inl hx
  | cons t rest ih =>
    intro h hout hc x hx
    simp only [handleSuccessors] at hc
    split at hc
    · rcases ih _ _ hc x hx with h1 | h1
      · exact Or.inl h1
      · exact Or.inr (List.mem_cons_of_mem _ h1)
    · split at hc
      · cases hc
      · rcases ih _ _ hc x hx with h1 | h1
        · rcases (mem_heap_push (stateLe s) h t x).mp h1 with rfl | h2
          · exact Or.inr (List.mem_cons_self _ _)
          · exact Or.inl h2
        · exact Or.inr (List.mem_cons_of_mem _ h1)

/-- Through the driver loop, a heap of replay-consistent states can
only answer with the movement log of a replay-consistent solved
successor. -/
theorem solveLoop_replay (l : Level) (s : Solver) (hl : s.level = l)
    (timedOut : Nat → Bool) :
    ∀ (fuel : Nat) (ss : SearchState) (m : List Action),
      (∀ x ∈ ss.heap.data, GoodS l x) →
      solveLoop s timedOut fuel ss = some (.ok m) →
      ∃ t : State, GoodS l t ∧ t.is_solved s = true ∧ m = t.movements := by
  intro fuel
  induction fuel with
  | zero => intro ss m _ hc; cases hc
  | succ n ih =>
    intro ss m hgood hc
    simp only [solveLoop] at hc
    cases hpop : RustHeap.pop (stateLe s) ss.heap with
    | none =>
      rw [hpop] at hc
      dsimp only at hc
      simp at hc
    | some pr =>
      obtain ⟨st, heap2⟩ := pr
      rw [hpop] at hc
      dsimp only at hc
      split at hc
      · simp at hc
      · cases hsucc : st.successors s with
        | none => rw [hsucc] at hc; cases hc
        | some succs =>
          rw [hsucc] at hc
          dsimp only at hc
          have hstmem : st ∈ ss.heap.data :=
            (heap_pop_perm (stateLe s) ss.heap st heap2 hpop).mem_iff.mpr
              (List.mem_cons_self st heap2.data)
          have hstgood := hgood st hstmem
          have hsucc2 : successorsAux s st (st.player_reachable_area s)
              (pushCandidates st) = some succs := hsucc
          have hsgood : ∀ t ∈ succs, GoodS l t := by
            intro t ht
            obtain ⟨b, d, hbd, htry⟩ :=
              successorsAux_mem_cand s st (st.player_reachable_area s)
                (pushCandidates st) succs t hsucc2 ht
            have hbmem : b ∈ st.box_positions := pushCandidates_fst st b d hbd
            obtain ⟨extra, hmv, hrep⟩ :=
              trySuccessor_replay l s hl st (st.player_reachable_area s)
                b d t hbmem htry
            show replay l ⟨l.playerStart, l.crateStart⟩ t.movements =
              some ⟨t.player_position, t.box_positions⟩
            rw [hmv,
              replay_append l st.movements extra _ _ hstgood]
            exact hrep
          cases hh : handleSuccessors s
              (visitedInsert ss.visited (st.normalized s)) succs heap2 with
          | inr m2 =>
            rw [hh] at hc
            dsimp only at hc
            have hm : m2 = m := by simpa using hc
            obtain ⟨t, htmem, hsolved, hmv⟩ :=
              handleSuccessors_inr s _ succs heap2 m2 hh
            exact ⟨t, hsgood t htmem, hsolved, by rw [← hm]; exact hmv⟩
          | inl heap3 =>
            rw [hh] at hc
            dsimp only at hc
            refine ih ⟨heap3, visitedInsert ss.visited (st.normalized s)⟩
              m ?_ hc
            intro x hx
            rcases handleSuccessors_inl s _ succs heap2 heap3 hh x hx with
              hx1 | hx1
            · exact hgood x
                ((heap_pop_perm (stateLe s) ss.heap st heap2 hpop).mem_iff.mpr
                  (List.mem_cons_of_mem st hx1))
            · exact hsgood x hx1

/-- One table-building step preserves the zero-entries-on-targets
invariant: a zero entry means a one-cell path, whose two ends coincide
at the chosen target. -/
theorem lowerBoundCell_zero (fuel : Nat) (l : Level)
    (acc acc2 : List (Pos × Nat)) (p : Pos)
    (h : lowerBoundCell fuel l acc p = some (some acc2))
    (hacc : TableZeroGoal l acc) : TableZeroGoal l acc2 := by
  simp only [lowerBoundCell] at h
  split at h
  · cases h
    exact hacc
  · cases hmin : minByKeyFirst (fun t => manhattan_distance t p)
        l.goals with
    | none => rw [hmin] at h; cases h
    | some tgt =>
      rw [hmin] at h
      dsimp only at h
      cases hfp : find_path fuel p tgt (fun q => l.isWall q) with
      | none => rw [hfp] at h; cases h
      | some r0 =>
        rw [hfp] at h
        cases r0 with
        | none => dsimp only at h; cases h
        | some path =>
          dsimp only at h
          cases h
          intro q v hqv hv0
          rcases List.mem_cons.mp hqv with heq | hmem
          · injection heq with hq hv
            subst hq
            subst hv
            have hvp : ValidPath (fun q2 => l.isWall q2) q tgt path :=
              (findPathLoop_props (fun q2 => l.isWall q2) q tgt fuel _
                (some path) (astar_init _ q tgt) hfp).1 path rfl
            obtain ⟨hhead, hlast, _, _⟩ := hvp
            cases path with
            | nil => cases hhead
            | cons a rest =>
              cases rest with
              | nil =>
                have ha : a = q := by simpa using hhead
                have hb : a = tgt := by simpa using hlast
                rw [← ha, hb]
                exact minByKeyFirst_mem _ l.goals tgt hmin
              | cons a2 rest2 =>
                exfalso
                simp at hv0
          · exact hacc q v hmem hv0

/-- The zero-entries-on-targets invariant survives the whole fold. -/
theorem lowerBoundsFold_zero (fuel : Nat) (l : Level) :
    ∀ (cells : List Pos) (acc table : List (Pos × Nat)),
      TableZeroGoal l acc →
      lowerBoundsFold fuel l cells acc = some (some table) →
      TableZeroGoal l table := by
  intro cells
  induction cells with
  | nil =>
    intro acc table hacc h
    cases h
    exact hacc
  | cons p rest ih =>
    intro acc table hacc h
    simp only [lowerBoundsFold] at h
    cases hcell : lowerBoundCell fuel l acc p with
    | none => rw [hcell] at h; cases h
    | some r0 =>
      rw [hcell] at h
      cases r0 with
      | none => dsimp only at h; cases h
      | some acc2 =>
        dsimp only at h
        exact ih acc2 table (lowerBoundCell_zero fuel l acc acc2 p hcell hacc) h

/-- In the finished lower-bound table, a zero entry sits on a target. -/
theorem lower_bounds_zero_goal (fuel : Nat) (l : Level)
    (table : List (Pos × Nat))
    (h : calculate_lower_bounds fuel l = some (some table)) :
    TableZeroGoal l table :=
  lowerBoundsFold_zero fuel l (interiorCells l) [] table
    (fun p v hpv => by cases hpv) h

/-- A zero lower bound puts every box on a target. -/
theorem is_solved_onTargets (fuel : Nat) (l : Level) (strat : Strategy)
    (s : Solver) (hs : mkSolver fuel l strat = some (some s))
    (boxes : List Pos)
    (hsolved : calculate_lower_bound s boxes = 0) :
    ∀ b ∈ boxes, b ∈ l.goals := by
  intro b hb
  obtain ⟨hsl, _, _, hlb⟩ := mkSolver_spec fuel l strat s hs
  have h0 : alookup s.lowerBounds b = some 0 :=
    lowerBoundAux_zero s.lowerBounds boxes 0 hsolved b hb
  exact lower_bounds_zero_goal fuel l s.lowerBounds hlb b 0
    (alookup_some_mem s.lowerBounds b 0 h0) rfl

/-- C1.  If `solve` returns a movement sequence, replaying it from the
level's initial player position and box set is legal throughout and
ends in a configuration in which every box occupies a target cell. -/
theorem c1_solution_validity (fuel : Nat) (l : Level) (strat : Strategy)
    (timedOut : Nat → Bool) (m : List Action)
    (h : solveLevel fuel l strat timedOut = some (.ok m)) :
    ∃ c : Config, replay l ⟨l.playerStart, l.crateStart⟩ m = some c ∧
      allOnTargets l c := by
  simp only [solveLevel] at h
  cases hmk : mkSolver fuel l strat with
  | none => rw [hmk] at h; cases h
  | some r0 =>
    rw [hmk] at h
    cases r0 with
    | none => dsimp only at h; cases h
    | some s =>
      dsimp only at h
      obtain ⟨hsl, _, _, _⟩ := mkSolver_spec fuel l strat s hmk
      have hinit : ∀ x ∈ (RustHeap.push (stateLe s) RustHeap.empty
          (initialState l)).data, GoodS l x := by
        intro x hx
        rcases (mem_heap_push (stateLe s) RustHeap.empty
            (initialState l) x).mp hx with rfl | hx2
        · show replay l ⟨l.playerStart, l.crateStart⟩ [] =
            some ⟨(initialState l).player_position,
              (initialState l).box_positions⟩
          rfl
        · cases hx2
      obtain ⟨t, htgood, htsolved, hmv⟩ :=
        solveLoop_replay l s hsl timedOut fuel
          ⟨RustHeap.push (stateLe s) RustHeap.empty (initialState l), []⟩
          m hinit h
      refine ⟨⟨t.player_position, t.box_positions⟩, ?_, ?_⟩
      · rw [hmv]
        exact htgood
      · intro b hb
        have hlb0 : calculate_lower_bound s t.box_positions = 0 := by
          simpa [State.is_solved] using htsolved
        exact is_solved_onTargets fuel l strat s hmk t.box_positions hlb0 b hb

theorem c1_witness :
    ∃ c : Config, replay lvlB ⟨lvlB.playerStart, lvlB.crateStart⟩
        [Action.push Direction.right] = some c ∧ allOnTargets lvlB c :=
  c1_solution_validity 100 lvlB .fast (fun _ => false)
    [Action.push Direction.right] (by decide)

/-- The parent slot strictly precedes any non-root slot. -/
theorem parentIdx_lt {i : Nat} (h : 1 ≤ i) : parentIdx i < i := by
  simp only [parentIdx]
  omega

/-- Swapping preserves length. -/
theorem listSwap_length {α : Type} (l : List α) (i j : Nat) :
    (listSwap l i j).length = l.length := by
  unfold listSwap
  cases l[i]? <;> cases l[j]? <;> simp

/-- Pointwise description of a swap. -/
theorem listSwap_getElem {α : Type} (l : List α) {i j : Nat} {a b : α}
    (hi : l[i]? = some a) (hj : l[j]? = some b) (k : Nat) :
    (listSwap l i j)[k]? = if j = k then some a
      else if i = k then some b else l[k]? := by
  have hil : i < l.length := (List.getElem?_eq_some.mp hi).1
  have hjl : j < l.length := (List.getElem?_eq_some.mp hj).1
  simp only [listSwap]
  rw [hi, hj]
  dsimp only
  by_cases h1 : j = k
  · subst h1
    rw [if_pos rfl, List.getElem?_set]
    simp [List.length_set, hjl]
  · rw [if_neg h1, List.getElem?_set, if_neg h1, List.getElem?_set]
    by_cases h2 : i = k
    · subst h2
      simp [hil]
    · simp [h2]

/-- In a heap, every element is at most the root. -/
theorem heap_le_root_aux {α : Type} (le : α → α → Bool)
    (htot : ∀ a b, le a b = true ∨ le b a = true)
    (htrans : ∀ a b c, le a b = true → le b c = true → le a c = true)
    (l : List α) (hheap : IsHeapL le l) :
    ∀ (k i : Nat) (x r : α), i ≤ k → l[i]? = some x →
      l[0]? = some r → le x r = true := by
  intro k
  induction k with
  | zero =>
    intro i x r hik hx hr
    have h0 : i = 0 := by omega
    subst h0
    rw [hx] at hr
    cases hr
    rcases htot x x with h | h <;> exact h
  | succ n ih =>
    intro i x r hik hx hr
    rcases Nat.eq_zero_or_pos i with h0 | hpos
    · subst h0
      rw [hx] at hr
      cases hr
      rcases htot x x with h | h <;> exact h
    · have hplt : parentIdx i < i := parentIdx_lt hpos
      have hpl : parentIdx i < l.length :=
        lt_trans hplt (List.getElem?_eq_some.mp hx).1
      obtain ⟨px, hpx⟩ : ∃ px, l[parentIdx i]? = some px :=
        ⟨l[parentIdx i], List.getElem?_eq_getElem hpl⟩
      exact htrans x px r (hheap i x px hpos hx hpx)
        (ih (parentIdx i) px r (by omega) hpx hr)

/-- In a heap, every element is at most the root. -/
theorem heap_le_root {α : Type} (le : α → α → Bool)
    (htot : ∀ a b, le a b = true ∨ le b a = true)
    (htrans : ∀ a b c, le a b = true → le b c = true → le a c = true)
    (l : List α) (hheap : IsHeapL le l) :
    ∀ (i : Nat) (x r : α), l[i]? = some x → l[0]? = some r →
      le x r = true :=
  fun i x r hx hr =>
    heap_le_root_aux le htot htrans l hheap i i x r (le_refl i) hx hr

/-- `sift_up` from a one-violation state yields a heap. -/
theorem siftUp_heap {α : Type} (le : α → α → Bool)
    (htot : ∀ a b, le a b = true ∨ le b a = true)
    (htrans : ∀ a b c, le a b = true → le b c = true → le a c = true) :
    ∀ (fuel : Nat) (l : List α) (pos : Nat),
      UpInv le l pos → pos < fuel →
      IsHeapL le (siftUp le fuel l 0 pos) := by
  intro fuel
  induction fuel with
  | zero => intro l pos _ h; omega
  | succ n ih =>
    intro l pos hinv hfuel
    obtain ⟨hlen, hA, hB⟩ := hinv
    simp only [siftUp]
    by_cases hpos0 : pos ≤ 0
    · rw [if_pos hpos0]
      intro i y py h1 hy hpy
      exact hA i y py h1 (by omega) hy hpy
    · rw [if_neg hpos0]
      have hpos1 : 1 ≤ pos := by omega
      have hplt : parentIdx pos < pos := parentIdx_lt hpos1
      have hplen : parentIdx pos < l.length := lt_trans hplt hlen
      obtain ⟨x, hx⟩ : ∃ x, l[pos]? = some x :=
        ⟨l[pos], List.getElem?_eq_getElem hlen⟩
      obtain ⟨p, hp⟩ : ∃ p, l[parentIdx pos]? = some p :=
        ⟨l[parentIdx pos], List.getElem?_eq_getElem hplen⟩
      have hp2 : l[(pos - 1) / 2]? = some p := hp
      rw [hx, hp2]
      dsimp only
      by_cases hle : le x p = true
      · rw [if_pos hle]
        intro i y py h1 hy hpy
        by_cases hipos : i = pos
        · subst hipos
          rw [hy] at hx
          cases hx
          rw [hpy] at hp
          cases hp
          exact hle
        · exact hA i y py h1 hipos hy hpy
      · rw [if_neg hle]
        have hle2 : le p x = true := by
          rcases htot x p with h | h
          · exact absurd h hle
          · exact h
        have hne : pos ≠ parentIdx pos := Nat.ne_of_gt hplt
        have hswap := listSwap_getElem l hx hp
        show IsHeapL le
          (siftUp le n (listSwap l pos (parentIdx pos)) 0 (parentIdx pos))
        refine ih (listSwap l pos (parentIdx pos)) (parentIdx pos)
          ⟨?_, ?_, ?_⟩ (by omega)
        · rw [listSwap_length]
          exact hplen
        · intro i y py h1 hi hy hpy
          rw [hswap i] at hy
          rw [hswap (parentIdx i)] at hpy
          by_cases hipos : i = pos
          · subst hipos
            rw [if_neg (Ne.symm hne), if_pos rfl] at hy
            cases hy
            rw [if_pos rfl] at hpy
            cases hpy
            exact hle2
          · rw [if_neg (fun hc => hi hc.symm), if_neg (fun hc => hipos hc.symm)] at hy
            by_cases hpi : parentIdx i = pos
            · rw [if_neg (by rw [hpi]; exact Ne.symm hne), if_pos hpi.symm] at hpy
              have hpy2 : py = p := by
                injection hpy with h
                exact h.symm
              rw [hpy2]
              exact hB hpos1 i y p hpi hy hp
            · by_cases hpi2 : parentIdx i = parentIdx pos
              · rw [if_pos hpi2.symm] at hpy
                have hpy3 : py = x := by
                  injection hpy with h
                  exact h.symm
                rw [hpy3]
                have hpl2 : l[parentIdx i]? = some p := by
                  rw [hpi2]
                  exact hp
                exact htrans y p x (hA i y p h1 hipos hy hpl2) hle2
              · rw [if_neg (fun hc => hpi2 hc.symm),
                  if_neg (fun hc => hpi hc.symm)] at hpy
                exact hA i y py h1 hipos hy hpy
        · intro hpar1 j y gp hpj hy hgp
          have hgpar : parentIdx (parentIdx pos) ≠ parentIdx pos := by
            have := parentIdx_lt hpar1
            omega
          have hgpos : parentIdx (parentIdx pos) ≠ pos := by
            have h5 := parentIdx_lt hpar1
            omega
          rw [hswap (parentIdx (parentIdx pos)),
            if_neg (fun hc => hgpar hc.symm),
            if_neg (fun hc => hgpos hc.symm)] at hgp
          have h7 : le p gp = true :=
            hA (parentIdx pos) p gp hpar1 (Ne.symm hne) hp hgp
          by_cases hjp : j = pos
          · subst hjp
            rw [hswap j, if_neg (fun hc => hne hc.symm), if_pos rfl] at hy
            have hy2 : y = p := by
              injection hy with h
              exact h.symm
            rw [hy2]
            exact h7
          · have hjpar : j ≠ parentIdx pos := by
              intro hc
              rw [hc] at hpj
              have := parentIdx_lt hpar1
              omega
            rw [hswap j, if_neg (fun hc => hjpar hc.symm),
              if_neg (fun hc => hjp hc.symm)] at hy
            have hj1 : 1 ≤ j := by
              by_contra hc
              have hj0 : j = 0 := by omega
              have hz : parentIdx 0 = 0 := rfl
              rw [hj0, hz] at hpj
              omega
            have h6 : le y p = true := by
              have hpyj : l[parentIdx j]? = some p := by
                rw [hpj]
                exact hp
              exact hA j y p hj1 hjp hy hpyj
            exact htrans y p gp h6 h7

/-- The descent phase of `sift_down_to_bottom` carries the hole to a
childless slot while keeping the one-violation shape needed by the
final `sift_up`. -/
theorem siftDownAux_ok {α : Type} (le : α → α → Bool)
    (htot : ∀ a b, le a b = true ∨ le b a = true) :
    ∀ (fuel : Nat) (l : List α) (pos : Nat),
      DownInv le l pos → l.length - pos ≤ fuel →
      UpInv le (siftDownBottomAux le fuel l pos).1
        (siftDownBottomAux le fuel l pos).2 := by
  intro fuel
  induction fuel with
  | zero =>
    intro l pos hinv hf
    obtain ⟨hlen, _, _⟩ := hinv
    omega
  | succ n ih =>
    intro l pos hinv hf
    obtain ⟨hlen, hA, hB⟩ := hinv
    simp only [siftDownBottomAux]
    by_cases h2c : 2 * pos + 1 + 2 ≤ l.length
    · rw [if_pos h2c]
      obtain ⟨a, ha⟩ : ∃ a, l[2 * pos + 1]? = some a :=
        ⟨l[2 * pos + 1], List.getElem?_eq_getElem (by omega)⟩
      obtain ⟨b, hbb⟩ : ∃ b, l[2 * pos + 1 + 1]? = some b :=
        ⟨l[2 * pos + 1 + 1], List.getElem?_eq_getElem (by omega)⟩
      obtain ⟨z, hz⟩ : ∃ z, l[pos]? = some z :=
        ⟨l[pos], List.getElem?_eq_getElem hlen⟩
      rw [ha, hbb]
      dsimp only
      have hmain : ∀ (cidx osib : Nat) (m ms : α),
          (cidx = 2 * pos + 1 ∧ osib = 2 * pos + 1 + 1 ∨
            cidx = 2 * pos + 1 + 1 ∧ osib = 2 * pos + 1) →
          l[cidx]? = some m → l[osib]? = some ms → le ms m = true →
          DownInv le (listSwap l pos cidx) cidx := by
        intro cidx osib m ms hco hm hms hmax
        have hswap := listSwap_getElem l hz hm
        have hclen : cidx < l.length := by omega
        have hcpos : pos < cidx := by omega
        have hpc : parentIdx cidx = pos := by
          simp only [parentIdx]
          omega
        refine ⟨?_, ?_, ?_⟩
        · rw [listSwap_length]
          exact hclen
        · intro i y py h1 hi hpi hy hpy
          rw [hswap i, if_neg (fun hc => hi hc.symm)] at hy
          by_cases hipos : i = pos
          · subst hipos
            rw [if_pos rfl] at hy
            have hy2 : y = m := by
              injection hy with h
              exact h.symm
            have hplt := parentIdx_lt h1
            have hpar : parentIdx i ≠ cidx := by omega
            have hppos : parentIdx i ≠ i := by omega
            rw [hswap (parentIdx i), if_neg (fun hc => hpar hc.symm),
              if_neg (fun hc => hppos hc.symm)] at hpy
            rw [hy2]
            exact hB h1 cidx m py hpc hm hpy
          · rw [if_neg (fun hc => hipos hc.symm)] at hy
            by_cases hpip : parentIdx i = pos
            · have hio : i = osib := by
                have hpip2 := hpip
                simp only [parentIdx] at hpip2
                omega
              subst hio
              rw [hms] at hy
              have hy2 : y = ms := by
                injection hy with h
                exact h.symm
              rw [hswap (parentIdx i), hpip,
                if_neg (fun hc => hcpos.ne hc.symm),
                if_pos rfl] at hpy
              have hpy2 : py = m := by
                injection hpy with h
                exact h.symm
              rw [hy2, hpy2]
              exact hmax
            · rw [hswap (parentIdx i), if_neg (fun hc => hpi hc.symm),
                if_neg (fun hc => hpip hc.symm)] at hpy
              exact hA i y py h1 hipos hpip hy hpy
        · intro hc1 j y gp hpj hy hgp
          have hpj2 := hpj
          simp only [parentIdx] at hpj2
          have hjc : j ≠ cidx := by omega
          have hjpos : j ≠ pos := by omega
          rw [hswap j, if_neg (fun hc => hjc hc.symm),
            if_neg (fun hc => hjpos hc.symm)] at hy
          rw [hpc] at hgp
          rw [hswap pos, if_neg (fun hc => hcpos.ne hc.symm),
            if_pos rfl] at hgp
          have hgp2 : gp = m := by
            injection hgp with h
            exact h.symm
          rw [hgp2]
          exact hA j y m (by omega) hjpos (by rw [hpj]; omega) hy
            (by rw [hpj]; exact hm)
      by_cases hab : le a b = true
      · rw [if_pos hab]
        refine ih (listSwap l pos (2 * pos + 1 + 1)) (2 * pos + 1 + 1)
          (hmain (2 * pos + 1 + 1) (2 * pos + 1) b a
            (Or.inr ⟨rfl, rfl⟩) hbb ha hab) ?_
        rw [listSwap_length]
        omega
      · rw [if_neg hab]
        have hba : le b a = true := by
          rcases htot a b with h | h
          · exact absurd h hab
          · exact h
        refine ih (listSwap l pos (2 * pos + 1)) (2 * pos + 1)
          (hmain (2 * pos + 1) (2 * pos + 1 + 1) a b
            (Or.inl ⟨rfl, rfl⟩) ha hbb hba) ?_
        rw [listSwap_length]
        omega
    · rw [if_neg h2c]
      by_cases h1c : 2 * pos + 1 + 1 = l.length
      · rw [if_pos h1c]
        obtain ⟨a, ha⟩ : ∃ a, l[2 * pos + 1]? = some a :=
          ⟨l[2 * pos + 1], List.getElem?_eq_getElem (by omega)⟩
        obtain ⟨z, hz⟩ : ∃ z, l[pos]? = some z :=
          ⟨l[pos], List.getElem?_eq_getElem hlen⟩
        have hswap := listSwap_getElem l hz ha
        have hcpos : pos < 2 * pos + 1 := by omega
        have hpc : parentIdx (2 * pos + 1) = pos := by
          simp only [parentIdx]
          omega
        refine ⟨?_, ?_, ?_⟩
        · rw [listSwap_length]
          omega
        · intro i y py h1 hi hy hpy
          rw [hswap i, if_neg (fun hc => hi hc.symm)] at hy
          by_cases hipos : i = pos
          · subst hipos
            rw [if_pos rfl] at hy
            have hy2 : y = a := by
              injection hy with h
              exact h.symm
            have hplt := parentIdx_lt h1
            have hpar : parentIdx i ≠ 2 * i + 1 := by omega
            have hppos : parentIdx i ≠ i := by omega
            rw [hswap (parentIdx i), if_neg (fun hc => hpar hc.symm),
              if_neg (fun hc => hppos hc.symm)] at hpy
            rw [hy2]
            exact hB h1 (2 * i + 1) a py hpc ha hpy
          · rw [if_neg (fun hc => hipos hc.symm)] at hy
            have hbound := (List.getElem?_eq_some.mp hy).1
            by_cases hpip : parentIdx i = pos
            · exfalso
              simp only [parentIdx] at hpip
              omega
            · by_cases hpic : parentIdx i = 2 * pos + 1
              · exfalso
                simp only [parentIdx] at hpic
                omega
              · rw [hswap (parentIdx i), if_neg (fun hc => hpic hc.symm),
                  if_neg (fun hc => hpip hc.symm)] at hpy
                exact hA i y py h1 hipos hpip hy hpy
        · intro hc1 j y gp hpj hy hgp
          exfalso
          have hbound := (List.getElem?_eq_some.mp hy).1
          rw [listSwap_length] at hbound
          simp only [parentIdx] at hpj
          omega
      · rw [if_neg h1c]
        refine ⟨hlen, ?_, ?_⟩
        · intro i y py h1 hi hy hpy
          have hbound : i < l.length := (List.getElem?_eq_some.mp hy).1
          by_cases hpip : parentIdx i = pos
          · exfalso
            simp only [parentIdx] at hpip
            omega
          · exact hA i y py h1 hi hpip hy hpy
        · intro hp1 j y gp hpj hy hgp
          exfalso
          have hbound : j < l.length := (List.getElem?_eq_some.mp hy).1
          simp only [parentIdx] at hpj
          omega

/-- Indexing a cons at a positive index reads the tail. -/
theorem getElem_cons_pos {α : Type} (a : α) (t : List α) {i : Nat}
    (h : 1 ≤ i) : (a :: t)[i]? = t[i - 1]? := by
  obtain ⟨k, rfl⟩ : ∃ k, i = k + 1 := ⟨i - 1, by omega⟩
  simp

/-- `sift_down_to_bottom` from a root hole restores the heap. -/
theorem siftDownToBottom_heap {α : Type} (le : α → α → Bool)
    (htot : ∀ a b, le a b = true ∨ le b a = true)
    (htrans : ∀ a b c, le a b = true → le b c = true → le a c = true)
    (l : List α) (hinv : DownInv le l 0) :
    IsHeapL le (siftDownToBottom le l 0) := by
  simp only [siftDownToBottom]
  have h1 := siftDownAux_ok le htot (l.length + 1) l 0 hinv (by omega)
  exact siftUp_heap le htot htrans _ _ _ h1 (by omega)

/-- Pushing onto a heap yields a heap. -/
theorem heap_push_isHeap {α : Type} (le : α → α → Bool)
    (htot : ∀ a b, le a b = true ∨ le b a = true)
    (htrans : ∀ a b c, le a b = true → le b c = true → le a c = true)
    (h : RustHeap α) (x : α) (hh : IsHeapL le h.data) :
    IsHeapL le (RustHeap.push le h x).data := by
  simp only [RustHeap.push]
  apply siftUp_heap le htot htrans
  · have hlenx : (h.data ++ [x]).length = h.data.length + 1 := by simp
    refine ⟨by omega, ?_, ?_⟩
    · intro i y py h1 hi hy hpy
      have hb := (List.getElem?_eq_some.mp hy).1
      rw [List.length_append, List.length_singleton] at hb
      have hilt : i < h.data.length := by
        simp only [List.length_append, List.length_singleton] at hi ⊢
        omega
      have hplt2 : parentIdx i < h.data.length :=
        lt_trans (parentIdx_lt h1) hilt
      rw [List.getElem?_append, if_pos hilt] at hy
      rw [List.getElem?_append, if_pos hplt2] at hpy
      exact hh i y py h1 hy hpy
    · intro hp1 j y gp hpj hy hgp
      have hb := (List.getElem?_eq_some.mp hy).1
      rw [List.length_append, List.length_singleton] at hb
      simp only [parentIdx] at hpj
      omega
  · have hlenx : (h.data ++ [x]).length = h.data.length + 1 := by simp
    omega

/-- Popping from a heap yields a heap. -/
theorem heap_pop_isHeap {α : Type} (le : α → α → Bool)
    (htot : ∀ a b, le a b = true ∨ le b a = true)
    (htrans : ∀ a b c, le a b = true → le b c = true → le a c = true)
    (h : RustHeap α) (x : α) (h2 : RustHeap α)
    (hh : IsHeapL le h.data) (hp : RustHeap.pop le h = some (x, h2)) :
    IsHeapL le h2.data := by
  unfold RustHeap.pop at hp
  cases hlast : h.data.getLast? with
  | none => rw [hlast] at hp; cases hp
  | some item =>
    rw [hlast] at hp
    have hdecomp : h.data.dropLast ++ [item] = h.data :=
      List.dropLast_append_getLast? item hlast
    cases hdl : h.data.dropLast with
    | nil =>
      rw [hdl] at hp
      simp only [Option.some.injEq, Prod.mk.injEq] at hp
      obtain ⟨h1, h2e⟩ := hp
      rw [← h2e]
      intro i y py hi1 hy hpy
      have hb := (List.getElem?_eq_some.mp hy).1
      simp at hb
    | cons top rest =>
      rw [hdl] at hp
      simp only [Option.some.injEq, Prod.mk.injEq] at hp
      obtain ⟨h1, h2e⟩ := hp
      rw [← h2e]
      show IsHeapL le (siftDownToBottom le (item :: rest) 0)
      rw [hdl] at hdecomp
      apply siftDownToBottom_heap le htot htrans
      have hidx : ∀ k, 1 ≤ k → k < rest.length + 1 →
          h.data[k]? = (item :: rest)[k]? := by
        intro k hk1 hk2
        rw [← hdecomp]
        rw [List.getElem?_append,
          if_pos (show k < (top :: rest).length by simpa using hk2)]
        rw [getElem_cons_pos top rest hk1, getElem_cons_pos item rest hk1]
      refine ⟨by simp, ?_, ?_⟩
      · intro i y py hi1 hi hpi hy hpy
        have hb := (List.getElem?_eq_some.mp hy).1
        simp only [List.length_cons] at hb
        have hpip1 : 1 ≤ parentIdx i := by
          rcases Nat.eq_zero_or_pos (parentIdx i) with h0 | hq
          · exact absurd h0 hpi
          · exact hq
        have hplt2 := parentIdx_lt hi1
        exact hh i y py hi1
          (by rw [hidx i hi1 (by omega)]; exact hy)
          (by rw [hidx (parentIdx i) hpip1 (by omega)]; exact hpy)
      · intro hc1 j y gp hpj hy hgp
        omega

/-- The element returned by `pop` is a greatest element of the heap. -/
theorem heap_pop_max {α : Type} (le : α → α → Bool)
    (htot : ∀ a b, le a b = true ∨ le b a = true)
    (htrans : ∀ a b c, le a b = true → le b c = true → le a c = true)
    (h : RustHeap α) (x : α) (h2 : RustHeap α)
    (hh : IsHeapL le h.data) (hp : RustHeap.pop le h = some (x, h2)) :
    ∀ y ∈ h.data, le y x = true := by
  unfold RustHeap.pop at hp
  cases hlast : h.data.getLast? with
  | none => rw [hlast] at hp; cases hp
  | some item =>
    rw [hlast] at hp
    have hdecomp : h.data.dropLast ++ [item] = h.data :=
      List.dropLast_append_getLast? item hlast
    cases hdl : h.data.dropLast with
    | nil =>
      rw [hdl] at hp
      simp only [Option.some.injEq, Prod.mk.injEq] at hp
      obtain ⟨h1, _⟩ := hp
      rw [hdl] at hdecomp
      have hdata : h.data = [item] := by simpa using hdecomp.symm
      intro y hy
      rw [hdata] at hy
      rcases List.mem_singleton.mp hy with rfl
      rw [← h1]
      rcases htot y y with hq | hq <;> exact hq
    | cons top rest =>
      rw [hdl] at hp
      simp only [Option.some.injEq, Prod.mk.injEq] at hp
      obtain ⟨h1, _⟩ := hp
      rw [hdl] at hdecomp
      intro y hy
      obtain ⟨i, hi⟩ := List.mem_iff_getElem?.mp hy
      have hr : h.data[0]? = some top := by
        rw [← hdecomp]
        simp
      rw [← h1]
      exact heap_le_root le htot htrans h.data hh i y top hi hr

/-- The node comparison is total. -/
theorem nodeLe_total (a b : Node) :
    nodeLe a b = true ∨ nodeLe b a = true := by
  simp only [nodeLe, decide_eq_true_eq]
  omega

/-- The node comparison is transitive. -/
theorem nodeLe_trans (a b c : Node) (h1 : nodeLe a b = true)
    (h2 : nodeLe b c = true) : nodeLe a c = true := by
  simp only [nodeLe, decide_eq_true_eq] at h1 h2 ⊢
  omega

/-- The Manhattan distance is nonnegative. -/
theorem manhattan_nonneg (a b : Pos) : 0 ≤ manhattan_distance a b := by
  simp only [manhattan_distance]
  omega

/-- The Manhattan distance of a point to itself is zero. -/
theorem manhattan_self (a : Pos) : manhattan_distance a a = 0 := by
  simp only [manhattan_distance]
  omega

/-- One unit step changes the Manhattan distance to a fixed goal by at
most one. -/
theorem manhattan_step (p q g : Pos) (h : IsUnitStep p q) :
    manhattan_distance p g ≤ manhattan_distance q g + 1 := by
  obtain ⟨d, rfl⟩ := h
  cases d <;>
    simp only [manhattan_distance, posAdd, Direction.toVector] <;>
    omega

/-- The Manhattan distance to the goal is at most the edge count of any
unit-step path to it. -/
theorem manhattan_le_path (g : Pos) :
    ∀ (p : List Pos) (s : Pos), p.head? = some s → p.getLast? = some g →
      List.Chain' IsUnitStep p →
      manhattan_distance s g ≤ (p.length : Int) - 1 := by
  intro p
  induction p with
  | nil => intro s h; cases h
  | cons s0 rest ih =>
    intro s hhead hlast hchain
    have hs : s0 = s := by simpa using hhead
    subst hs
    cases rest with
    | nil =>
      have hg : s0 = g := by simpa using hlast
      subst hg
      rw [manhattan_self]
      simp
    | cons r rest2 =>
      rw [List.getLast?_cons_cons] at hlast
      have hstep : IsUnitStep s0 r := (List.chain'_cons.mp hchain).1
      have h1 := manhattan_step s0 r g hstep
      have h2 := ih r rfl hlast (List.chain'_cons.mp hchain).2
      simp only [List.length_cons] at h2 ⊢
      push_cast at h2 ⊢
      omega

/-- Expanding one direction preserves the partial optimality invariant
and records the direction as processed. -/
theorem expandDir_opt (blk : Pos → Bool) (g xp : Pos) (d : Direction)
    (done : List Direction) (st st' : AStarState)
    (hinv : AStarOptPartial blk g xp done st)
    (hexp : expandDir blk g xp d st = some st') :
    AStarOptPartial blk g xp (d :: done) st' := by
  obtain ⟨hheap, hO1, hO2, hdone⟩ := hinv
  simp only [expandDir] at hexp
  by_cases hb : blk (posAdd xp d.toVector) = true
  · rw [if_pos hb] at hexp
    simp only [Option.some.injEq] at hexp
    subst hexp
    refine ⟨hheap, hO1, hO2, ?_⟩
    intro gq hgq d2 hd2 hblk2
    rcases List.mem_cons.mp hd2 with rfl | hd2
    · rw [hblk2] at hb
      cases hb
    · exact hdone gq hgq d2 hd2 hblk2
  · rw [if_neg hb] at hexp
    cases hxp : alookup st.cost xp with
    | none => rw [hxp] at hexp; cases hexp
    | some gx =>
      rw [hxp] at hexp
      dsimp only at hexp
      have hnpxp : posAdd xp d.toVector ≠ xp := posAdd_toVector_ne xp d
      cases hold : alookup st.cost (posAdd xp d.toVector) with
      | none =>
        rw [hold] at hexp
        dsimp only at hexp
        rw [if_pos rfl] at hexp
        simp only [Option.some.injEq] at hexp
        subst hexp
        refine ⟨?_, ?_, ?_, ?_⟩
        · exact heap_push_isHeap nodeLe nodeLe_total nodeLe_trans
            st.openSet _ hheap
        · intro nd hnd
          rcases (mem_heap_push nodeLe st.openSet _ nd).mp hnd with rfl | hnd2
          · exact ⟨gx + 1, by rw [alookup_cons, if_pos rfl], le_refl _⟩
          · obtain ⟨c, hc, hle⟩ := hO1 nd hnd2
            by_cases hpos2 : posAdd xp d.toVector = nd.position
            · rw [hpos2] at hold
              rw [hold] at hc
              cases hc
            · exact ⟨c, by rw [alookup_cons, if_neg hpos2]; exact hc, hle⟩
        · intro q gq hgq hqxp
          rw [alookup_cons] at hgq
          split at hgq
          · rename_i heq
            simp only [Option.some.injEq] at hgq
            subst hgq
            left
            refine ⟨⟨posAdd xp d.toVector,
              gx + 1 + manhattan_distance (posAdd xp d.toVector) g⟩,
              (mem_heap_push nodeLe st.openSet _ _).mpr (Or.inl rfl),
              heq, ?_⟩
            rw [heq]
          · rename_i hne
            rcases hO2 q gq hgq hqxp with ⟨nd, hnd, hpos2, hle⟩ | hexp2
            · exact Or.inl ⟨nd,
                (mem_heap_push nodeLe st.openSet _ nd).mpr (Or.inr hnd),
                hpos2, hle⟩
            · right
              intro d2 hblk2
              obtain ⟨gr, hgr, hgrle⟩ := hexp2 d2 hblk2
              by_cases hsame : posAdd xp d.toVector = posAdd q d2.toVector
              · rw [← hsame] at hgr
                rw [hold] at hgr
                cases hgr
              · exact ⟨gr, by rw [alookup_cons, if_neg hsame]; exact hgr,
                  hgrle⟩
        · intro gq hgq d2 hd2 hblk2
          rw [alookup_cons, if_neg hnpxp] at hgq
          rcases List.mem_cons.mp hd2 with rfl | hd2
          · refine ⟨gx + 1, by rw [alookup_cons, if_pos rfl], ?_⟩
            rw [hgq] at hxp
            injection hxp with hxx
            omega
          · obtain ⟨gr, hgr, hgrle⟩ := hdone gq hgq d2 hd2 hblk2
            by_cases hsame : posAdd xp d.toVector = posAdd xp d2.toVector
            · rw [← hsame] at hgr
              rw [hold] at hgr
              cases hgr
            · exact ⟨gr, by rw [alookup_cons, if_neg hsame]; exact hgr,
                hgrle⟩
      | some gold =>
        rw [hold] at hexp
        dsimp only at hexp
        by_cases hbetter : gx + 1 < gold
        · rw [if_pos (by simpa using hbetter)] at hexp
          simp only [Option.some.injEq] at hexp
          subst hexp
          refine ⟨?_, ?_, ?_, ?_⟩
          · exact heap_push_isHeap nodeLe nodeLe_total nodeLe_trans
              st.openSet _ hheap
          · intro nd hnd
            rcases (mem_heap_push nodeLe st.openSet _ nd).mp hnd with
              rfl | hnd2
            · exact ⟨gx + 1, by rw [alookup_cons, if_pos rfl], le_refl _⟩
            · obtain ⟨c, hc, hle⟩ := hO1 nd hnd2
              by_cases hpos2 : posAdd xp d.toVector = nd.position
              · refine ⟨gx + 1, by rw [alookup_cons, if_pos hpos2], ?_⟩
                rw [hpos2] at hold
                rw [hold] at hc
                injection hc with hc2
                subst hc2
                have := manhattan_nonneg nd.position g
                omega
              · exact ⟨c, by rw [alookup_cons, if_neg hpos2]; exact hc,
                  hle⟩
          · intro q gq hgq hqxp
            rw [alookup_cons] at hgq
            split at hgq
            · rename_i heq
              simp only [Option.some.injEq] at hgq
              subst hgq
              left
              refine ⟨⟨posAdd xp d.toVector,
                gx + 1 + manhattan_distance (posAdd xp d.toVector) g⟩,
                (mem_heap_push nodeLe st.openSet _ _).mpr (Or.inl rfl),
                heq, ?_⟩
              rw [heq]
            · rename_i hne
              rcases hO2 q gq hgq hqxp with ⟨nd, hnd, hpos2, hle⟩ | hexp2
              · exact Or.inl ⟨nd,
                  (mem_heap_push nodeLe st.openSet _ nd).mpr (Or.inr hnd),
                  hpos2, hle⟩
              · right
                intro d2 hblk2
                obtain ⟨gr, hgr, hgrle⟩ := hexp2 d2 hblk2
                by_cases hsame : posAdd xp d.toVector = posAdd q d2.toVector
                · refine ⟨gx + 1, by rw [alookup_cons, if_pos hsame], ?_⟩
                  rw [← hsame] at hgr
                  rw [hold] at hgr
                  injection hgr with hgr2
                  omega
                · exact ⟨gr, by rw [alookup_cons, if_neg hsame]; exact hgr,
                    hgrle⟩
          · intro gq hgq d2 hd2 hblk2
            rw [alookup_cons, if_neg hnpxp] at hgq
            rcases List.mem_cons.mp hd2 with rfl | hd2
            · refine ⟨gx + 1, by rw [alookup_cons, if_pos rfl], ?_⟩
              rw [hgq] at hxp
              injection hxp with hxx
              omega
            · obtain ⟨gr, hgr, hgrle⟩ := hdone gq hgq d2 hd2 hblk2
              by_cases hsame : posAdd xp d.toVector = posAdd xp d2.toVector
              · refine ⟨gx + 1, by rw [alookup_cons, if_pos hsame], ?_⟩
                rw [← hsame] at hgr
                rw [hold] at hgr
                injection hgr with hgr2
                omega
              · exact ⟨gr, by rw [alookup_cons, if_neg hsame]; exact hgr,
                  hgrle⟩
        · rw [if_neg (by simpa using hbetter)] at hexp
          simp only [Option.some.injEq] at hexp
          subst hexp
          refine ⟨hheap, hO1, hO2, ?_⟩
          intro gq hgq d2 hd2 hblk2
          rcases List.mem_cons.mp hd2 with rfl | hd2
          · refine ⟨gold, hold, ?_⟩
            rw [hgq] at hxp
            injection hxp with hxx
            omega
          · exact hdone gq hgq d2 hd2 hblk2

/-- Popping preserves the optimality invariant, with the popped
position exempted. -/
theorem astar_pop_opt (blk : Pos → Bool) (g : Pos) (st : AStarState)
    (x : Node) (h' : RustHeap Node)
    (hinv : AStarOpt blk g st)
    (hpop : RustHeap.pop nodeLe st.openSet = some (x, h')) :
    AStarOptPartial blk g x.position [] { st with openSet := h' } := by
  obtain ⟨hheap, hO1, hO2⟩ := hinv
  have hperm := heap_pop_perm nodeLe st.openSet x h' hpop
  refine ⟨?_, ?_, ?_, ?_⟩
  · exact heap_pop_isHeap nodeLe nodeLe_total nodeLe_trans st.openSet
      x ⟨h'.data⟩ hheap (by rw [hpop])
  · intro nd hnd
    exact hO1 nd (hperm.mem_iff.mpr (List.mem_cons_of_mem x hnd))
  · intro q gq hgq hqxp
    rcases hO2 q gq hgq with ⟨nd, hnd, hpos, hle⟩ | hexp2
    · have hmem : nd ∈ x :: h'.data := hperm.mem_iff.mp hnd
      rcases List.mem_cons.mp hmem with rfl | hnd2
      · exact absurd hpos (fun hc => hqxp hc.symm)
      · exact Or.inl ⟨nd, hnd2, hpos, hle⟩
    · exact Or.inr hexp2
  · intro gq hgq d2 hd2
    cases hd2

/-- Fully expanding the popped position restores the optimality
invariant. -/
theorem expandNode_opt (blk : Pos → Bool) (g xp : Pos)
    (st st' : AStarState)
    (hinv : AStarOptPartial blk g xp [] st)
    (hexp : expandNode blk g xp st = some st') :
    AStarOpt blk g st' := by
  simp only [expandNode] at hexp
  cases h1 : expandDir blk g xp Direction.up st with
  | none => rw [h1] at hexp; cases hexp
  | some s1 =>
    rw [h1] at hexp
    dsimp only at hexp
    have p1 := expandDir_opt blk g xp Direction.up [] st s1 hinv h1
    cases h2 : expandDir blk g xp Direction.down s1 with
    | none => rw [h2] at hexp; cases hexp
    | some s2 =>
      rw [h2] at hexp
      dsimp only at hexp
      have p2 := expandDir_opt blk g xp Direction.down _ s1 s2 p1 h2
      cases h3 : expandDir blk g xp Direction.left s2 with
      | none => rw [h3] at hexp; cases hexp
      | some s3 =>
        rw [h3] at hexp
        dsimp only at hexp
        have p3 := expandDir_opt blk g xp Direction.left _ s2 s3 p2 h3
        have p4 := expandDir_opt blk g xp Direction.right _ s3 st' p3 hexp
        obtain ⟨hheap, hO1, hO2, hdone⟩ := p4
        refine ⟨hheap, hO1, ?_⟩
        intro q gq hgq
        by_cases hqxp : q = xp
        · subst hqxp
          right
          intro d hblk
          refine hdone gq hgq d ?_ hblk
          cases d <;> simp
        · exact hO2 q gq hgq hqxp

/-- The initial search state satisfies the optimality invariant. -/
theorem astar_init_opt (blk : Pos → Bool) (a g : Pos) :
    AStarOpt blk g
      { openSet := RustHeap.push nodeLe RustHeap.empty
          ⟨a, manhattan_distance a g⟩
        cameFrom := []
        cost := [(a, 0)] } := by
  have hdata : (RustHeap.push nodeLe RustHeap.empty
      ⟨a, manhattan_distance a g⟩).data =
      [⟨a, manhattan_distance a g⟩] := rfl
  refine ⟨?_, ?_, ?_⟩
  · intro i x px h1 hx hpx
    rw [hdata] at hx
    have := (List.getElem?_eq_some.mp hx).1
    simp at this
    omega
  · intro nd hnd
    rw [hdata] at hnd
    rcases List.mem_singleton.mp hnd with rfl
    refine ⟨0, by rw [alookup_cons, if_pos rfl], ?_⟩
    simp
  · intro q gq hgq
    rw [alookup_cons] at hgq
    split at hgq
    · rename_i heq
      simp only [Option.some.injEq] at hgq
      subst hgq
      left
      refine ⟨⟨a, manhattan_distance a g⟩, ?_, heq, ?_⟩
      · rw [hdata]
        exact List.mem_singleton.mpr rfl
      · rw [← heq]
        simp
    · cases hgq

/-- The reconstructed path is no longer than the goal's cost plus one:
parent links decrease the cost by at least one per step. -/
theorem reconstructPath_length (cameFrom : List (Pos × Pos))
    (cost : List (Pos × Int)) (a : Pos)
    (hS2 : ∀ q pr, alookup cameFrom q = some pr →
      ∃ gq gp, alookup cost q = some gq ∧ alookup cost pr = some gp ∧
        gp + 1 ≤ gq)
    (hpos : ∀ q gq, alookup cost q = some gq → 0 ≤ gq) :
    ∀ (fuel : Nat) (cur : Pos) (p : List Pos) (gcur : Int),
      alookup cost cur = some gcur →
      reconstructPath cameFrom a fuel cur = some p →
      (p.length : Int) ≤ gcur + 1 := by
  intro fuel
  induction fuel with
  | zero => intro cur p gcur _ h; cases h
  | succ n ih =>
    intro cur p gcur hc h
    simp only [reconstructPath] at h
    split at h
    · simp only [Option.some.injEq] at h
      subst h
      have := hpos cur gcur hc
      simp
      omega
    · cases hcf : alookup cameFrom cur with
      | none => rw [hcf] at h; cases h
      | some prev =>
        rw [hcf] at h
        dsimp only at h
        cases hrec : reconstructPath cameFrom a n prev with
        | none => rw [hrec] at h; cases h
        | some p2 =>
          rw [hrec] at h
          simp only [Option.map_some'] at h
          have hp : p = p2 ++ [cur] := by
            injection h with h2
            exact h2.symm
          subst hp
          obtain ⟨gq, gp, hgq, hgp, hle⟩ := hS2 cur prev hcf
          have hgq2 : gq = gcur := by
            rw [hgq] at hc
            injection hc
          have hrec2 := ih prev p2 gp hgp hrec
          simp only [List.length_append, List.length_singleton]
          push_cast
          omega

/-- Frontier walk: along any unblocked unit-step path into the goal
whose start is costed within `j`, either the goal is costed within the
path's edge budget, or some open node's priority is within it. -/
theorem astar_walk (blk : Pos → Bool) (g : Pos) (st : AStarState)
    (hopt : AStarOpt blk g st) :
    ∀ (p : List Pos) (s : Pos) (gs j : Int),
      p.head? = some s → alookup st.cost s = some gs → gs ≤ j →
      p.getLast? = some g → List.Chain' IsUnitStep p →
      (∀ q ∈ p.tail, blk q = false) →
      (∃ gg, alookup st.cost g = some gg ∧
        gg ≤ j + ((p.length : Int) - 1)) ∨
      (∃ nd ∈ st.openSet.data,
        nd.heuristic ≤ j + ((p.length : Int) - 1)) := by
  obtain ⟨hheap, hO1, hO2⟩ := hopt
  intro p
  induction p with
  | nil => intro s gs j h; cases h
  | cons s0 rest ih =>
    intro s gs j hhead hcost hgsj hlast hchain htail
    have hs : s0 = s := by simpa using hhead
    subst hs
    rcases hO2 s0 gs hcost with ⟨nd, hnd, hpos, hle⟩ | hexp2
    · right
      refine ⟨nd, hnd, ?_⟩
      have hman := manhattan_le_path g (s0 :: rest) s0 rfl hlast hchain
      omega
    · cases rest with
      | nil =>
        left
        have hg : s0 = g := by simpa using hlast
        subst hg
        exact ⟨gs, hcost, by simp; omega⟩
      | cons r rest2 =>
        have hstep : IsUnitStep s0 r := (List.chain'_cons.mp hchain).1
        obtain ⟨d, hd⟩ := hstep
        have hblkr : blk r = false :=
          htail r (List.mem_cons_self r rest2)
        obtain ⟨gr, hgr, hgrle⟩ := hexp2 d (by rw [← hd]; exact hblkr)
        rw [← hd] at hgr
        rw [List.getLast?_cons_cons] at hlast
        have := ih r gr (j + 1) rfl hgr (by omega) hlast
          (List.chain'_cons.mp hchain).2
          (fun q hq => htail q (List.mem_cons_of_mem r hq))
        simp only [List.length_cons] at this ⊢
        push_cast at this ⊢
        rcases this with ⟨gg, h1, h2⟩ | ⟨nd, h1, h2⟩
        · exact Or.inl ⟨gg, h1, by omega⟩
        · exact Or.inr ⟨nd, h1, by omega⟩

/-- A path returned by the search loop is a shortest valid path. -/
theorem findPathLoop_opt (blk : Pos → Bool) (a g : Pos) :
    ∀ (fuel : Nat) (st : AStarState) (p : List Pos),
      AStarInv blk a g st → AStarOpt blk g st →
      findPathLoop blk a g fuel st = some (some p) →
      ∀ P, ValidPath blk a g P → p.length ≤ P.length := by
  intro fuel
  induction fuel with
  | zero => intro st p _ _ h; cases h
  | succ n ih =>
    intro st p hinv hopt h
    simp only [findPathLoop] at h
    cases hpop : RustHeap.pop nodeLe st.openSet with
    | none =>
      rw [hpop] at h
      dsimp only at h
      cases h
    | some pr =>
      obtain ⟨x, h'⟩ := pr
      rw [hpop] at h
      dsimp only at h
      by_cases hxg : x.position = g
      · rw [if_pos hxg] at h
        cases hrec : reconstructPath st.cameFrom a (n + 1) g with
        | none => rw [hrec] at h; cases h
        | some p2 =>
          rw [hrec] at h
          dsimp only at h
          have hp2 : p2 = p := by
            injection h with h2
            injection h2
          subst hp2
          obtain ⟨hS1, hS4, hS2, hS3, hE0, hE1, hE3⟩ := hinv
          obtain ⟨hheap, hO1, hO2⟩ := hopt
          have hxmem : x ∈ st.openSet.data :=
            (heap_pop_perm nodeLe st.openSet x h' hpop).mem_iff.mpr
              (List.mem_cons_self x h'.data)
          have hgs : (alookup st.cost g).isSome = true := by
            rw [← hxg]
            exact hE0 x hxmem
          obtain ⟨gg, hgg⟩ : ∃ gg, alookup st.cost g = some gg := by
            cases hlk : alookup st.cost g with
            | none => rw [hlk] at hgs; cases hgs
            | some v => exact ⟨v, rfl⟩
          have hlen : ((p2.length : Int)) ≤ gg + 1 :=
            reconstructPath_length st.cameFrom st.cost a
              (fun q pr hq => (hS2 q pr hq).2.2) hS4 (n + 1) g p2 gg
              hgg hrec
          intro P hP
          obtain ⟨hPh, hPl, hPc, hPt⟩ := hP
          have hwalk := astar_walk blk g st ⟨hheap, hO1, hO2⟩ P a 0 0
            hPh hS1 (le_refl 0) hPl hPc hPt
          have hggP : gg ≤ (P.length : Int) - 1 := by
            rcases hwalk with ⟨gg2, hgg2, hb⟩ | ⟨nd, hnd, hb⟩
            · rw [hgg] at hgg2
              injection hgg2 with h3
              omega
            · have hmax := heap_pop_max nodeLe nodeLe_total nodeLe_trans
                st.openSet x h' hheap hpop nd hnd
              simp only [nodeLe, decide_eq_true_eq] at hmax
              obtain ⟨c, hc, hcle⟩ := hO1 x hxmem
              rw [hxg] at hc
              rw [hgg] at hc
              injection hc with h4
              rw [hxg, manhattan_self] at hcle
              omega
          omega
      · rw [if_neg hxg] at h
        cases hexp : expandNode blk g x.position
            { st with openSet := h' } with
        | none => rw [hexp] at h; cases h
        | some st2 =>
          rw [hexp] at h
          exact ih st2 p
            (astar_iterate blk a g st x h' st2 hinv hpop hxg hexp)
            (expandNode_opt blk g x.position _ st2
              (astar_pop_opt blk g st x h' hopt hpop) hexp) h

/-- `find_path` returns shortest paths. -/
theorem findPath_opt (fuel : Nat) (a g : Pos) (blk : Pos → Bool)
    (p : List Pos) (h : find_path fuel a g blk = some (some p)) :
    ∀ P, ValidPath blk a g P → p.length ≤ P.length :=
  findPathLoop_opt blk a g fuel _ p (astar_init blk a g)
    (astar_init_opt blk a g) h

/-- The first minimum under a key is a minimum. -/
theorem minByKeyFirst_le (key : Pos → Int) :
    ∀ (ts : List Pos) (m : Pos), minByKeyFirst key ts = some m →
      ∀ t ∈ ts, key m ≤ key t := by
  intro ts
  induction ts with
  | nil => intro m h; cases h
  | cons x xs ih =>
    intro m h t ht
    simp only [minByKeyFirst] at h
    cases h2 : minByKeyFirst key xs with
    | none =>
      rw [h2] at h
      dsimp only at h
      cases h
      rcases List.mem_cons.mp ht with rfl | ht2
      · exact le_refl _
      · cases xs with
        | nil => cases ht2
        | cons y ys =>
          simp only [minByKeyFirst] at h2
          split at h2
          · cases h2
          · split at h2 <;> cases h2
    | some m2 =>
      rw [h2] at h
      dsimp only at h
      split at h
      · rename_i hle
        cases h
        rcases List.mem_cons.mp ht with rfl | ht2
        · exact le_refl _
        · exact le_trans hle (ih m2 h2 t ht2)
      · rename_i hgt
        cases h
        rcases List.mem_cons.mp ht with rfl | ht2
        · omega
        · exact ih m h2 t ht2

/-- One table-building step adds exactly the binding for a processed
Floor, non-Deadlock cell. -/
theorem lowerBoundCell_domain (fuel : Nat) (l : Level)
    (acc acc2 : List (Pos × Nat)) (p : Pos)
    (h : lowerBoundCell fuel l acc p = some (some acc2)) :
    ∀ q, (alookup acc2 q).isSome = true ↔
      ((q = p ∧ l.isFloor p = true ∧ l.isDeadlock p = false) ∨
        (alookup acc q).isSome = true) := by
  simp only [lowerBoundCell] at h
  split at h
  · rename_i hcond
    simp only [Option.some.injEq] at h
    subst h
    intro q
    constructor
    · exact fun hq => Or.inr hq
    · rintro (⟨rfl, hf, hd⟩ | hq)
      · rw [hf, hd] at hcond
        simp at hcond
      · exact hq
  · rename_i hcond
    have hfd : l.isFloor p = true ∧ l.isDeadlock p = false := by
      constructor
      · rcases Bool.eq_false_or_eq_true (l.isFloor p) with h0 | h0
        · exact h0
        · exfalso
          rw [h0] at hcond
          simp at hcond
      · rcases Bool.eq_false_or_eq_true (l.isDeadlock p) with h0 | h0
        · exfalso
          rw [h0] at hcond
          simp at hcond
        · exact h0
    cases hmin : minByKeyFirst (fun t => manhattan_distance t p)
        l.goals with
    | none => rw [hmin] at h; cases h
    | some tgt =>
      rw [hmin] at h
      dsimp only at h
      cases hfp : find_path fuel p tgt (fun r => l.isWall r) with
      | none => rw [hfp] at h; cases h
      | some r0 =>
        rw [hfp] at h
        cases r0 with
        | none => dsimp only at h; cases h
        | some path =>
          dsimp only at h
          cases h
          intro q
          rw [alookup_cons]
          constructor
          · intro hq
            split at hq
            · rename_i heq
              exact Or.inl ⟨heq.symm, hfd⟩
            · exact Or.inr hq
          · rintro (⟨rfl, _, _⟩ | hq)
            · rw [if_pos rfl]
              rfl
            · split
              · rfl
              · exact hq

/-- Domain of the table after the whole fold. -/
theorem lowerBoundsFold_domain (fuel : Nat) (l : Level) :
    ∀ (cells : List Pos) (acc table : List (Pos × Nat)),
      lowerBoundsFold fuel l cells acc = some (some table) →
      ∀ q, (alookup table q).isSome = true ↔
        ((q ∈ cells ∧ l.isFloor q = true ∧ l.isDeadlock q = false) ∨
          (alookup acc q).isSome = true) := by
  intro cells
  induction cells with
  | nil =>
    intro acc table h q
    cases h
    simp
  | cons p rest ih =>
    intro acc table h q
    simp only [lowerBoundsFold] at h
    cases hcell : lowerBoundCell fuel l acc p with
    | none => rw [hcell] at h; cases h
    | some r0 =>
      rw [hcell] at h
      cases r0 with
      | none => dsimp only at h; cases h
      | some acc2 =>
        dsimp only at h
        rw [ih acc2 table h q,
          lowerBoundCell_domain fuel l acc acc2 p hcell q]
        constructor
        · rintro (⟨hmem, hf, hd⟩ | ⟨rfl, hf, hd⟩ | hq)
          · exact Or.inl ⟨List.mem_cons_of_mem p hmem, hf, hd⟩
          · exact Or.inl ⟨List.mem_cons_self q rest, hf, hd⟩
          · exact Or.inr hq
        · rintro (⟨hmem, hf, hd⟩ | hq)
          · rcases List.mem_cons.mp hmem with rfl | hmem2
            · exact Or.inr (Or.inl ⟨rfl, hf, hd⟩)
            · exact Or.inl ⟨hmem2, hf, hd⟩
          · exact Or.inr (Or.inr hq)

/-- Every binding written by one table-building step stores the length,
minus one, of a shortest wall-avoiding path to the first
Manhattan-minimal target. -/
theorem lowerBoundCell_values (fuel : Nat) (l : Level)
    (acc acc2 : List (Pos × Nat)) (p : Pos)
    (h : lowerBoundCell fuel l acc p = some (some acc2))
    (hacc : ∀ q v, (q, v) ∈ acc →
      ∃ tgt path,
        minByKeyFirst (fun t => manhattan_distance t q) l.goals =
          some tgt ∧
        ValidPath (fun r => l.isWall r) q tgt path ∧
        (∀ P, ValidPath (fun r => l.isWall r) q tgt P →
          path.length ≤ P.length) ∧
        v = path.length - 1) :
    ∀ q v, (q, v) ∈ acc2 →
      ∃ tgt path,
        minByKeyFirst (fun t => manhattan_distance t q) l.goals =
          some tgt ∧
        ValidPath (fun r => l.isWall r) q tgt path ∧
        (∀ P, ValidPath (fun r => l.isWall r) q tgt P →
          path.length ≤ P.length) ∧
        v = path.length - 1 := by
  simp only [lowerBoundCell] at h
  split at h
  · simp only [Option.some.injEq] at h
    subst h
    exact hacc
  · cases hmin : minByKeyFirst (fun t => manhattan_distance t p)
        l.goals with
    | none => rw [hmin] at h; cases h
    | some tgt =>
      rw [hmin] at h
      dsimp only at h
      cases hfp : find_path fuel p tgt (fun r => l.isWall r) with
      | none => rw [hfp] at h; cases h
      | some r0 =>
        rw [hfp] at h
        cases r0 with
        | none => dsimp only at h; cases h
        | some path =>
          dsimp only at h
          cases h
          intro q v hqv
          rcases List.mem_cons.mp hqv with heq | hmem
          · injection heq with hq hv
            subst hq
            subst hv
            refine ⟨tgt, path, hmin, ?_, ?_, rfl⟩
            · exact (findPathLoop_props (fun r => l.isWall r) q tgt fuel
                _ (some path) (astar_init _ q tgt) hfp).1 path rfl
            · exact fun P hP => findPath_opt fuel q tgt
                (fun r => l.isWall r) path hfp P hP
          · exact hacc q v hmem

/-- Value property of every binding after the whole fold. -/
theorem lowerBoundsFold_values (fuel : Nat) (l : Level) :
    ∀ (cells : List Pos) (acc table : List (Pos × Nat)),
      lowerBoundsFold fuel l cells acc = some (some table) →
      (∀ q v, (q, v) ∈ acc →
        ∃ tgt path,
          minByKeyFirst (fun t => manhattan_distance t q) l.goals =
            some tgt ∧
          ValidPath (fun r => l.isWall r) q tgt path ∧
          (∀ P, ValidPath (fun r => l.isWall r) q tgt P →
            path.length ≤ P.length) ∧
          v = path.length - 1) →
      ∀ q v, (q, v) ∈ table →
        ∃ tgt path,
          minByKeyFirst (fun t => manhattan_distance t q) l.goals =
            some tgt ∧
          ValidPath (fun r => l.isWall r) q tgt path ∧
          (∀ P, ValidPath (fun r => l.isWall r) q tgt P →
            path.length ≤ P.length) ∧
          v = path.length - 1 := by
  intro cells
  induction cells with
  | nil =>
    intro acc table h hacc
    cases h
    exact hacc
  | cons p rest ih =>
    intro acc table h hacc
    simp only [lowerBoundsFold] at h
    cases hcell : lowerBoundCell fuel l acc p with
    | none => rw [hcell] at h; cases h
    | some r0 =>
      rw [hcell] at h
      cases r0 with
      | none => dsimp only at h; cases h
      | some acc2 =>
        dsimp only at h
        exact ih acc2 table h
          (lowerBoundCell_values fuel l acc acc2 p hcell hacc)

/-- C4, amended.  A successfully built lower-bound table has a binding
exactly for the interior Floor, non-Deadlock cells, and each binding
stores the length, minus one, of a shortest wall-avoiding path from
the cell to a Manhattan-nearest target (the first minimum in target
iteration order).  Unamended, the claim fails on cells from which the
chosen target is unreachable: they do not get "no entry" — the whole
construction panics and no table is produced. -/
theorem c4_amended_lower_bounds (fuel : Nat) (l : Level)
    (table : List (Pos × Nat))
    (h : calculate_lower_bounds fuel l = some (some table)) :
    (∀ q : Pos, (alookup table q).isSome = true ↔
      (q ∈ interiorCells l ∧ l.isFloor q = true ∧
        l.isDeadlock q = false)) ∧
    (∀ q v, alookup table q = some v →
      ∃ tgt path, tgt ∈ l.goals ∧
        (∀ t ∈ l.goals,
          manhattan_distance tgt q ≤ manhattan_distance t q) ∧
        ValidPath (fun r => l.isWall r) q tgt path ∧
        (∀ P, ValidPath (fun r => l.isWall r) q tgt P →
          path.length ≤ P.length) ∧
        v = path.length - 1) := by
  constructor
  · intro q
    rw [lowerBoundsFold_domain fuel l (interiorCells l) [] table h q]
    constructor
    · rintro (hq | hq)
      · exact hq
      · exact absurd hq (by simp [alookup])
    · exact fun hq => Or.inl hq
  · intro q v hlk
    obtain ⟨tgt, path, hmin, hvp, hshort, hv⟩ :=
      lowerBoundsFold_values fuel l (interiorCells l) [] table h
        (fun q2 v2 hq2 => by cases hq2) q v
        (alookup_some_mem table q v hlk)
    exact ⟨tgt, path, minByKeyFirst_mem _ l.goals tgt hmin,
      minByKeyFirst_le _ l.goals tgt hmin, hvp, hshort, hv⟩

/-- C4, counterexample.  On `lvlC4` the interior floor cell (1,1) is
walled off from the single target (4,2), its Manhattan-nearest target;
the claim says such a cell has no entry, but the construction panics
instead (`some none`), producing no table at all. -/
theorem c4_counterexample :
    calculate_lower_bounds 100 lvlC4 = some none ∧
    ((1 : Int), (1 : Int)) ∈ interiorCells lvlC4 ∧
    lvlC4.isFloor (1, 1) = true ∧
    lvlC4.isDeadlock (1, 1) = false ∧
    minByKeyFirst (fun t => manhattan_distance t (1, 1)) lvlC4.goals =
      some (4, 2) ∧
    find_path 100 (1, 1) (4, 2) (fun r => lvlC4.isWall r) = some none ∧
    ¬∃ p, ValidPath (fun r => lvlC4.isWall r) (1, 1) (4, 2) p :=
  ⟨by decide, by decide, by decide, by decide, by decide, by decide,
    (findPathLoop_props (fun r => lvlC4.isWall r) (1, 1) (4, 2) 100 _
      none (astar_init _ (1, 1) (4, 2)) (by decide)).2 rfl⟩

theorem c4_witness :
    ((alookup sA.lowerBounds ((1 : Int), (1 : Int))).isSome = true ↔
      (((1 : Int), (1 : Int)) ∈ interiorCells lvlA ∧
        lvlA.isFloor (1, 1) = true ∧ lvlA.isDeadlock (1, 1) = false)) ∧
    (∃ tgt path, tgt ∈ lvlA.goals ∧
      (∀ t ∈ lvlA.goals, manhattan_distance tgt (1, 1) ≤
        manhattan_distance t (1, 1)) ∧
      ValidPath (fun r => lvlA.isWall r) (1, 1) tgt path ∧
      (∀ P, ValidPath (fun r => lvlA.isWall r) (1, 1) tgt P →
        path.length ≤ P.length) ∧
      2 = path.length - 1) :=
  ⟨(c4_amended_lower_bounds 100 lvlA sA.lowerBounds (by decide)).1
      (1, 1),
    (c4_amended_lower_bounds 100 lvlA sA.lowerBounds (by decide)).2
      (1, 1) 2 (by decide)⟩

/-- C8, counterexample.  In an open 5×5 room from (2,2) to (4,4) the
code's A* and the claim-side A* with insertion-order (stable)
tie-breaking return different paths, so ties in the open set are not
broken by insertion order. -/
theorem c8_counterexample :
    find_path 60 (2, 2) (4, 4) (openRoom 5 5) =
        some (some [(2, 2), (2, 3), (3, 3), (3, 4), (4, 4)]) ∧
    findPathStable 60 (2, 2) (4, 4) (openRoom 5 5) =
        some (some [(2, 2), (2, 3), (2, 4), (3, 4), (4, 4)]) ∧
    find_path 60 (2, 2) (4, 4) (openRoom 5 5) ≠
      findPathStable 60 (2, 2) (4, 4) (openRoom 5 5) := by
  decide

/-- C8, amended.  find_path is partially correct: a returned path is a
valid 4-connected unblocked path from the source to the goal, and a
returned None means no such path exists; but termination is not
guaranteed (with the goal off an all-unblocked row the search runs
forever at every fuel), and open-set ties follow the binary heap sift
order, not insertion order. -/
theorem c8_amended_find_path :
    (∀ (fuel : Nat) (a g : Pos) (blk : Pos → Bool) (p : List Pos),
      find_path fuel a g blk = some (some p) → ValidPath blk a g p) ∧
    (∀ (fuel : Nat) (a g : Pos) (blk : Pos → Bool),
      find_path fuel a g blk = some none →
        ¬∃ p, ValidPath blk a g p) ∧
    (∀ fuel : Nat, find_path fuel (0, 0) (5, 1) rowBlocked = none) := by
  refine ⟨?_, ?_, findPath_row_none⟩
  · intro fuel a g blk p h
    exact (findPathLoop_props blk a g fuel _ (some p)
      (astar_init blk a g) h).1 p rfl
  · intro fuel a g blk h
    exact (findPathLoop_props blk a g fuel _ none
      (astar_init blk a g) h).2 rfl

theorem c8_amended_witness :
    ValidPath (openRoom 5 5) (2, 2) (4, 4)
      [(2, 2), (2, 3), (3, 3), (3, 4), (4, 4)] ∧
    ¬∃ p, ValidPath (fun _ => true) (0, 0) (1, 0) p :=
  ⟨c8_amended_find_path.1 60 (2, 2) (4, 4) (openRoom 5 5)
      [(2, 2), (2, 3), (3, 3), (3, 4), (4, 4)] (by decide),
    c8_amended_find_path.2.1 5 (0, 0) (1, 0) (fun _ => true) (by decide)⟩

/-- The tunnel-chaining loop only ever appends to the movement log. -/
theorem skipTunnels_movements (s : Solver) (boxes : List Pos) (d : Direction) :
    ∀ (fuel : Nat) (b : Pos) (ms : List Action),
      ∃ extra, (skipTunnels s boxes d fuel b ms).2 = ms ++ extra := by
  intro fuel
  induction fuel with
  | zero => exact fun b ms => ⟨[], (List.append_nil ms).symm⟩
  | succ n ih =>
    intro b ms
    simp only [skipTunnels]
    by_cases h1 : decide ((posSub b d.toVector, d) ∈ s.tunnels) = true
    · simp only [h1, if_true]
      by_cases h2 : can_block_crate s boxes (posAdd b d.toVector) = true
      · exact ⟨[], by simp [h2]⟩
      · simp only [h2, Bool.false_eq_true, if_false]
        obtain ⟨extra, he⟩ :=
          ih (posAdd b d.toVector) (ms ++ [Action.push d])
        exact ⟨[Action.push d] ++ extra, by simp [he]⟩
    · simp only [h1, Bool.false_eq_true, if_false]
      exact ⟨[], (List.append_nil ms).symm⟩

/-- Every emitted successor carries a nonempty movement log (at least
the walk plus one Push). -/
theorem trySuccessor_movements_ne_nil (s : Solver) (st : State)
    (area : List Pos) (b : Pos) (d : Direction) (t : State)
    (h : trySuccessor s st area b d = some (some t)) : t.movements ≠ [] := by
  simp only [trySuccessor] at h
  split at h
  · exact absurd h (by simp)
  · split at h
    · exact absurd h (by simp)
    · split at h
      · exact absurd h (by simp)
      · exact absurd h (by simp)
      · rename_i path heq
        split at h
        · exact absurd h (by simp)
        · rename_i moves hmoves
          split at h
          · exact absurd h (by simp)
          · simp only [Option.some.injEq] at h
            obtain ⟨extra, he⟩ := skipTunnels_movements s st.box_positions d
              s.fuel (posAdd b d.toVector)
              (st.movements ++ moves ++ [Action.push d])
            subst h
            show (skipTunnels s st.box_positions d s.fuel
              (posAdd b d.toVector)
              (st.movements ++ moves ++ [Action.push d])).2 ≠ []
            rw [he]
            intro hnil
            have := congrArg List.length hnil
            simp [List.length_append] at this

/-- Every member of a `successorsAux` result was emitted by some
candidate. -/
theorem successorsAux_mem (s : Solver) (st : State) (area : List Pos) :
    ∀ (cands : List (Pos × Direction)) (l : List State) (t : State),
      successorsAux s st area cands = some l → t ∈ l →
      ∃ b d, trySuccessor s st area b d = some (some t) := by
  intro cands
  induction cands with
  | nil =>
    intro l t h ht
    simp only [successorsAux, Option.some.injEq] at h
    subst h
    cases ht
  | cons hd tl ih =>
    intro l t h ht
    obtain ⟨b, d⟩ := hd
    simp only [successorsAux] at h
    cases hts : trySuccessor s st area b d with
    | none => rw [hts] at h; cases h
    | some o =>
      cases o with
      | none =>
        rw [hts] at h
        exact ih l t h ht
      | some t' =>
        rw [hts] at h
        cases hrec : successorsAux s st area tl with
        | none => rw [hrec] at h; cases h
        | some l' =>
          rw [hrec] at h
          simp only [Option.map_some', Option.some.injEq] at h
          subst h
          rcases List.mem_cons.mp ht with h1 | h1
          · subst h1; exact ⟨b, d, hts⟩
          · exact ih l' t hrec h1

/-- A solution returned by the successor loop is the movement log of one
of the successors. -/
theorem handleSuccessors_solution (s : Solver) (visited : List State) :
    ∀ (succs : List State) (h : RustHeap State) (m : List Action),
      handleSuccessors s visited succs h = .inr m →
      ∃ t ∈ succs, m = t.movements := by
  intro succs
  induction succs with
  | nil => intro h m hh; cases hh
  | cons t rest ih =>
    intro h m hh
    simp only [handleSuccessors] at hh
    split at hh
    · obtain ⟨u, hu, hm⟩ := ih h m hh
      exact ⟨u, List.mem_cons_of_mem t hu, hm⟩
    · split at hh
      · cases hh
        exact ⟨t, List.mem_cons_self t rest, rfl⟩
      · obtain ⟨u, hu, hm⟩ := ih _ m hh
        exact ⟨u, List.mem_cons_of_mem t hu, hm⟩

/-- Unfolding equation for one iteration of the search loop. -/
theorem solveLoop_succ (s : Solver) (timedOut : Nat → Bool) (fuel : Nat)
    (ss : SearchState) :
    solveLoop s timedOut (fuel + 1) ss =
      match RustHeap.pop (stateLe s) ss.heap with
      | none => some (.error .noSolution)
      | some (st, heap') =>
        if timedOut (fuel + 1) then some (.error .timeout)
        else
          match st.successors s with
          | none => none
          | some succs =>
            match handleSuccessors s
                (visitedInsert ss.visited (st.normalized s)) succs heap' with
            | .inr m => some (.ok m)
            | .inl heap'' =>
              solveLoop s timedOut fuel
                ⟨heap'', visitedInsert ss.visited (st.normalized s)⟩ := by
  simp only [solveLoop]

/-- A solution returned by the search loop is the movement log of a
successor of some expanded state. -/
theorem solveLoop_ok_movements (s : Solver) (timedOut : Nat → Bool) :
    ∀ (fuel : Nat) (ss : SearchState) (m : List Action),
      solveLoop s timedOut fuel ss = some (.ok m) →
      ∃ (st : State) (succs : List State) (t : State),
        st.successors s = some succs ∧ t ∈ succs ∧ m = t.movements := by
  intro fuel
  induction fuel with
  | zero => intro ss m h; cases h
  | succ n ih =>
    intro ss m h
    rw [solveLoop_succ] at h
    cases hpop : RustHeap.pop (stateLe s) ss.heap with
    | none => rw [hpop] at h; cases h
    | some pr =>
      obtain ⟨st, heap'⟩ := pr
      rw [hpop] at h
      dsimp only at h
      split at h
      · cases h
      · cases hsucc : st.successors s with
        | none => rw [hsucc] at h; cases h
        | some succs =>
          rw [hsucc] at h
          dsimp only at h
          cases hh : handleSuccessors s
              (visitedInsert ss.visited (st.normalized s)) succs heap' with
          | inr m' =>
            rw [hh] at h
            obtain ⟨t, htmem, hm⟩ :=
              handleSuccessors_solution s _ succs heap' m' hh
            have hmm : m' = m := by simpa using h
            exact ⟨st, succs, t, hsucc, htmem, hmm ▸ hm⟩
          | inl heap'' =>
            rw [hh] at h
            exact ih _ m h

/-- C10.  Solvedness is only tested on successors: any returned solution
is nonempty (so a level that starts solved never gets the empty
answer), and a solved initial configuration with no legal successor
still yields NoSolution when the clock never expires. -/
theorem c10_initial_state_never_tested :
    (∀ (fuel : Nat) (l : Level) (strat : Strategy) (timedOut : Nat → Bool)
      (m : List Action),
      (∀ b ∈ l.crateStart, b ∈ l.goals) →
      solveLevel fuel l strat timedOut = some (.ok m) → m ≠ []) ∧
    (∀ (fuel : Nat) (l : Level) (strat : Strategy) (s : Solver),
      (∀ b ∈ l.crateStart, b ∈ l.goals) →
      mkSolver (fuel + 2) l strat = some (some s) →
      (initialState l).successors s = some [] →
      solveLevel (fuel + 2) l strat (fun _ => false) =
        some (.error .noSolution)) := by
  constructor
  · intro fuel l strat timedOut m _ h
    unfold solveLevel at h
    cases hmk : mkSolver fuel l strat with
    | none => rw [hmk] at h; cases h
    | some o =>
      cases o with
      | none => rw [hmk] at h; cases h
      | some s =>
        rw [hmk] at h
        obtain ⟨st, succs, t, hsucc, htmem, hm⟩ :=
          solveLoop_ok_movements s timedOut fuel _ m h
        obtain ⟨b, d, hts⟩ :=
          successorsAux_mem s st (st.player_reachable_area s)
            (pushCandidates st) succs t hsucc htmem
        rw [hm]
        exact trySuccessor_movements_ne_nil s st _ b d t hts
  · intro fuel l strat s _ hmk hsucc
    unfold solveLevel
    rw [hmk]
    dsimp only
    have e1 : RustHeap.push (stateLe s) RustHeap.empty (initialState l) =
        ⟨[initialState l]⟩ := rfl
    rw [e1]
    have e2 : solveLoop s (fun _ => false) (fuel + 2)
        ⟨⟨[initialState l]⟩, []⟩ =
        solveLoop s (fun _ => false) (fuel + 1)
          ⟨⟨[]⟩, visitedInsert [] ((initialState l).normalized s)⟩ := by
      rw [show fuel + 2 = (fuel + 1) + 1 from rfl, solveLoop_succ]
      rw [show RustHeap.pop (stateLe s) (⟨[initialState l]⟩ : RustHeap State) =
          some (initialState l, ⟨[]⟩) from rfl]
      simp [hsucc, handleSuccessors]
    rw [e2, solveLoop_succ]
    rfl

/-- Witness for C10: on `lvlB` (box already on a target) the solver
answers with one push, not the empty sequence; on `lvlC10` (solved but
with no legal push) it answers NoSolution. -/
theorem c10_witness :
    ([Action.push .right] ≠ ([] : List Action)) ∧
    solveLevel 100 lvlC10 .fast (fun _ => false) =
      some (.error .noSolution) :=
  ⟨c10_initial_state_never_tested.1 100 lvlB .fast (fun _ => false)
      [Action.push .right] (by decide) (by decide),
   c10_initial_state_never_tested.2 98 lvlC10 .fast sC10 (by decide)
      (by decide) (by decide)⟩

end Sokoban
